import Mathlib

/-!
Verification development for the text-normalization engine of the
AI-project-Text-Correction repository (`text_cleaner.py`).

Texts are modelled as lists of Unicode characters (`List Char`); a line is a
newline-free character list.  Every Python regular expression used by the
engine is embedded as an explicit executable scanner over character lists,
and each pipeline pass of `clean_text` is translated function by function.
-/

namespace TextCleaner

abbrev Line := List Char
abbrev Text := List Char

/-- The set of characters stripped by Python's `str.strip()` / matched by the
regex class `\s` in unicode mode: ASCII whitespace, the C1 separators,
NEL, NBSP, ogham space, the U+2000 block, line/paragraph separators, narrow
no-break space, medium mathematical space and the ideographic space. -/
def pySpace (c : Char) : Bool :=
  c = ' ' || c = '\t' || c = '\n' || c = '\r' ||
  c = Char.ofNat 0x0b || c = Char.ofNat 0x0c ||
  c = Char.ofNat 0x1c || c = Char.ofNat 0x1d ||
  c = Char.ofNat 0x1e || c = Char.ofNat 0x1f ||
  c = Char.ofNat 0x85 || c = Char.ofNat 0xa0 ||
  c = Char.ofNat 0x1680 ||
  (0x2000 ≤ c.toNat && c.toNat ≤ 0x200a) ||
  c = Char.ofNat 0x2028 || c = Char.ofNat 0x2029 ||
  c = Char.ofNat 0x202f || c = Char.ofNat 0x205f ||
  c = Char.ofNat 0x3000

/-- `line.lstrip()` — drop leading whitespace. -/
def lstrip (l : List Char) : List Char := l.dropWhile pySpace

/-- `line.rstrip()` — drop trailing whitespace. -/
def rstrip (l : List Char) : List Char := (l.reverse.dropWhile pySpace).reverse

/-- `line.strip()` — drop whitespace on both ends. -/
def pyStrip (l : List Char) : List Char := lstrip (rstrip l)

/-- Strip the characters satisfying `p` from both ends of a string, as
Python's `str.strip(chars)` does. -/
def stripSet (p : Char → Bool) (l : List Char) : List Char :=
  ((l.dropWhile p).reverse.dropWhile p).reverse

/-- Split on the characters satisfying `p`, in the style of Python's
`str.split` with a one-character separator: the result always has one more
element than the number of separator occurrences. -/
def splitOnP (p : Char → Bool) : List Char → List (List Char)
  | [] => [[]]
  | c :: rest =>
    if p c then [] :: splitOnP p rest
    else
      match splitOnP p rest with
      | l :: ls => (c :: l) :: ls
      | [] => [[c]]

/-- Split a text on `'\n'`, exactly as Python's `text.split("\n")`. -/
def splitLines (t : Text) : List Line := splitOnP (fun c => c = '\n') t

/-- `"\n".join(lines)`. -/
def joinLines : List Line → Text
  | [] => []
  | [l] => l
  | l :: ls => l ++ '\n' :: joinLines ls

/-- Python `sep.join(parts)`. -/
def interJoin (sep : List Char) : List (List Char) → List Char
  | [] => []
  | [l] => l
  | l :: ls => l ++ sep ++ interJoin sep ls

/-- Map with the element index, used to mirror Python's `enumerate` loops. -/
def mapWithIdx (f : Nat → α → β) : Nat → List α → List β
  | _, [] => []
  | i, a :: as => f i a :: mapWithIdx f (i + 1) as

/-- Python `needle in hay` substring test. -/
def containsSub (needle hay : List Char) : Bool :=
  match hay with
  | [] => needle.isEmpty
  | _ :: rest => needle.isPrefixOf hay || containsSub needle rest

/-- ASCII-only lowercasing, mirroring `str.lower()` on the inputs the engine
compares (the keyword hints are ASCII/CJK, and CJK has no case). -/
def asciiLower (c : Char) : Char :=
  if 'A' ≤ c && c ≤ 'Z' then Char.ofNat (c.toNat + 32) else c

def lowerStr (l : List Char) : List Char := l.map asciiLower

/-! ## Line classifier (`is_code_line_candidate`, `detect_code_line_indexes`) -/

/-- Model of the regex class `\w` (unicode mode) on the characters the engine
handles: ASCII alphanumerics, underscore and the CJK ideograph block. -/
def isWordChar (c : Char) : Bool :=
  ('A' ≤ c && c ≤ 'Z') || ('a' ≤ c && c ≤ 'z') || ('0' ≤ c && c ≤ '9') ||
  c = '_' || (0x4e00 ≤ c.toNat && c.toNat ≤ 0x9fff)

def isIdentStart (c : Char) : Bool :=
  ('A' ≤ c && c ≤ 'Z') || ('a' ≤ c && c ≤ 'z') || c = '_'

def isAsciiWord (c : Char) : Bool :=
  ('A' ≤ c && c ≤ 'Z') || ('a' ≤ c && c ≤ 'z') || ('0' ≤ c && c ≤ '9') || c = '_'

def isDigit (c : Char) : Bool := '0' ≤ c && c ≤ '9'

/-- Word boundary `\b` after a word character: the following text must not
start with another word character. -/
def boundaryAfter (s : List Char) : Bool :=
  match s with
  | [] => true
  | c :: _ => !isWordChar c

/-- Eat a literal prefix. -/
def eatStr (pre : String) (s : List Char) : Option (List Char) :=
  if pre.toList.isPrefixOf s then some (s.drop pre.toList.length) else none

/-- Eat `\s+` (at least one whitespace character, greedily). -/
def eatWS1 (s : List Char) : Option (List Char) :=
  match s with
  | c :: rest => if pySpace c then some (rest.dropWhile pySpace) else none
  | [] => none

/-- Eat `[A-Za-z_][\w.]*`. -/
def eatIdentDots (s : List Char) : Option (List Char) :=
  match s with
  | c :: rest =>
    if isIdentStart c then some (rest.dropWhile (fun d => isWordChar d || d = '.'))
    else none
  | [] => none

/-- `^(?:from\s+[A-Za-z_][\w.]*\s+import\b|import\s+[A-Za-z_][\w.]*)`. -/
def patImport (s : List Char) : Bool :=
  (match eatStr "from" s with
   | some r1 =>
     match eatWS1 r1 with
     | some r2 =>
       match eatIdentDots r2 with
       | some r3 =>
         match eatWS1 r3 with
         | some r4 =>
           match eatStr "import" r4 with
           | some r5 => boundaryAfter r5
           | none => false
         | none => false
       | none => false
     | none => false
   | none => false) ||
  (match eatStr "import" s with
   | some r1 =>
     match eatWS1 r1 with
     | some r2 => (eatIdentDots r2).isSome
     | none => false
   | none => false)

/-- `^(?:class|def)\s+[A-Za-z_]\w*`. -/
def patClassDef (s : List Char) : Bool :=
  match (eatStr "class" s).orElse (fun _ => eatStr "def" s) with
  | some r1 =>
    match eatWS1 r1 with
    | some (c :: _) => isIdentStart c
    | _ => false
  | none => false

def controlKeywords : List String :=
  ["if", "elif", "else", "for", "while", "try", "except", "finally", "with"]

/-- `^(?:if|elif|else|for|while|try|except|finally|with)\b.*:\s*$`
(no keyword of the alternation is a prefix of another, so existential
matching over the alternatives is exact). -/
def patControl (s : List Char) : Bool :=
  controlKeywords.any fun kw =>
    match eatStr kw s with
    | some r =>
      boundaryAfter r &&
      (match (rstrip r).getLast? with
       | some ':' => true
       | _ => false)
    | none => false

def simpleKeywords : List String := ["return", "yield", "break", "continue", "pass"]

/-- `^(?:return|yield|break|continue|pass)\b`. -/
def patSimpleKw (s : List Char) : Bool :=
  simpleKeywords.any fun kw =>
    match eatStr kw s with
    | some r => boundaryAfter r
    | none => false

/-- `^[A-Za-z_][A-Za-z0-9_]*\s*=\s*.+`. -/
def patAssign (s : List Char) : Bool :=
  match s with
  | c :: rest =>
    if isIdentStart c then
      match (rest.dropWhile isAsciiWord).dropWhile pySpace with
      | '=' :: tail => !tail.isEmpty
      | _ => false
    else false
  | [] => false

/-- `^[A-Za-z_][\w.]*\([^)]*\)\s*$`. -/
def patCall (s : List Char) : Bool :=
  match eatIdentDots s with
  | some ('(' :: r) =>
    match r.dropWhile (fun c => !(c = ')')) with
    | ')' :: tail => (tail.dropWhile pySpace).isEmpty
    | _ => false
  | _ => false

/-- `^@[A-Za-z_][\w.]*`. -/
def patDecorator (s : List Char) : Bool :=
  match s with
  | '@' :: c :: _ => isIdentStart c
  | _ => false

/-- The tuple `CODE_STRONG_PATTERNS`, tried on the stripped line. -/
def strongMatch (s : List Char) : Bool :=
  patImport s || patClassDef s || patControl s || patSimpleKw s ||
  patAssign s || patCall s || patDecorator s

/-- `CODE_SYMBOL_PATTERN = re.compile(r"[{}\[\]=;]")` as a search. -/
def hasCodeSymbol (s : List Char) : Bool :=
  s.any fun c => c = '{' || c = '}' || c = '[' || c = ']' || c = '=' || c = ';'

def cnHintChars : List Char := "，。！？；：、“”‘’（）【】《》".toList

/-- `CN_PUNCT_HINT_PATTERN` as a search. -/
def hasCNHint (s : List Char) : Bool := s.any fun c => cnHintChars.contains c

/-- `FENCED_CODE_PATTERN.match(stripped)`: the stripped line starts with
three backticks. -/
def fenceLine (s : List Char) : Bool := "```".toList.isPrefixOf s

/-- `is_code_line_candidate`. -/
def is_code_line_candidate (line : Line) : Bool :=
  let s := pyStrip line
  if s.isEmpty then false
  else if strongMatch s then true
  else if hasCodeSymbol s && !hasCNHint s then true
  else false

/-- `raw.startswith(("    ", "\t"))`. -/
def startsIndent (raw : Line) : Bool :=
  "    ".toList.isPrefixOf raw || "\t".toList.isPrefixOf raw

def isBlankLine (l : Line) : Bool := (pyStrip l).isEmpty

/-- The first scan of `detect_code_line_indexes`: walk the lines with the
`in_fenced_code` flag, producing the initial strong set and weak set. -/
def scanLines : Nat → Bool → List Line → List Nat × List Nat
  | _, _, [] => ([], [])
  | i, fenced, raw :: rest =>
    let s := pyStrip raw
    if fenceLine s then scanLines (i + 1) (!fenced) rest
    else if fenced then
      let (c, w) := scanLines (i + 1) fenced rest
      (i :: c, w)
    else if s.isEmpty then scanLines (i + 1) fenced rest
    else if is_code_line_candidate raw then
      let (c, w) := scanLines (i + 1) fenced rest
      (i :: c, w)
    else if startsIndent raw then
      let (c, w) := scanLines (i + 1) fenced rest
      (c, i :: w)
    else if s.head? = some '#' then
      let (c, w) := scanLines (i + 1) fenced rest
      (c, i :: w)
    else scanLines (i + 1) fenced rest

/-- The promotion condition of the fixed-point loop: adjacent to a code line,
or separated from one by a single blank line (the Python `-1`/`-2` index
arithmetic is guarded so that negative indices never test as members). -/
def promoteCond (lines : List Line) (code : List Nat) (i : Nat) : Bool :=
  (decide (1 ≤ i) && code.contains (i - 1)) || code.contains (i + 1) ||
  (decide (2 ≤ i) && code.contains (i - 2) && isBlankLine (lines.getD (i - 1) [])) ||
  (code.contains (i + 2) && decide (i + 1 < lines.length) &&
    isBlankLine (lines.getD (i + 1) []))

/-- The `while changed` propagation loop.  Each pass promotes every weak line
whose condition holds against the current code set; the Python loop promotes
sequentially inside one pass but repeats until nothing changes, so both
compute the same closure.  The fuel is the weak-set size: every productive
pass removes at least one weak index. -/
def propagateAux (lines : List Line) : Nat → List Nat → List Nat → List Nat × List Nat
  | 0, code, weak => (code, weak)
  | fuel + 1, code, weak =>
    let promoted := weak.filter (promoteCond lines code)
    if promoted.isEmpty then (code, weak)
    else propagateAux lines fuel (code ++ promoted)
      (weak.filter fun i => !promoteCond lines code i)

/-- `detect_code_line_indexes`. -/
def detect_code_line_indexes (lines : List Line) : List Nat :=
  let (code, weak) := scanLines 0 false lines
  (propagateAux lines weak.length code weak).1

/-! ## Table-row predicates -/

/-- Python `text.split(sep)` for a single-character separator. -/
def splitOnChar (sep : Char) (l : List Char) : List (List Char) :=
  splitOnP (fun c => c = sep) l

/-- `is_table_row_line`: contains a pipe and splitting on pipes yields at
least two non-blank trimmed segments. -/
def is_table_row_line (line : Line) : Bool :=
  line.contains '|' &&
  decide (2 ≤ (((splitOnChar '|' line).map pyStrip).filter
    (fun p => !p.isEmpty)).length)

/-- `re.fullmatch(r":?-{3,}:?", cell)`. -/
def sepCellMatch (cell : List Char) : Bool :=
  let r := match cell with
    | ':' :: rest => rest
    | rest => rest
  let dashes := r.takeWhile (fun c => c = '-')
  decide (3 ≤ dashes.length) &&
  (match r.drop dashes.length with
   | [] => true
   | [':'] => true
   | _ => false)

/-- `is_table_separator_line`. -/
def is_table_separator_line (line : Line) : Bool :=
  let s := pyStrip line
  if !s.contains '|' then false
  else
    let cells := (splitOnChar '|' (stripSet (fun c => c = '|') s)).map pyStrip
    if cells.isEmpty then false
    else cells.all fun cell => !cell.isEmpty && sepCellMatch cell

/-! ## `normalize_list_markers` -/

/-- `re.match(r"^([-*_])(?:\s*\1){2,}$", line)` on a stripped line: a
horizontal-rule-like run.  The tail must consist solely of whitespace and the
lead character, end in the lead character, and contain it at least twice. -/
def hrLineMatch (line : List Char) : Bool :=
  match line with
  | c :: rest =>
    (c = '-' || c = '*' || c = '_') &&
    rest.all (fun x => pySpace x || x = c) &&
    (rest.getLast? = some c) &&
    decide (2 ≤ rest.count c)
  | [] => false

def bulletChars : List Char := "-*+•·●▪◦‣⁃".toList

/-- `re.match(r"^(?:[-*+•·●▪◦‣⁃])\s*(.+)$", line)`: returns the rewritten
`• `-prefixed line on success. -/
def bulletMatch (line : List Char) : Option (List Char) :=
  match line with
  | c :: rest =>
    if bulletChars.contains c && !rest.isEmpty then
      some ("• ".toList ++ pyStrip rest)
    else none
  | [] => none

def orderedClosers : List Char := ")）.、".toList

/-- `re.match(r"^[（(]?(\d{1,3})[)）.、]\s*(.+)$", line)`: returns the
rewritten `N. `-line on success.  The digit group is forced to be the whole
digit run (a longer run leaves a digit where the closer must sit). -/
def orderedMatch (line : List Char) : Option (List Char) :=
  let body := match line with
    | '（' :: rest => rest
    | '(' :: rest => rest
    | rest => rest
  let ds := body.takeWhile isDigit
  if 1 ≤ ds.length && ds.length ≤ 3 then
    match body.drop ds.length with
    | c :: rest =>
      if orderedClosers.contains c && !rest.isEmpty then
        some (ds ++ ". ".toList ++ pyStrip rest)
      else none
    | [] => none
  else none

/-- `normalize_list_markers`. -/
def normalize_list_markers (t : Text) : Text :=
  let lines := splitLines t
  let code := detect_code_line_indexes lines
  joinLines (mapWithIdx (fun i raw =>
    if code.contains i then rstrip raw
    else
      let line := pyStrip raw
      if line.isEmpty then []
      else if hrLineMatch line then line
      else
        match bulletMatch line with
        | some res => res
        | none =>
          match orderedMatch line with
          | some res => res
          | none => line) 0 lines)

/-! ## `remove_repeated_noise` -/

def isColonChar (c : Char) : Bool := c = ':' || c = '：'

/-- One group of `(?:\s*[^:：\n]{1,20}\1){2,}` at the head of `s`: the next
colon character must equal `c`, sit at distance `1..
20 + (what the leading `\s*` can absorb)`, with no colon in between.
Returns the suffix after the group on success. -/
def noiseColonGroup (c : Char) (s : List Char) : Option (List Char) :=
  let mid := s.takeWhile fun x => !isColonChar x && !(x = '\n')
  let d := mid.length
  match s.drop d with
  | x :: rest =>
    if x = c && decide (1 ≤ d) &&
        decide (d - min (mid.takeWhile pySpace).length (d - 1) ≤ 20) then
      some rest
    else none
  | [] => none

/-- Greedily consume groups, returning the count and the final suffix. -/
def noiseColonReps (c : Char) : Nat → List Char → Nat × List Char
  | 0, s => (0, s)
  | fuel + 1, s =>
    match noiseColonGroup c s with
    | some rest =>
      let (n, fin) := noiseColonReps c fuel rest
      (n + 1, fin)
    | none => (0, s)

/-- `re.sub(r"([:：])(?:\s*[^:：\n]{1,20}\1){2,}", r"\1", line)`. -/
def noiseSubColonRuns : Nat → List Char → List Char
  | fuel, s =>
    match s, fuel with
    | [], _ => []
    | c :: rest, 0 => c :: rest
    | c :: rest, fuel + 1 =>
      if isColonChar c then
        let (n, fin) := noiseColonReps c rest.length rest
        if 2 ≤ n then c :: noiseSubColonRuns fuel fin
        else c :: noiseSubColonRuns fuel rest
      else c :: noiseSubColonRuns fuel rest

/-- Count leading copies of `lab` and return the suffix after them. -/
def countRepsOf (lab : List Char) : Nat → List Char → Nat × List Char
  | 0, s => (0, s)
  | fuel + 1, s =>
    if !lab.isEmpty && lab.isPrefixOf s then
      let (n, fin) := countRepsOf lab fuel (s.drop lab.length)
      (n + 1, fin)
    else (0, s)

/-- `re.sub(r"^((?:[^:：\n]{1,20})[:：])(?:\1){1,}", r"\1", line)`: an
anchored duplicated `label:` prefix collapsed to one copy. -/
def noiseSubLabelDup (s : List Char) : List Char :=
  let mid := s.takeWhile fun x => !isColonChar x && !(x = '\n')
  if 1 ≤ mid.length && mid.length ≤ 20 then
    match s.drop mid.length with
    | col :: rest =>
      if isColonChar col then
        let lab := mid ++ [col]
        let (n, fin) := countRepsOf lab rest.length rest
        if 1 ≤ n then lab ++ fin else s
      else s
    | [] => s
  else s

def repeatPunctChars : List Char := "。.!?！？；;，,、".toList

/-- Greedily consume `(?:\s*c)` repetitions. -/
def punctReps (c : Char) : Nat → List Char → Nat × List Char
  | 0, s => (0, s)
  | fuel + 1, s =>
    let ws := s.takeWhile pySpace
    match s.drop ws.length with
    | x :: rest =>
      if x = c then
        let (n, fin) := punctReps c fuel rest
        (n + 1, fin)
      else (0, s)
    | [] => (0, s)

/-- `re.sub(r"([。.!?！？；;，,、])(?:\s*\1)+", r"\1", line)`. -/
def noiseSubPunctRuns : Nat → List Char → List Char
  | fuel, s =>
    match s, fuel with
    | [], _ => []
    | c :: rest, 0 => c :: rest
    | c :: rest, fuel + 1 =>
      if repeatPunctChars.contains c then
        let (n, fin) := punctReps c rest.length rest
        if 1 ≤ n then c :: noiseSubPunctRuns fuel fin
        else c :: noiseSubPunctRuns fuel rest
      else c :: noiseSubPunctRuns fuel rest

def dupSepChars : List Char := "，,;；".toList

/-- One repetition `(?:\s*[，,;；]\s*tok)` at the head of `s`. -/
def dupTokenRep (tok : List Char) (s : List Char) : Option (List Char) :=
  let ws1 := s.takeWhile pySpace
  match s.drop ws1.length with
  | sep :: rest =>
    if dupSepChars.contains sep then
      let ws2 := rest.takeWhile pySpace
      let body := rest.drop ws2.length
      if tok.isPrefixOf body then some (body.drop tok.length) else none
    else none
  | [] => none

def dupTokenReps (tok : List Char) : Nat → List Char → Nat × List Char
  | 0, s => (0, s)
  | fuel + 1, s =>
    match dupTokenRep tok s with
    | some rest =>
      let (n, fin) := dupTokenReps tok fuel rest
      (n + 1, fin)
    | none => (0, s)

/-- Try token lengths `k, k-1, …, 2` (the greedy `{2,20}` with backtracking):
the first length whose repetition group matches wins. -/
def dupTokenTry (run : List Char) (s : List Char) : Nat → Option (List Char × List Char)
  | 0 => none
  | k + 1 =>
    if k + 1 < 2 then none
    else
      let tok := run.take (k + 1)
      let tail := s.drop (k + 1)
      let (n, fin) := dupTokenReps tok tail.length tail
      if 1 ≤ n then some (tok, fin)
      else dupTokenTry run s k

/-- `re.sub(r"([\w一-鿿]{2,20})(?:\s*[，,;；]\s*\1){1,}", r"\1", line)`
(the character class equals the modelled `\w`, which already contains the
CJK block). -/
def noiseSubDupToken : Nat → List Char → List Char
  | fuel, s =>
    match s, fuel with
    | [], _ => []
    | c :: rest, 0 => c :: rest
    | c :: rest, fuel + 1 =>
      let run := s.takeWhile isWordChar
      if 2 ≤ run.length then
        match dupTokenTry run s (min 20 run.length) with
        | some (tok, fin) => tok ++ noiseSubDupToken fuel fin
        | none => c :: noiseSubDupToken fuel rest
      else c :: noiseSubDupToken fuel rest

def noiseSubColonRunsW (s : List Char) : List Char := noiseSubColonRuns s.length s

def noiseSubPunctRunsW (s : List Char) : List Char := noiseSubPunctRuns s.length s

def noiseSubDupTokenW (s : List Char) : List Char := noiseSubDupToken s.length s

/-- `remove_repeated_noise`. -/
def remove_repeated_noise (t : Text) : Text :=
  let lines := splitLines t
  let code := detect_code_line_indexes lines
  joinLines (mapWithIdx (fun i raw =>
    if code.contains i then rstrip raw
    else
      let line := pyStrip raw
      if line.isEmpty then []
      else if is_table_row_line line || is_table_separator_line line then line
      else
        noiseSubDupTokenW (noiseSubPunctRunsW (noiseSubLabelDup
          (noiseSubColonRunsW line)))) 0 lines)

/-! ## `strip_markdown` and `_strip_markdown_inline`

Each `re.sub` of `_strip_markdown_inline` is embedded as a left-to-right
scanner over the block.  The `MULTILINE`-anchored patterns track whether the
scan position follows a newline (where `^` matches); their leading `\s`
classes may absorb newlines, exactly as the Python patterns do, so a match
reports whether its last consumed character was a newline for the next
anchor test. -/

/-- Driver for an anchored (`^…`, MULTILINE) substitution: the matcher
returns the replacement, the rest and whether the match's last character was
a newline.  A failed attempt moves one character forward. -/
def mdScanAnchored (try_ : List Char → Option (List Char × List Char × Bool)) :
    Nat → Bool → List Char → List Char
  | fuel, atStart, s =>
    match s, fuel with
    | [], _ => []
    | c :: rest, 0 => c :: rest
    | c :: rest, fuel + 1 =>
      if atStart then
        match try_ (c :: rest) with
        | some (rep, r, nl) => rep ++ mdScanAnchored try_ fuel nl r
        | none => c :: mdScanAnchored try_ fuel (c = '\n') rest
      else c :: mdScanAnchored try_ fuel (c = '\n') rest

/-- Driver for an unanchored substitution. -/
def mdScanAnywhere (try_ : List Char → Option (List Char × List Char)) :
    Nat → List Char → List Char
  | fuel, s =>
    match s, fuel with
    | [], _ => []
    | c :: rest, 0 => c :: rest
    | c :: rest, fuel + 1 =>
      match try_ (c :: rest) with
      | some (rep, r) => rep ++ mdScanAnywhere try_ fuel r
      | none => c :: mdScanAnywhere try_ fuel rest

/-- `^\s{0,3}#{1,6}\s*` (ATX heading marker). -/
def mdHeadingTry (s : List Char) : Option (List Char × List Char × Bool) :=
  let ws := s.takeWhile pySpace
  if ws.length ≤ 3 then
    match s.drop ws.length with
    | '#' :: _ =>
      let afterWs := s.drop ws.length
      let hashes := afterWs.takeWhile fun c => c = '#'
      let k := min 6 hashes.length
      let afterH := afterWs.drop k
      let ws2 := afterH.takeWhile pySpace
      some ([], afterH.drop ws2.length, ws2.getLast? = some '\n')
    | _ => none
  else none

/-- `^\s*>\s?` (blockquote marker). -/
def mdQuoteTry (s : List Char) : Option (List Char × List Char × Bool) :=
  let ws := s.takeWhile pySpace
  match s.drop ws.length with
  | '>' :: rest =>
    match rest with
    | c :: rest2 => if pySpace c then some ([], rest2, c = '\n') else some ([], rest, false)
    | [] => some ([], [], false)
  | _ => none

/-- The trailing `\s*$` of the horizontal-rule pattern: consume the largest
whitespace prefix of `u` that leaves the position at a newline or at the end
of the block. -/
def hrTrailTry (u : List Char) : Nat → Option (Nat × List Char)
  | 0 =>
    match u with
    | [] => some (0, [])
    | '\n' :: _ => some (0, u)
    | _ => none
  | j + 1 =>
    match u.drop (j + 1) with
    | [] => some (j + 1, [])
    | '\n' :: _ => some (j + 1, u.drop (j + 1))
    | _ => hrTrailTry u j

/-- Suffixes after each successful `(?:\s*c)` repetition, in order. -/
def hrRepSuffixes (c : Char) : Nat → List Char → List (List Char)
  | 0, _ => []
  | fuel + 1, u =>
    let ws := u.takeWhile pySpace
    match u.drop ws.length with
    | x :: rest => if x = c then rest :: hrRepSuffixes c fuel rest else []
    | _ => []

/-- Backtrack over repetition counts (largest first, at least 2), looking for
a successful trailing `\s*$`. -/
def hrPick (sufsRev : List (List Char)) (cnt : Nat) : Option (List Char × Bool) :=
  match sufsRev with
  | [] => none
  | u :: more =>
    if 2 ≤ cnt then
      match hrTrailTry u (u.takeWhile pySpace).length with
      | some (j, rest) =>
        some (rest, decide (1 ≤ j) && ((u.take j).getLast? = some '\n'))
      | none => hrPick more (cnt - 1)
    else none

/-- `^\s*([-*_])(?:\s*\1){2,}\s*$` (horizontal rule). -/
def mdHrTry (s : List Char) : Option (List Char × List Char × Bool) :=
  let ws := s.takeWhile pySpace
  match s.drop ws.length with
  | c :: after =>
    if c = '-' || c = '*' || c = '_' then
      let sufs := hrRepSuffixes c after.length after
      match hrPick sufs.reverse sufs.length with
      | some (rest, nl) => some ([], rest, nl)
      | none => none
    else none
  | [] => none

/-- ``` ```(?:[\w+-]+)?\n? ``` (fenced-code marker with optional tag). -/
def mdFenceTry (s : List Char) : Option (List Char × List Char) :=
  if "```".toList.isPrefixOf s then
    let after := s.drop 3
    let tag := after.takeWhile fun c => isWordChar c || c = '+' || c = '-'
    let rest := after.drop tag.length
    match rest with
    | '\n' :: rest2 => some ([], rest2)
    | _ => some ([], rest)
  else none

/-- `` `([^`]+)` `` (inline code). -/
def mdCodeTry (s : List Char) : Option (List Char × List Char) :=
  match s with
  | '`' :: rest =>
    let mid := rest.takeWhile fun c => !(c = '`')
    if mid.isEmpty then none
    else
      match rest.drop mid.length with
      | '`' :: tail => some (mid, tail)
      | _ => none
  | _ => none

/-- `\*\*([^*]+)\*\*` (bold). -/
def mdBoldTry (s : List Char) : Option (List Char × List Char) :=
  match s with
  | '*' :: '*' :: rest =>
    let mid := rest.takeWhile fun c => !(c = '*')
    if mid.isEmpty then none
    else
      match rest.drop mid.length with
      | '*' :: '*' :: tail => some (mid, tail)
      | _ => none
  | _ => none

/-- `__([^_]+)__`. -/
def mdUnder2Try (s : List Char) : Option (List Char × List Char) :=
  match s with
  | '_' :: '_' :: rest =>
    let mid := rest.takeWhile fun c => !(c = '_')
    if mid.isEmpty then none
    else
      match rest.drop mid.length with
      | '_' :: '_' :: tail => some (mid, tail)
      | _ => none
  | _ => none

/-- `\*([^*]+)\*` (italic). -/
def mdItalicTry (s : List Char) : Option (List Char × List Char) :=
  match s with
  | '*' :: rest =>
    let mid := rest.takeWhile fun c => !(c = '*')
    if mid.isEmpty then none
    else
      match rest.drop mid.length with
      | '*' :: tail => some (mid, tail)
      | _ => none
  | _ => none

/-- `_([^_]+)_`. -/
def mdUnder1Try (s : List Char) : Option (List Char × List Char) :=
  match s with
  | '_' :: rest =>
    let mid := rest.takeWhile fun c => !(c = '_')
    if mid.isEmpty then none
    else
      match rest.drop mid.length with
      | '_' :: tail => some (mid, tail)
      | _ => none
  | _ => none

/-- `!\[[^\]]*\]\([^\)]*\)` (image). -/
def mdImageTry (s : List Char) : Option (List Char × List Char) :=
  match s with
  | '!' :: '[' :: rest =>
    let alt := rest.takeWhile fun c => !(c = ']')
    match rest.drop alt.length with
    | ']' :: '(' :: rest2 =>
      let url := rest2.takeWhile fun c => !(c = ')')
      match rest2.drop url.length with
      | ')' :: tail => some ([], tail)
      | _ => none
    | _ => none
  | _ => none

/-- `\[([^\]]+)\]\([^\)]*\)` (link, kept as its display text). -/
def mdLinkTry (s : List Char) : Option (List Char × List Char) :=
  match s with
  | '[' :: rest =>
    let txt := rest.takeWhile fun c => !(c = ']')
    if txt.isEmpty then none
    else
      match rest.drop txt.length with
      | ']' :: '(' :: rest2 =>
        let url := rest2.takeWhile fun c => !(c = ')')
        match rest2.drop url.length with
        | ')' :: tail => some (txt, tail)
        | _ => none
      | _ => none
  | _ => none

/-- `^\s*[-*+]\s+` replaced by `• `. -/
def mdBulletTry (s : List Char) : Option (List Char × List Char × Bool) :=
  let ws := s.takeWhile pySpace
  match s.drop ws.length with
  | c :: rest =>
    if c = '-' || c = '*' || c = '+' then
      let ws2 := rest.takeWhile pySpace
      if ws2.isEmpty then none
      else some ("• ".toList, rest.drop ws2.length, ws2.getLast? = some '\n')
    else none
  | [] => none

/-- `^\s*(\d+)[.)]\s+` replaced by `\1. `. -/
def mdOrderedTry (s : List Char) : Option (List Char × List Char × Bool) :=
  let ws := s.takeWhile pySpace
  let body := s.drop ws.length
  let ds := body.takeWhile isDigit
  if ds.isEmpty then none
  else
    match body.drop ds.length with
    | c :: rest =>
      if c = '.' || c = ')' then
        let ws2 := rest.takeWhile pySpace
        if ws2.isEmpty then none
        else some (ds ++ ". ".toList, rest.drop ws2.length, ws2.getLast? = some '\n')
      else none
    | [] => none

/-- Run an anchored substitution over a whole block (the fuel is the block
length; every successful match consumes at least one character). -/
def mdSubAnchored (try_ : List Char → Option (List Char × List Char × Bool))
    (t : Text) : Text :=
  mdScanAnchored try_ t.length true t

/-- Run an unanchored substitution over a whole block. -/
def mdSubAnywhere (try_ : List Char → Option (List Char × List Char)) (t : Text) :
    Text :=
  mdScanAnywhere try_ t.length t

/-- `_strip_markdown_inline`: the ten substitutions in source order. -/
def strip_markdown_inline (t : Text) : Text :=
  mdSubAnchored mdOrderedTry
    (mdSubAnchored mdBulletTry
      (mdSubAnywhere mdLinkTry
        (mdSubAnywhere mdImageTry
          (mdSubAnywhere mdUnder1Try
            (mdSubAnywhere mdItalicTry
              (mdSubAnywhere mdUnder2Try
                (mdSubAnywhere mdBoldTry
                  (mdSubAnywhere mdCodeTry
                    (mdSubAnywhere mdFenceTry
                      (mdSubAnchored mdHrTry
                        (mdSubAnchored mdQuoteTry
                          (mdSubAnchored mdHeadingTry t))))))))))))

/-- The grouping loop of `strip_markdown`: protected lines (table or code)
pass through verbatim; maximal runs of free lines are rejoined and sent
through `_strip_markdown_inline` as one block. -/
def smGo (isProt : Nat → Line → Bool) : Nat → List Line → List Line → List Text
  | _, acc, [] => if acc.isEmpty then [] else [strip_markdown_inline (joinLines acc)]
  | i, acc, l :: rest =>
    if isProt i l then
      (if acc.isEmpty then [] else [strip_markdown_inline (joinLines acc)]) ++
        l :: smGo isProt (i + 1) [] rest
    else smGo isProt (i + 1) (acc ++ [l]) rest

/-- `strip_markdown` (its `keep_tables` parameter is accepted but unused in
the source body, which always protects table lines). -/
def strip_markdown (t : Text) (_keepTables : Bool) : Text :=
  let lines := splitLines t
  let code := detect_code_line_indexes lines
  let isProt : Nat → Line → Bool := fun i l =>
    is_table_row_line l || is_table_separator_line l || code.contains i
  joinLines (smGo isProt 0 [] lines)

/-! ## Table engine -/

/-- `parse_table_row`. -/
def parse_table_row (line : Line) : List (List Char) :=
  (splitOnChar '|' (stripSet (fun c => c = '|') (pyStrip line))).map pyStrip

/-- `format_table_row`. -/
def format_table_row (cells : List (List Char)) : Line :=
  "| ".toList ++ interJoin " | ".toList cells ++ " |".toList

/-- `format_table_separator`. -/
def format_table_separator (colCount : Nat) : Line :=
  "| ".toList ++ interJoin " | ".toList (List.replicate colCount "---".toList) ++
    " |".toList

def headerHints : List String :=
  ["网站", "网址", "核心用途", "优势", "用途", "说明", "备注", "类型", "名称",
   "标题", "平台", "link", "url", "website", "purpose", "usage", "advantage",
   "benefit"]

def titleHints : List String := ["网站", "名称", "标题", "平台", "站点", "资源"]

def urlHints : List String := ["网址", "链接", "url", "URL", "Link", "link"]

/-- `is_probable_header`. -/
def is_probable_header (header : List (List Char)) (dataRows : List (List (List Char))) :
    Bool :=
  if headerHints.any fun h =>
      containsSub h.toList (lowerStr (pyStrip (interJoin [' '] header))) then true
  else if header.any fun cell => containsSub "http".toList (lowerStr cell) then false
  else if (header.all fun cell =>
      (pyStrip cell).isEmpty || decide ((pyStrip cell).length ≤ 10)) &&
      decide (1 ≤ dataRows.length) then true
  else false

/-- `parse_table_block`: separator lines set the header flag and are dropped;
remaining lines are parsed as rows; with no separator the header is inferred
from the first row (the Python loop appends rows in order and checks the flag
afterwards, which the filter/any pair reproduces). -/
def parse_table_block (lines : List Line) : List (List (List Char)) × Bool :=
  let rows := (lines.filter fun l => !is_table_separator_line l).map parse_table_row
  let hasSep := lines.any is_table_separator_line
  match rows with
  | [] => ([], false)
  | r0 :: rest => (rows, hasSep || is_probable_header r0 rest)

/-- `normalize_table_block`. -/
def normalize_table_block (lines : List Line) : List Line :=
  let (rows, hasHeader) := parse_table_block lines
  match rows with
  | [] => lines
  | _ =>
    let colCount := rows.foldl (fun m r => max m r.length) 0
    let padded := rows.map fun r => r ++ List.replicate (colCount - r.length) []
    let normalized := padded.map format_table_row
    if hasHeader || decide (2 ≤ normalized.length) then
      match normalized with
      | r0 :: restN => r0 :: format_table_separator colCount :: restN
      | [] => [format_table_separator colCount]
    else normalized

/-- The block-grouping loop shared by `normalize_table_blocks` and
`convert_table_blocks_to_bullets`: maximal runs of table-row lines are
collected and handed to the block transformer. -/
def tableBlocksGo (f : List Line → List Line) : List Line → List Line → List Line
  | acc, [] => if acc.isEmpty then [] else f acc
  | acc, x :: xs =>
    if is_table_row_line x then tableBlocksGo f (acc ++ [x]) xs
    else (if acc.isEmpty then [] else f acc) ++ x :: tableBlocksGo f [] xs

/-- `normalize_table_blocks`. -/
def normalize_table_blocks (t : Text) : Text :=
  joinLines (tableBlocksGo normalize_table_block [] (splitLines t))

/-- `format_table_bullet`. -/
def format_table_bullet (header row : List (List Char)) : Line :=
  let headerClean := header.map pyStrip
  let rowClean := row.map pyStrip
  let titleIndex := headerClean.findIdx? fun cell =>
    titleHints.any fun h => containsSub h.toList cell
  let urlIndex := headerClean.findIdx? fun cell =>
    urlHints.any fun h => containsSub (lowerStr h.toList) (lowerStr cell)
  let title := match titleIndex with
    | some i => rowClean.getD i []
    | none => []
  let url := match urlIndex with
    | some i => rowClean.getD i []
    | none => []
  let details := (mapWithIdx (fun i lv => (i, lv)) 0 (headerClean.zip rowClean)).filterMap
    fun (i, label, value) =>
      if titleIndex = some i || urlIndex = some i then none
      else if value.isEmpty then none
      else if !label.isEmpty then some (label ++ "：".toList ++ value)
      else some value
  if !title.isEmpty then
    let line := "• ".toList ++ title
    let line := if !url.isEmpty then line ++ "（".toList ++ url ++ "）".toList else line
    if !details.isEmpty then line ++ " — ".toList ++ interJoin "；".toList details
    else line
  else
    let parts := (headerClean.zip rowClean).filterMap fun (label, value) =>
      if value.isEmpty then none
      else if !label.isEmpty then some (label ++ "：".toList ++ value)
      else some value
    match parts with
    | [] => []
    | _ => "• ".toList ++ interJoin "；".toList parts

/-- `table_block_to_bullets`.  (With an explicit-or-inferred header and no
data rows the Python source evaluates `max()` over an empty sequence and
raises; the embedding is total and uses 0 there — no claim depends on that
corner.) -/
def table_block_to_bullets (lines : List Line) : List Line :=
  let (rows, hasHeader) := parse_table_block lines
  match rows with
  | [] => lines
  | r0 :: rest =>
    let header0 := if hasHeader then r0 else []
    let dataRows := if hasHeader then rest else rows
    let maxCols :=
      if !header0.isEmpty then
        max header0.length (dataRows.foldl (fun m r => max m r.length) 0)
      else dataRows.foldl (fun m r => max m r.length) 0
    let header :=
      if !header0.isEmpty then header0 ++ List.replicate (maxCols - header0.length) []
      else List.replicate maxCols []
    dataRows.filterMap fun row =>
      let padded := row ++ List.replicate (maxCols - row.length) []
      let line := format_table_bullet header padded
      if line.isEmpty then none else some line

/-- `convert_table_blocks_to_bullets`. -/
def convert_table_blocks_to_bullets (t : Text) : Text :=
  joinLines (tableBlocksGo table_block_to_bullets [] (splitLines t))

/-! ## Punctuation / whitespace / spacing passes -/

/-- Finite model of `unicodedata.normalize("NFKC", ·)` applied character by
character: the fullwidth ASCII-variant block folds to ASCII, the ideographic
space to an ASCII space, and the horizontal ellipsis to three periods; every
other character handled by the engine (ASCII, CJK ideographs, CJK punctuation
such as 。、《》【】 and curly quotes/dashes, which NFKC leaves alone) maps to
itself. -/
def nfkcChar (c : Char) : List Char :=
  if 0xff01 ≤ c.toNat && c.toNat ≤ 0xff5e then
    [Char.ofNat (c.toNat - 0xfee0)]
  else if c = Char.ofNat 0x3000 then [' ']
  else if c = '…' then "...".toList
  else [c]

/-- The `PUNCT_MAP` table, key by key in source order. -/
def punctPairs : List (Char × List Char) :=
  [('“', ['"']), ('”', ['"']), ('‘', ['\'']), ('’', ['\'']),
   ('—', ['-']), ('–', ['-']), ('…', "...".toList),
   ('【', ['[']), ('】', [']']), ('（', ['(']), ('）', [')']),
   ('，', [',']), ('。', ['.']), ('；', [';']), ('：', [':']),
   ('！', ['!']), ('？', ['?']), ('、', [','])]

/-- The `PUNCT_MAP` replacement.  Every key is non-ASCII and every value is
ASCII, so the sequential `str.replace` chain of the source equals a single
character-wise substitution. -/
def punctMapChar (c : Char) : List Char :=
  match punctPairs.find? (fun p => p.1 = c) with
  | some p => p.2
  | none => [c]

/-- `normalize_punctuation`. -/
def normalize_punctuation (t : Text) : Text :=
  let lines := splitLines t
  let code := detect_code_line_indexes lines
  joinLines (mapWithIdx (fun i line =>
    if code.contains i then line
    else ((line.map nfkcChar).flatten.map punctMapChar).flatten) 0 lines)

/-- `re.sub(r"[ \t]+", " ", line)`: the flag records whether the scan is
inside a space/tab run that has already emitted its single space. -/
def collapseSpaceTabGo : Bool → List Char → List Char
  | _, [] => []
  | inRun, c :: rest =>
    if c = ' ' || c = '\t' then
      if inRun then collapseSpaceTabGo true rest
      else ' ' :: collapseSpaceTabGo true rest
    else c :: collapseSpaceTabGo false rest

def collapseSpaceTab (l : List Char) : List Char := collapseSpaceTabGo false l

def termPunct : List Char := ",.;:!?".toList

/-- `re.sub(r" +([,.;:!?])", r"\1", line)`. -/
def dropSpaceBeforePunctGo : Nat → List Char → List Char
  | 0, s => s
  | _ + 1, [] => []
  | fuel + 1, c :: rest =>
    if c = ' ' then
      let run := rest.takeWhile fun d => d = ' '
      match rest.drop run.length with
      | p :: tail =>
        if termPunct.contains p then p :: dropSpaceBeforePunctGo fuel tail
        else c :: dropSpaceBeforePunctGo fuel rest
      | [] => c :: dropSpaceBeforePunctGo fuel rest
    else c :: dropSpaceBeforePunctGo fuel rest

def dropSpaceBeforePunct (l : List Char) : List Char :=
  dropSpaceBeforePunctGo l.length l

/-- `re.sub(r"\n{3,}", "\n\n", text)`: keep at most two consecutive
newlines (the counter tracks how many were just emitted). -/
def collapseNLGo : Nat → Text → Text
  | _, [] => []
  | k, c :: rest =>
    if c = '\n' then
      if 2 ≤ k then collapseNLGo k rest
      else '\n' :: collapseNLGo (k + 1) rest
    else c :: collapseNLGo 0 rest

def collapseNL (t : Text) : Text := collapseNLGo 0 t

/-- `normalize_whitespace`. -/
def normalize_whitespace (t : Text) : Text :=
  let lines := splitLines t
  let code := detect_code_line_indexes lines
  let mapped := mapWithIdx (fun i raw =>
    let line := raw.map fun c =>
      if c = Char.ofNat 0x3000 || c = Char.ofNat 0xa0 then ' ' else c
    if code.contains i then rstrip line
    else dropSpaceBeforePunct (pyStrip (collapseSpaceTab line))) 0 lines
  collapseNL (joinLines mapped)

/-- The `EMOJI_PATTERN` character ranges. -/
def isEmojiChar (c : Char) : Bool :=
  (0x1f300 ≤ c.toNat && c.toNat ≤ 0x1f6ff) ||
  (0x1f900 ≤ c.toNat && c.toNat ≤ 0x1f9ff) ||
  (0x1fa70 ≤ c.toNat && c.toNat ≤ 0x1faff) ||
  (0x2600 ≤ c.toNat && c.toNat ≤ 0x26ff) ||
  (0x2700 ≤ c.toNat && c.toNat ≤ 0x27bf)

def isCJK (c : Char) : Bool := 0x4e00 ≤ c.toNat && c.toNat ≤ 0x9fff

def isLatinLetter (c : Char) : Bool := ('A' ≤ c && c ≤ 'Z') || ('a' ≤ c && c ≤ 'z')

def isLatinAlnum (c : Char) : Bool := isLatinLetter c || isDigit c

/-- One pairwise-insertion substitution `(p)(q) → \1 \2`; the scan resumes
after the second character of a match, as `re.sub` does. -/
def spacingSub (p q : Char → Bool) : List Char → List Char
  | x :: y :: rest =>
    if p x && q y then x :: ' ' :: y :: spacingSub p q rest
    else x :: spacingSub p q (y :: rest)
  | s => s

/-- `normalize_cjk_latin_spacing`. -/
def normalize_cjk_latin_spacing (t : Text) : Text :=
  let lines := splitLines t
  let code := detect_code_line_indexes lines
  joinLines (mapWithIdx (fun i line =>
    if code.contains i then line
    else
      spacingSub isDigit isLatinLetter
        (spacingSub isLatinLetter isDigit
          (spacingSub isLatinAlnum isCJK
            (spacingSub isCJK isLatinAlnum line)))) 0 lines)

/-! ## Paragraph reflow (`merge_lines`) and indentation -/

/-- `LIST_MARKER_PATTERN = re.compile(r"^\s*(?:[-*+•]|\d+[.)])\s+")`. -/
def listMarkerMatch (line : List Char) : Bool :=
  let body := line.dropWhile pySpace
  match body with
  | c :: rest =>
    if c = '-' || c = '*' || c = '+' || c = '•' then
      match rest with
      | d :: _ => pySpace d
      | [] => false
    else
      let ds := body.takeWhile isDigit
      if ds.isEmpty then false
      else
        match body.drop ds.length with
        | e :: rest2 =>
          (e = '.' || e = ')') &&
          (match rest2 with
           | f :: _ => pySpace f
           | [] => false)
        | [] => false
  | [] => false

/-- `re.match(r"^(?:\d+[.)、]\s+|•\s+|-\s+|[（(]\d+[)）])", line)`. -/
def breakMarkerMatch (line : List Char) : Bool :=
  (let ds := line.takeWhile isDigit
   !ds.isEmpty &&
   (match line.drop ds.length with
    | e :: rest =>
      (e = '.' || e = ')' || e = '、') &&
      (match rest with
       | f :: _ => pySpace f
       | [] => false)
    | [] => false)) ||
  (match line with
   | '•' :: d :: _ => pySpace d
   | _ => false) ||
  (match line with
   | '-' :: d :: _ => pySpace d
   | _ => false) ||
  (match line with
   | p :: rest =>
     (p = '（' || p = '(') &&
     (let ds := rest.takeWhile isDigit
      !ds.isEmpty &&
      (match rest.drop ds.length with
       | q :: _ => q = ')' || q = '）'
       | [] => false))
   | [] => false)

/-- Split on every colon character, as `re.split(r"[:：]", s)`. -/
def splitOnColons (l : List Char) : List (List Char) := splitOnP isColonChar l

def headingEndPunct : List Char := "，,。.!?！？".toList

/-- `is_heading_like`. -/
def is_heading_like (line : Line) : Bool :=
  let s := pyStrip line
  if s.isEmpty then false
  else if listMarkerMatch s then false
  else if is_table_row_line s then false
  else if decide (s.length ≤ 30) && (match s.getLast? with
      | some c => isColonChar c
      | none => false) then true
  else if decide (s.length ≤ 24) && s.any isColonChar &&
      !(match s.getLast? with
        | some c => headingEndPunct.contains c
        | none => false) then
    let parts := (splitOnColons s).filter fun p => !p.isEmpty
    decide (1 < parts.length) && decide (parts.length ≤ 3)
  else false

def is_cjk (c : Char) : Bool := isCJK c

/-- `joiner`. -/
def joiner (previous current : List Char) : List Char :=
  match previous.getLast?, current.head? with
  | some p, some c => if is_cjk p && is_cjk c then [] else [' ']
  | _, _ => [' ']

def sentenceEndPunct : List Char := ".!?;:。！？；：".toList

/-- `should_break_paragraph`. -/
def should_break_paragraph (previous current : List Char) : Bool :=
  if is_table_row_line previous || is_table_row_line current then true
  else if breakMarkerMatch current then true
  else if is_heading_like previous || is_heading_like current then true
  else
    match previous.getLast? with
    | some c => sentenceEndPunct.contains c
    | none => false

/-- The accumulation loop of `merge_lines` (`buffer` empty ⟺ Python's
falsy buffer). -/
def mergeGo (code : List Nat) : Nat → List Char → List Line → List Line
  | _, buffer, [] => if buffer.isEmpty then [] else [pyStrip buffer]
  | i, buffer, cur :: rest =>
    if code.contains i then
      (if buffer.isEmpty then [] else [pyStrip buffer]) ++
        rstrip cur :: mergeGo code (i + 1) [] rest
    else
      let line := pyStrip cur
      if line.isEmpty then
        (if buffer.isEmpty then [] else [pyStrip buffer]) ++ mergeGo code (i + 1) [] rest
      else if is_table_row_line line then
        (if buffer.isEmpty then [] else [pyStrip buffer]) ++
          line :: mergeGo code (i + 1) [] rest
      else if listMarkerMatch line then
        (if buffer.isEmpty then [] else [pyStrip buffer]) ++
          line :: mergeGo code (i + 1) [] rest
      else if buffer.isEmpty then mergeGo code (i + 1) line rest
      else if should_break_paragraph buffer line then
        pyStrip buffer :: mergeGo code (i + 1) line rest
      else mergeGo code (i + 1) (buffer ++ joiner buffer line ++ line) rest

/-- `merge_lines`. -/
def merge_lines (t : Text) : Text :=
  let lines := splitLines t
  let code := detect_code_line_indexes lines
  collapseNL (joinLines (mergeGo code 0 [] lines))

def PARAGRAPH_INDENT : List Char := "　　".toList

/-- `should_indent`. -/
def should_indent (line : Line) : Bool :=
  if is_heading_like line then false
  else if is_table_row_line line then false
  else if is_code_line_candidate line || startsIndent line then false
  else !breakMarkerMatch line

/-- The loop of `indent_paragraphs`, carrying the `paragraph_start` flag. -/
def indentGo (code : List Nat) (treat : Bool) : Nat → Bool → List Line → List Line
  | _, _, [] => []
  | i, pstart, raw :: rest =>
    if code.contains i then rstrip raw :: indentGo code treat (i + 1) true rest
    else
      let line := pyStrip raw
      if line.isEmpty then [] :: indentGo code treat (i + 1) true rest
      else if treat then
        (if should_indent line then PARAGRAPH_INDENT ++ line else line) ::
          indentGo code treat (i + 1) true rest
      else
        (if pstart && should_indent line then PARAGRAPH_INDENT ++ line else line) ::
          indentGo code treat (i + 1) false rest

/-- `indent_paragraphs`. -/
def indent_paragraphs (t : Text) (treatLineBreaksAsParagraphs : Bool) : Text :=
  let lines := splitLines t
  let code := detect_code_line_indexes lines
  joinLines (indentGo code treatLineBreaksAsParagraphs 0 true lines)

/-! ## The pipeline -/

/-- `CleanOptions`. -/
structure CleanOptions where
  remove_markdown : Bool := true
  normalize_punctuation : Bool := true
  normalize_whitespace : Bool := true
  merge_wrapped_lines : Bool := true
  remove_emoji : Bool := false
  indent_paragraph : Bool := true
  keep_tables : Bool := true
deriving DecidableEq, Repr

def defaultOptions : CleanOptions := {}

def zeroWidthChar (c : Char) : Bool :=
  c = Char.ofNat 0x200b || c = Char.ofNat 0x200c ||
  c = Char.ofNat 0x200d || c = Char.ofNat 0xfeff

/-- `raw_text.replace("\r\n", "\n").replace("\r", "\n")` — the two
sequential replaces equal one scan that folds `\r\n` pairs and lone `\r`
characters to `\n`. -/
def sanitizeCRLF : Text → Text
  | [] => []
  | '\r' :: '\n' :: rest => '\n' :: sanitizeCRLF rest
  | '\r' :: rest => '\n' :: sanitizeCRLF rest
  | c :: rest => c :: sanitizeCRLF rest

/-- `ZERO_WIDTH_PATTERN.sub("", text)`. -/
def removeZeroWidth (t : Text) : Text := t.filter fun c => !zeroWidthChar c

/-- `clean_text`. -/
def clean_text (rawText : Text) (o : CleanOptions) : Text :=
  let t := removeZeroWidth (sanitizeCRLF rawText)
  let t := normalize_list_markers t
  let t := remove_repeated_noise t
  let t := if o.remove_markdown then strip_markdown t o.keep_tables else t
  let t := if o.keep_tables then normalize_table_blocks t
           else convert_table_blocks_to_bullets t
  let t := if o.normalize_punctuation then normalize_punctuation t else t
  let t := if o.remove_emoji then t.filter (fun c => !isEmojiChar c) else t
  let t := if o.normalize_whitespace then normalize_whitespace t else t
  let t := normalize_cjk_latin_spacing t
  let t := if o.merge_wrapped_lines then merge_lines t else t
  let t := if o.indent_paragraph then indent_paragraphs t o.merge_wrapped_lines else t
  stripSet (fun c => c = '\n' || c = '\r') t

/-! ## Diagnostics -/

def CH_PUNCT : List Char := "，。！？；：、（）【】“”‘’《》".toList

def EN_PUNCT : List Char := ",.!?;:()[]\"'".toList

/-- Decimal digits of a natural number, for the f-string count. -/
def natDigits (n : Nat) : List Char :=
  (Nat.toDigits 10 n)

/-- `punctuation_consistency_warnings`. -/
def punctuation_consistency_warnings (t : Text) : List (List Char) :=
  let lines := (splitLines t).filter fun l => !(pyStrip l).isEmpty
  if lines.isEmpty then []
  else
    let mixedLines := lines.countP fun line =>
      (line.any fun c => CH_PUNCT.contains c) && (line.any fun c => EN_PUNCT.contains c)
    if 0 < mixedLines then
      ["标点混用 ".toList ++ natDigits mixedLines ++ " 处".toList]
    else []

/-! ## Auxiliary predicates and option records used by the theorems -/

/-- The options record with every one of the seven flags disabled. -/
def allFalseOptions : CleanOptions :=
  { remove_markdown := false, normalize_punctuation := false,
    normalize_whitespace := false, merge_wrapped_lines := false,
    remove_emoji := false, indent_paragraph := false, keep_tables := false }

/-- Defaults except that the whitespace normalizer and the line merger are
disabled. -/
def noWsNoMergeOptions : CleanOptions :=
  { normalize_whitespace := false, merge_wrapped_lines := false }

/-- Three consecutive blank (whitespace-only) lines occur somewhere. -/
def hasThreeConsecutiveBlankLines : List Line → Bool
  | a :: b :: c :: rest =>
    (isBlankLine a && isBlankLine b && isBlankLine c) ||
      hasThreeConsecutiveBlankLines (b :: c :: rest)
  | _ => false

/-- A run of three consecutive newline characters occurs somewhere. -/
def hasTripleNewline : Text → Bool
  | '\n' :: '\n' :: '\n' :: _ => true
  | _ :: rest => hasTripleNewline rest
  | [] => false

/-- A character the sanitized pipeline may never emit: a carriage return or
a zero-width/BOM character. -/
def goodChar (c : Char) : Bool := !(c = '\r') && !zeroWidthChar c

/-- Every character of the string is good. -/
def AllGood (t : List Char) : Prop := ∀ c ∈ t, goodChar c = true

/-- No character of the string is a newline. -/
def NoNL (l : List Char) : Prop := ∀ c ∈ l, ¬(c = '\n')

/-- Newline runs are capped at two: the scanner walks the text carrying the
length of the current newline run and fails on a third consecutive `\n`. -/
def nlRunsLE2 : Nat → Text → Bool
  | _, [] => true
  | k, c :: rest =>
    if c = '\n' then decide (k < 2) && nlRunsLE2 (k + 1) rest
    else nlRunsLE2 0 rest

/-- The same scan viewed on a line list joined by single newlines: only the
emptiness pattern of the lines matters. -/
def scanLinesNL : Nat → List Line → Bool
  | _, [] => true
  | _, [_] => true
  | k, l :: ls =>
    decide ((if l.isEmpty then k else 0) < 2) &&
      scanLinesNL ((if l.isEmpty then k else 0) + 1) ls

/-- Every whitespace-only line of the text is in fact empty. -/
def linesWSOfree (t : Text) : Prop :=
  ∀ l ∈ splitLines t, pyStrip l = [] → l = []

end TextCleaner

namespace TextCleaner

/-! # Theorems -/

theorem splitOnP_ne_nil (p : Char → Bool) (t : List Char) : splitOnP p t ≠ [] := by
  induction t with
  | nil => simp [splitOnP]
  | cons c rest ih =>
    simp only [splitOnP]
    split
    · simp
    · cases h : splitOnP p rest with
      | nil => exact absurd h ih
      | cons l ls => simp

theorem splitLines_ne_nil (t : Text) : splitLines t ≠ [] :=
  splitOnP_ne_nil _ t

theorem joinLines_splitLines (t : Text) : joinLines (splitLines t) = t := by
  induction t with
  | nil => simp [splitLines, splitOnP, joinLines]
  | cons c rest ih =>
    simp only [splitLines, splitOnP]
    split
    · rename_i hc
      have hc' : c = '\n' := by simpa using hc
      subst hc'
      cases h : splitLines rest with
      | nil => exact absurd h (splitLines_ne_nil rest)
      | cons l ls =>
        rw [show splitOnP (fun c => c = '\n') rest = splitLines rest from rfl, h]
        rw [h] at ih
        cases ls with
        | nil => simp [joinLines, ← ih]
        | cons l2 ls2 => simp [joinLines, ← ih]
    · cases h : splitLines rest with
      | nil => exact absurd h (splitLines_ne_nil rest)
      | cons l ls =>
        rw [show splitOnP (fun c => c = '\n') rest = splitLines rest from rfl, h]
        rw [h] at ih
        cases ls with
        | nil => simp [joinLines] at ih ⊢; simp [ih]
        | cons l2 ls2 => simp [joinLines] at ih ⊢; simpa using ih

/-! ## The `AllGood` toolkit: no pass introduces CR or zero-width characters -/

theorem allGood_nil : AllGood [] := by intro c hc; cases hc

theorem allGood_sublist {l l' : List Char} (h : List.Sublist l l') (hg : AllGood l') : AllGood l :=
  fun c hc => hg c (h.subset hc)

theorem allGood_cons {c : Char} {l : List Char} (hc : goodChar c = true)
    (hl : AllGood l) : AllGood (c :: l) := by
  intro d hd
  rcases List.mem_cons.mp hd with h | h
  · rw [h]; exact hc
  · exact hl d h

theorem allGood_append {a b : List Char} (ha : AllGood a) (hb : AllGood b) :
    AllGood (a ++ b) := by
  intro c hc
  rcases List.mem_append.mp hc with h | h
  · exact ha c h
  · exact hb c h

theorem allGood_takeWhile (p : Char → Bool) {l : List Char} (h : AllGood l) :
    AllGood (l.takeWhile p) := allGood_sublist (List.takeWhile_sublist p) h

theorem allGood_dropWhile (p : Char → Bool) {l : List Char} (h : AllGood l) :
    AllGood (l.dropWhile p) := allGood_sublist (List.dropWhile_sublist p) h

theorem allGood_drop (n : Nat) {l : List Char} (h : AllGood l) :
    AllGood (l.drop n) := allGood_sublist (List.drop_sublist n l) h

theorem allGood_take (n : Nat) {l : List Char} (h : AllGood l) :
    AllGood (l.take n) := allGood_sublist (List.take_sublist n l) h

theorem allGood_filter (p : Char → Bool) {l : List Char} (h : AllGood l) :
    AllGood (l.filter p) := allGood_sublist (List.filter_sublist l) h

theorem allGood_reverse {l : List Char} (h : AllGood l) : AllGood l.reverse := by
  intro c hc
  exact h c (List.mem_reverse.mp hc)

theorem allGood_rstrip {l : List Char} (h : AllGood l) : AllGood (rstrip l) :=
  allGood_reverse (allGood_dropWhile _ (allGood_reverse h))

theorem allGood_lstrip {l : List Char} (h : AllGood l) : AllGood (lstrip l) :=
  allGood_dropWhile _ h

theorem allGood_pyStrip {l : List Char} (h : AllGood l) : AllGood (pyStrip l) :=
  allGood_lstrip (allGood_rstrip h)

theorem allGood_stripSet (p : Char → Bool) {l : List Char} (h : AllGood l) :
    AllGood (stripSet p l) :=
  allGood_reverse (allGood_dropWhile _ (allGood_reverse (allGood_dropWhile _ h)))

theorem mem_splitOnP {p : Char → Bool} {t l : List Char} {c : Char}
    (hl : l ∈ splitOnP p t) (hc : c ∈ l) : c ∈ t := by
  induction t generalizing l with
  | nil =>
    simp [splitOnP] at hl
    subst hl
    cases hc
  | cons a rest ih =>
    simp only [splitOnP] at hl
    split at hl
    · rcases List.mem_cons.mp hl with h | h
      · subst h; cases hc
      · exact List.mem_cons_of_mem a (ih h hc)
    · cases hsp : splitOnP p rest with
      | nil => exact absurd hsp (splitOnP_ne_nil p rest)
      | cons l0 ls =>
        rw [hsp] at hl
        rcases List.mem_cons.mp hl with h | h
        · subst h
          rcases List.mem_cons.mp hc with h2 | h2
          · exact h2 ▸ List.mem_cons_self a rest
          · exact List.mem_cons_of_mem a (ih (hsp ▸ List.mem_cons_self l0 ls) h2)
        · exact List.mem_cons_of_mem a (ih (hsp ▸ List.mem_cons_of_mem l0 h) hc)

theorem allGood_splitOnP {p : Char → Bool} {t l : List Char} (h : AllGood t)
    (hl : l ∈ splitOnP p t) : AllGood l :=
  fun c hc => h c (mem_splitOnP hl hc)

theorem allGood_splitLines {t : Text} {l : Line} (h : AllGood t)
    (hl : l ∈ splitLines t) : AllGood l := allGood_splitOnP h hl

theorem allGood_joinLines {ls : List Line} (h : ∀ l ∈ ls, AllGood l) :
    AllGood (joinLines ls) := by
  induction ls with
  | nil => exact allGood_nil
  | cons l rest ih =>
    cases rest with
    | nil => simpa [joinLines] using h l (List.mem_cons_self l [])
    | cons l2 rest2 =>
      show AllGood (l ++ '\n' :: joinLines (l2 :: rest2))
      refine allGood_append (h l (List.mem_cons_self l _)) (allGood_cons (by decide) ?_)
      exact ih fun x hx => h x (List.mem_cons_of_mem l hx)

theorem allGood_interJoin {sep : List Char} {ls : List (List Char)}
    (hsep : AllGood sep) (h : ∀ l ∈ ls, AllGood l) : AllGood (interJoin sep ls) := by
  induction ls with
  | nil => exact allGood_nil
  | cons l rest ih =>
    cases rest with
    | nil => simpa [interJoin] using h l (List.mem_cons_self l [])
    | cons l2 rest2 =>
      show AllGood (l ++ sep ++ interJoin sep (l2 :: rest2))
      refine allGood_append (allGood_append (h l (List.mem_cons_self l _)) hsep) ?_
      exact ih fun x hx => h x (List.mem_cons_of_mem l hx)

theorem mem_mapWithIdx {α β : Type} {f : Nat → α → β} {i : Nat} {l : List α} {b : β}
    (hb : b ∈ mapWithIdx f i l) : ∃ j a, a ∈ l ∧ b = f j a := by
  induction l generalizing i with
  | nil => cases hb
  | cons a rest ih =>
    rcases List.mem_cons.mp hb with h | h
    · exact ⟨i, a, List.mem_cons_self a rest, h⟩
    · obtain ⟨j, a2, ha2, hb2⟩ := ih h
      exact ⟨j, a2, List.mem_cons_of_mem a ha2, hb2⟩

theorem allGood_string_decide {s : List Char} (h : s.all goodChar = true) : AllGood s :=
  fun c hc => List.all_eq_true.mp h c hc

theorem allGood_singleton {c : Char} (hc : goodChar c = true) : AllGood [c] := by
  intro d hd
  rcases List.mem_singleton.mp hd with rfl
  exact hc

theorem toNat_ofNat_valid (n : Nat) (h : n.isValidChar) : (Char.ofNat n).toNat = n := by
  unfold Char.ofNat
  rw [dif_pos h]
  unfold Char.ofNatAux
  simp [Char.toNat, UInt32.toNat, BitVec.toNat_ofNatLt]

theorem goodChar_of_toNat {c : Char} (h13 : c.toNat ≠ 13) (hza : c.toNat ≠ 0x200b)
    (hzb : c.toNat ≠ 0x200c) (hzc : c.toNat ≠ 0x200d) (hzd : c.toNat ≠ 0xfeff) :
    goodChar c = true := by
  have hr : (c = '\r') = False := by
    simp only [eq_iff_iff, iff_false]
    intro heq
    exact h13 (by rw [heq]; decide)
  have f : ∀ m : Nat, m.isValidChar → c.toNat ≠ m → (c = Char.ofNat m) = False := by
    intro m hv hne
    simp only [eq_iff_iff, iff_false]
    intro heq
    exact hne (by rw [heq]; exact toNat_ofNat_valid m hv)
  have hA := f 0x200b (Or.inl (by omega)) hza
  have hB := f 0x200c (Or.inl (by omega)) hzb
  have hC := f 0x200d (Or.inl (by omega)) hzc
  have hD := f 0xfeff (Or.inr ⟨by omega, by omega⟩) hzd
  simp [goodChar, zeroWidthChar, hr, hA, hB, hC, hD]

theorem allGood_nfkcChar (c : Char) (hc : goodChar c = true) : AllGood (nfkcChar c) := by
  unfold nfkcChar
  split_ifs with h1 h2 h3
  · have hlo : 0xff01 ≤ c.toNat := of_decide_eq_true ((Bool.and_eq_true _ _).mp h1).1
    have hhi : c.toNat ≤ 0xff5e := of_decide_eq_true ((Bool.and_eq_true _ _).mp h1).2
    have hv : (c.toNat - 0xfee0).isValidChar := Or.inl (by omega)
    refine allGood_singleton (goodChar_of_toNat ?_ ?_ ?_ ?_ ?_) <;>
      rw [toNat_ofNat_valid _ hv] <;> omega
  · exact allGood_string_decide (by decide)
  · exact allGood_string_decide (by decide)
  · exact allGood_singleton hc

theorem allGood_punctMapChar (c : Char) (hc : goodChar c = true) :
    AllGood (punctMapChar c) := by
  unfold punctMapChar
  cases hf : punctPairs.find? (fun p => p.1 = c) with
  | none => exact allGood_singleton hc
  | some p =>
    have hp : p ∈ punctPairs := List.mem_of_find?_eq_some hf
    have hall : ∀ q ∈ punctPairs, q.2.all goodChar = true := by decide
    exact allGood_string_decide (hall p hp)

theorem sublist_of_drop_cons {s r : List Char} {x : Char} {k : Nat}
    (h : s.drop k = x :: r) : List.Sublist r s := by
  have h1 := List.drop_sublist k s
  rw [h] at h1
  exact List.Sublist.trans (List.sublist_cons_self x r) h1

theorem mem_of_drop_cons {s r : List Char} {x : Char} {k : Nat}
    (h : s.drop k = x :: r) : x ∈ s := by
  have h1 := List.drop_sublist k s
  rw [h] at h1
  exact h1.subset (List.mem_cons_self x r)

theorem allGood_bulletMatch {line res : List Char} (h : bulletMatch line = some res)
    (hg : AllGood line) : AllGood res := by
  cases line with
  | nil => simp [bulletMatch] at h
  | cons c rest =>
    simp only [bulletMatch] at h
    split at h
    · injection h with h2
      subst h2
      refine allGood_append (allGood_string_decide (by decide)) ?_
      exact allGood_pyStrip (allGood_sublist (List.sublist_cons_self c rest) hg)
    · cases h

theorem allGood_orderedMatch {line res : List Char} (h : orderedMatch line = some res)
    (hg : AllGood line) : AllGood res := by
  unfold orderedMatch at h
  have main : ∀ body : List Char, AllGood body →
      ∀ hcase : (if (decide (1 ≤ (body.takeWhile isDigit).length) &&
          decide ((body.takeWhile isDigit).length ≤ 3)) = true then
        match body.drop (body.takeWhile isDigit).length with
        | c :: rest =>
          if (orderedClosers.contains c && !rest.isEmpty) = true then
            some (body.takeWhile isDigit ++ ". ".toList ++ pyStrip rest)
          else none
        | [] => none
      else none) = some res, AllGood res := by
    intro body hbg hcase
    split at hcase
    · split at hcase
      next c rest hdrop =>
        split at hcase
        · injection hcase with h2
          subst h2
          refine allGood_append (allGood_append ?_ (allGood_string_decide (by decide))) ?_
          · exact allGood_takeWhile _ hbg
          · exact allGood_pyStrip fun d hd =>
              hbg d ((sublist_of_drop_cons hdrop).subset hd)
        · cases hcase
      next hdrop => cases hcase
    · cases hcase
  split at h
  · next rest heq =>
    exact main heq (allGood_sublist (List.sublist_cons_self _ _) hg) h
  · next rest heq =>
    exact main heq (allGood_sublist (List.sublist_cons_self _ _) hg) h
  · exact main line hg h

theorem allGood_linePass {t : Text} {f : Nat → Line → Line} (h : AllGood t)
    (hf : ∀ i raw, raw ∈ splitLines t → AllGood raw → AllGood (f i raw)) :
    AllGood (joinLines (mapWithIdx f 0 (splitLines t))) := by
  refine allGood_joinLines ?_
  intro l hl
  rcases mem_mapWithIdx hl with ⟨j, raw, hmem, rfl⟩
  exact hf j raw hmem (allGood_splitLines h hmem)

theorem allGood_normalize_list_markers {t : Text} (h : AllGood t) :
    AllGood (normalize_list_markers t) := by
  unfold normalize_list_markers
  refine allGood_linePass h ?_
  intro i raw _ hraw
  dsimp only
  split
  · exact allGood_rstrip hraw
  · split
    · exact allGood_nil
    · split
      · exact allGood_pyStrip hraw
      · split
        · next res hres => exact allGood_bulletMatch hres (allGood_pyStrip hraw)
        · split
          · next res hres => exact allGood_orderedMatch hres (allGood_pyStrip hraw)
          · exact allGood_pyStrip hraw

theorem noiseColonGroup_sublist {c : Char} {s rest : List Char}
    (h : noiseColonGroup c s = some rest) : List.Sublist rest s := by
  unfold noiseColonGroup at h
  dsimp only at h
  split at h
  · next x r hdrop =>
    split at h
    · injection h with h2
      subst h2
      exact sublist_of_drop_cons hdrop
    · cases h
  · cases h

theorem noiseColonReps_sublist (c : Char) (fuel : Nat) :
    ∀ s, List.Sublist (noiseColonReps c fuel s).2 s := by
  induction fuel with
  | zero => intro s; exact List.Sublist.refl s
  | succ n ih =>
    intro s
    simp only [noiseColonReps]
    cases hg : noiseColonGroup c s with
    | none => exact List.Sublist.refl s
    | some rest =>
      simp only []
      exact List.Sublist.trans (ih rest) (noiseColonGroup_sublist hg)

theorem allGood_noiseSubColonRuns (fuel : Nat) :
    ∀ s, AllGood s → AllGood (noiseSubColonRuns fuel s) := by
  induction fuel with
  | zero =>
    intro s hs
    cases s with
    | nil => exact allGood_nil
    | cons c rest => exact hs
  | succ n ih =>
    intro s hs
    cases s with
    | nil => exact allGood_nil
    | cons c rest =>
      have hc : goodChar c = true := hs c (List.mem_cons_self c rest)
      have hrest : AllGood rest := allGood_sublist (List.sublist_cons_self c rest) hs
      simp only [noiseSubColonRuns]
      split
      · split
        · exact allGood_cons hc (ih _ (allGood_sublist (noiseColonReps_sublist c rest.length rest) hrest))
        · exact allGood_cons hc (ih _ hrest)
      · exact allGood_cons hc (ih _ hrest)

theorem countRepsOf_sublist (lab : List Char) (fuel : Nat) :
    ∀ s, List.Sublist (countRepsOf lab fuel s).2 s := by
  induction fuel with
  | zero => intro s; exact List.Sublist.refl s
  | succ n ih =>
    intro s
    simp only [countRepsOf]
    split
    · exact List.Sublist.trans (ih _) (List.drop_sublist _ _)
    · exact List.Sublist.refl s

theorem allGood_noiseSubLabelDup {s : List Char} (hs : AllGood s) :
    AllGood (noiseSubLabelDup s) := by
  unfold noiseSubLabelDup
  dsimp only
  split
  · split
    · next col rest hdrop =>
      split
      · split
        · refine allGood_append (allGood_append (allGood_takeWhile _ hs)
            (allGood_singleton (hs col (mem_of_drop_cons hdrop)))) ?_
          exact allGood_sublist
            (List.Sublist.trans (countRepsOf_sublist _ _ _) (sublist_of_drop_cons hdrop)) hs
        · exact hs
      · exact hs
    · exact hs
  · exact hs

theorem punctReps_sublist (c : Char) (fuel : Nat) :
    ∀ s, List.Sublist (punctReps c fuel s).2 s := by
  induction fuel with
  | zero => intro s; exact List.Sublist.refl s
  | succ n ih =>
    intro s
    simp only [punctReps]
    split
    · next x rest hdrop =>
      split
      · simp only []
        exact List.Sublist.trans (ih rest) (sublist_of_drop_cons hdrop)
      · exact List.Sublist.refl s
    · exact List.Sublist.refl s

theorem allGood_noiseSubPunctRuns (fuel : Nat) :
    ∀ s, AllGood s → AllGood (noiseSubPunctRuns fuel s) := by
  induction fuel with
  | zero =>
    intro s hs
    cases s with
    | nil => exact allGood_nil
    | cons c rest => exact hs
  | succ n ih =>
    intro s hs
    cases s with
    | nil => exact allGood_nil
    | cons c rest =>
      have hc : goodChar c = true := hs c (List.mem_cons_self c rest)
      have hrest : AllGood rest := allGood_sublist (List.sublist_cons_self c rest) hs
      simp only [noiseSubPunctRuns]
      split
      · split
        · exact allGood_cons hc (ih _ (allGood_sublist (punctReps_sublist c rest.length rest) hrest))
        · exact allGood_cons hc (ih _ hrest)
      · exact allGood_cons hc (ih _ hrest)

theorem dupTokenRep_sublist {tok s rest : List Char} (h : dupTokenRep tok s = some rest) :
    List.Sublist rest s := by
  unfold dupTokenRep at h
  dsimp only at h
  split at h
  · next sep r hdrop =>
    split at h
    · split at h
      · injection h with h2
        subst h2
        refine List.Sublist.trans (List.drop_sublist _ _) ?_
        refine List.Sublist.trans (List.drop_sublist _ _) ?_
        exact sublist_of_drop_cons hdrop
      · cases h
    · cases h
  · cases h

theorem dupTokenReps_sublist (tok : List Char) (fuel : Nat) :
    ∀ s, List.Sublist (dupTokenReps tok fuel s).2 s := by
  induction fuel with
  | zero => intro s; exact List.Sublist.refl s
  | succ n ih =>
    intro s
    simp only [dupTokenReps]
    cases hg : dupTokenRep tok s with
    | none => exact List.Sublist.refl s
    | some rest =>
      simp only []
      exact List.Sublist.trans (ih rest) (dupTokenRep_sublist hg)

theorem dupTokenTry_parts {run s : List Char} {k : Nat} {tok fin : List Char}
    (h : dupTokenTry run s k = some (tok, fin)) :
    (∃ m, tok = run.take m) ∧ List.Sublist fin s := by
  induction k with
  | zero => cases h
  | succ n ih =>
    simp only [dupTokenTry] at h
    split at h
    · cases h
    · split at h
      · injection h with h2
        obtain ⟨rfl, rfl⟩ := Prod.mk.injEq .. ▸ And.intro (congrArg Prod.fst h2) (congrArg Prod.snd h2)
        exact ⟨⟨n + 1, rfl⟩,
          List.Sublist.trans (dupTokenReps_sublist _ _ _) (List.drop_sublist _ _)⟩
      · exact ih h

theorem allGood_noiseSubDupToken (fuel : Nat) :
    ∀ s, AllGood s → AllGood (noiseSubDupToken fuel s) := by
  induction fuel with
  | zero =>
    intro s hs
    cases s with
    | nil => exact allGood_nil
    | cons c rest => exact hs
  | succ n ih =>
    intro s hs
    cases s with
    | nil => exact allGood_nil
    | cons c rest =>
      have hc : goodChar c = true := hs c (List.mem_cons_self c rest)
      have hrest : AllGood rest := allGood_sublist (List.sublist_cons_self c rest) hs
      simp only [noiseSubDupToken]
      split
      · split
        · next tok fin htry =>
          obtain ⟨⟨m, htok⟩, hfin⟩ := dupTokenTry_parts htry
          refine allGood_append ?_ (ih _ (allGood_sublist hfin hs))
          rw [htok]
          exact allGood_take _ (allGood_takeWhile _ hs)
        · exact allGood_cons hc (ih _ hrest)
      · exact allGood_cons hc (ih _ hrest)

theorem allGood_remove_repeated_noise {t : Text} (h : AllGood t) :
    AllGood (remove_repeated_noise t) := by
  unfold remove_repeated_noise
  refine allGood_linePass h ?_
  intro i raw _ hraw
  dsimp only
  split
  · exact allGood_rstrip hraw
  · split
    · exact allGood_nil
    · split
      · exact allGood_pyStrip hraw
      · exact allGood_noiseSubDupToken _ _ (allGood_noiseSubPunctRuns _ _
          (allGood_noiseSubLabelDup (allGood_noiseSubColonRuns _ _
            (allGood_pyStrip hraw))))

theorem allGood_mdScanAnchored {try_ : List Char → Option (List Char × List Char × Bool)}
    (H : ∀ s rep r nl, AllGood s → try_ s = some (rep, r, nl) → AllGood rep ∧ AllGood r) :
    ∀ fuel atStart s, AllGood s → AllGood (mdScanAnchored try_ fuel atStart s) := by
  intro fuel
  induction fuel with
  | zero =>
    intro _ s hs
    cases s with
    | nil => exact allGood_nil
    | cons c rest => exact hs
  | succ n ih =>
    intro atStart s hs
    cases s with
    | nil => exact allGood_nil
    | cons c rest =>
      have hc : goodChar c = true := hs c (List.mem_cons_self c rest)
      have hrest : AllGood rest := allGood_sublist (List.sublist_cons_self c rest) hs
      simp only [mdScanAnchored]
      split
      · cases htry : try_ (c :: rest) with
        | none => simp only [htry]; exact allGood_cons hc (ih _ _ hrest)
        | some trip =>
          obtain ⟨rep, r, nl⟩ := trip
          simp only [htry]
          obtain ⟨h1, h2⟩ := H _ _ _ _ hs htry
          exact allGood_append h1 (ih _ _ h2)
      · exact allGood_cons hc (ih _ _ hrest)

theorem allGood_mdScanAnywhere {try_ : List Char → Option (List Char × List Char)}
    (H : ∀ s rep r, AllGood s → try_ s = some (rep, r) → AllGood rep ∧ AllGood r) :
    ∀ fuel s, AllGood s → AllGood (mdScanAnywhere try_ fuel s) := by
  intro fuel
  induction fuel with
  | zero =>
    intro s hs
    cases s with
    | nil => exact allGood_nil
    | cons c rest => exact hs
  | succ n ih =>
    intro s hs
    cases s with
    | nil => exact allGood_nil
    | cons c rest =>
      have hc : goodChar c = true := hs c (List.mem_cons_self c rest)
      have hrest : AllGood rest := allGood_sublist (List.sublist_cons_self c rest) hs
      simp only [mdScanAnywhere]
      cases htry : try_ (c :: rest) with
      | none => simp only [htry]; exact allGood_cons hc (ih _ hrest)
      | some pr =>
        obtain ⟨rep, r⟩ := pr
        simp only [htry]
        obtain ⟨h1, h2⟩ := H _ _ _ hs htry
        exact allGood_append h1 (ih _ h2)

theorem pairEq {α β : Type} {a b : α} {c d : β} (h : (a, c) = (b, d)) :
    a = b ∧ c = d := by
  injection h with h1 h2
  exact ⟨h1, h2⟩

theorem tripleEq {α β γ : Type} {a b : α} {c d : β} {e f : γ}
    (h : (a, c, e) = (b, d, f)) : a = b ∧ c = d ∧ e = f := by
  injection h with h1 h2
  injection h2 with h3 h4
  exact ⟨h1, h3, h4⟩

theorem mdHeadingTry_good : ∀ s rep r nl, AllGood s →
    mdHeadingTry s = some (rep, r, nl) → AllGood rep ∧ AllGood r := by
  intro s rep r nl hs h
  unfold mdHeadingTry at h
  dsimp only at h
  split at h
  · split at h
    · injection h with h2
      obtain ⟨hrep, hr, _⟩ := tripleEq h2
      subst hrep
      refine ⟨allGood_nil, ?_⟩
      rw [← hr]
      exact allGood_drop _ (allGood_drop _ (allGood_drop _ hs))
    · cases h
  · cases h

theorem mdQuoteTry_good : ∀ s rep r nl, AllGood s →
    mdQuoteTry s = some (rep, r, nl) → AllGood rep ∧ AllGood r := by
  intro s rep r nl hs h
  unfold mdQuoteTry at h
  dsimp only at h
  split at h
  · next rest hdrop =>
    have hrest : AllGood rest := allGood_sublist (sublist_of_drop_cons hdrop) hs
    split at h
    · split at h
      · injection h with h2
        obtain ⟨hrep, hr, _⟩ := tripleEq h2
        subst hrep
        rw [← hr]
        exact ⟨allGood_nil, allGood_sublist (List.sublist_cons_self _ _) hrest⟩
      · injection h with h2
        obtain ⟨hrep, hr, _⟩ := tripleEq h2
        subst hrep
        rw [← hr]
        exact ⟨allGood_nil, hrest⟩
    · injection h with h2
      obtain ⟨hrep, hr, _⟩ := tripleEq h2
      subst hrep
      rw [← hr]
      exact ⟨allGood_nil, allGood_nil⟩
  · cases h

theorem hrTrailTry_sublist {u : List Char} {j : Nat} : ∀ {j' : Nat} {rest : List Char},
    hrTrailTry u j = some (j', rest) → List.Sublist rest u := by
  induction j with
  | zero =>
    intro j' rest h
    unfold hrTrailTry at h
    split at h
    · injection h with h2
      obtain ⟨_, hr⟩ := pairEq h2
      rw [← hr]
    · injection h with h2
      obtain ⟨_, hr⟩ := pairEq h2
      rw [← hr]
    · cases h
  | succ n ih =>
    intro j' rest h
    unfold hrTrailTry at h
    split at h
    · injection h with h2
      obtain ⟨_, hr⟩ := pairEq h2
      rw [← hr]
      exact List.nil_sublist u
    · injection h with h2
      obtain ⟨_, hr⟩ := pairEq h2
      rw [← hr]
      exact List.drop_sublist _ _
    · exact ih h

theorem hrRepSuffixes_sublist (c : Char) (fuel : Nat) :
    ∀ u x, x ∈ hrRepSuffixes c fuel u → List.Sublist x u := by
  induction fuel with
  | zero => intro u x hx; cases hx
  | succ n ih =>
    intro u x hx
    simp only [hrRepSuffixes] at hx
    split at hx
    · next y rest hdrop =>
      split at hx
      · rcases List.mem_cons.mp hx with h | h
        · rw [h]; exact sublist_of_drop_cons hdrop
        · exact List.Sublist.trans (ih rest x h) (sublist_of_drop_cons hdrop)
      · cases hx
    · cases hx

theorem hrPick_sublist {sufsRev : List (List Char)} : ∀ {cnt : Nat} {rest : List Char}
    {nl : Bool}, hrPick sufsRev cnt = some (rest, nl) →
    ∃ u ∈ sufsRev, List.Sublist rest u := by
  induction sufsRev with
  | nil => intro cnt rest nl h; cases h
  | cons u more ih =>
    intro cnt rest nl h
    simp only [hrPick] at h
    split at h
    · split at h
      · next j r htrail =>
        injection h with h2
        obtain ⟨hr, _⟩ := pairEq h2
        refine ⟨u, List.mem_cons_self u more, ?_⟩
        rw [← hr]
        exact hrTrailTry_sublist htrail
      · obtain ⟨v, hv, hsub⟩ := ih h
        exact ⟨v, List.mem_cons_of_mem u hv, hsub⟩
    · cases h

theorem mdHrTry_good : ∀ s rep r nl, AllGood s →
    mdHrTry s = some (rep, r, nl) → AllGood rep ∧ AllGood r := by
  intro s rep r nl hs h
  unfold mdHrTry at h
  dsimp only at h
  split at h
  · next c after hdrop =>
    split at h
    · split at h
      · next rest2 nl2 hpick =>
        injection h with h2
        obtain ⟨hrep, hr, _⟩ := tripleEq h2
        subst hrep
        rw [← hr]
        obtain ⟨u, hu, hsub⟩ := hrPick_sublist hpick
        have hu2 : List.Sublist u after :=
          hrRepSuffixes_sublist c _ after u (List.mem_reverse.mp hu)
        exact ⟨allGood_nil, allGood_sublist (List.Sublist.trans hsub
          (List.Sublist.trans hu2 (sublist_of_drop_cons hdrop))) hs⟩
      · cases h
    · cases h
  · cases h

theorem mdFenceTry_good : ∀ s rep r, AllGood s →
    mdFenceTry s = some (rep, r) → AllGood rep ∧ AllGood r := by
  intro s rep r hs h
  unfold mdFenceTry at h
  dsimp only at h
  split at h
  · split at h
    · next rest2 hdrop =>
      injection h with h2
      obtain ⟨hrep, hr⟩ := pairEq h2
      subst hrep
      rw [← hr]
      exact ⟨allGood_nil, allGood_sublist (sublist_of_drop_cons hdrop)
        (allGood_drop _ hs)⟩
    · injection h with h2
      obtain ⟨hrep, hr⟩ := pairEq h2
      subst hrep
      rw [← hr]
      exact ⟨allGood_nil, allGood_drop _ (allGood_drop _ hs)⟩
  · cases h

theorem mdCodeTry_good : ∀ s rep r, AllGood s →
    mdCodeTry s = some (rep, r) → AllGood rep ∧ AllGood r := by
  intro s rep r hs h
  unfold mdCodeTry at h
  split at h
  · next rest =>
    dsimp only at h
    split at h
    · cases h
    · split at h
      · next tail hdrop =>
        injection h with h2
        obtain ⟨hrep, hr⟩ := pairEq h2
        rw [← hrep, ← hr]
        have hrest : AllGood rest := allGood_sublist (List.sublist_cons_self _ _) hs
        exact ⟨allGood_takeWhile _ hrest, allGood_sublist (sublist_of_drop_cons hdrop) hrest⟩
      · cases h
  · cases h

theorem mdBoldTry_good : ∀ s rep r, AllGood s →
    mdBoldTry s = some (rep, r) → AllGood rep ∧ AllGood r := by
  intro s rep r hs h
  unfold mdBoldTry at h
  split at h
  · next rest =>
    dsimp only at h
    split at h
    · cases h
    · split at h
      · next tail hdrop =>
        injection h with h2
        obtain ⟨hrep, hr⟩ := pairEq h2
        rw [← hrep, ← hr]
        have hrest : AllGood rest := allGood_sublist
          (List.Sublist.trans (List.sublist_cons_self _ _) (List.sublist_cons_self _ _)) hs
        exact ⟨allGood_takeWhile _ hrest,
          allGood_sublist (List.Sublist.trans (List.sublist_cons_self _ _)
            (sublist_of_drop_cons hdrop)) hrest⟩
      · cases h
  · cases h

theorem mdUnder2Try_good : ∀ s rep r, AllGood s →
    mdUnder2Try s = some (rep, r) → AllGood rep ∧ AllGood r := by
  intro s rep r hs h
  unfold mdUnder2Try at h
  split at h
  · next rest =>
    dsimp only at h
    split at h
    · cases h
    · split at h
      · next tail hdrop =>
        injection h with h2
        obtain ⟨hrep, hr⟩ := pairEq h2
        rw [← hrep, ← hr]
        have hrest : AllGood rest := allGood_sublist
          (List.Sublist.trans (List.sublist_cons_self _ _) (List.sublist_cons_self _ _)) hs
        exact ⟨allGood_takeWhile _ hrest,
          allGood_sublist (List.Sublist.trans (List.sublist_cons_self _ _)
            (sublist_of_drop_cons hdrop)) hrest⟩
      · cases h
  · cases h

theorem mdItalicTry_good : ∀ s rep r, AllGood s →
    mdItalicTry s = some (rep, r) → AllGood rep ∧ AllGood r := by
  intro s rep r hs h
  unfold mdItalicTry at h
  split at h
  · next rest =>
    dsimp only at h
    split at h
    · cases h
    · split at h
      · next tail hdrop =>
        injection h with h2
        obtain ⟨hrep, hr⟩ := pairEq h2
        rw [← hrep, ← hr]
        have hrest : AllGood rest := allGood_sublist (List.sublist_cons_self _ _) hs
        exact ⟨allGood_takeWhile _ hrest, allGood_sublist (sublist_of_drop_cons hdrop) hrest⟩
      · cases h
  · cases h

theorem mdUnder1Try_good : ∀ s rep r, AllGood s →
    mdUnder1Try s = some (rep, r) → AllGood rep ∧ AllGood r := by
  intro s rep r hs h
  unfold mdUnder1Try at h
  split at h
  · next rest =>
    dsimp only at h
    split at h
    · cases h
    · split at h
      · next tail hdrop =>
        injection h with h2
        obtain ⟨hrep, hr⟩ := pairEq h2
        rw [← hrep, ← hr]
        have hrest : AllGood rest := allGood_sublist (List.sublist_cons_self _ _) hs
        exact ⟨allGood_takeWhile _ hrest, allGood_sublist (sublist_of_drop_cons hdrop) hrest⟩
      · cases h
  · cases h

theorem mdImageTry_good : ∀ s rep r, AllGood s →
    mdImageTry s = some (rep, r) → AllGood rep ∧ AllGood r := by
  intro s rep r hs h
  unfold mdImageTry at h
  split at h
  · next rest =>
    dsimp only at h
    split at h
    · next rest2 hdrop =>
      split at h
      · next tail hdrop2 =>
        injection h with h2
        obtain ⟨hrep, hr⟩ := pairEq h2
        rw [← hrep, ← hr]
        have hrest : AllGood rest := allGood_sublist
          (List.Sublist.trans (List.sublist_cons_self _ _) (List.sublist_cons_self _ _)) hs
        have hrest2 : AllGood rest2 := allGood_sublist
          (List.Sublist.trans (List.sublist_cons_self _ _) (sublist_of_drop_cons hdrop)) hrest
        exact ⟨allGood_nil, allGood_sublist (sublist_of_drop_cons hdrop2) hrest2⟩
      · cases h
    · cases h
  · cases h

theorem mdLinkTry_good : ∀ s rep r, AllGood s →
    mdLinkTry s = some (rep, r) → AllGood rep ∧ AllGood r := by
  intro s rep r hs h
  unfold mdLinkTry at h
  split at h
  · next rest =>
    dsimp only at h
    split at h
    · cases h
    · split at h
      · next rest2 hdrop =>
        have hrest : AllGood rest := allGood_sublist (List.sublist_cons_self _ _) hs
        have hrest2 : AllGood rest2 := allGood_sublist
          (List.Sublist.trans (List.sublist_cons_self _ _) (sublist_of_drop_cons hdrop)) hrest
        split at h
        · next tail hdrop2 =>
          injection h with h2
          obtain ⟨hrep, hr⟩ := pairEq h2
          rw [← hrep, ← hr]
          exact ⟨allGood_takeWhile _ hrest,
            allGood_sublist (sublist_of_drop_cons hdrop2) hrest2⟩
        · cases h
      · cases h
  · cases h

theorem mdBulletTry_good : ∀ s rep r nl, AllGood s →
    mdBulletTry s = some (rep, r, nl) → AllGood rep ∧ AllGood r := by
  intro s rep r nl hs h
  unfold mdBulletTry at h
  dsimp only at h
  split at h
  · next c rest hdrop =>
    split at h
    · split at h
      · cases h
      · injection h with h2
        obtain ⟨hrep, hr, _⟩ := tripleEq h2
        rw [← hrep, ← hr]
        have hrest : AllGood rest := allGood_sublist (sublist_of_drop_cons hdrop) hs
        exact ⟨allGood_string_decide (by decide), allGood_drop _ hrest⟩
    · cases h
  · cases h

theorem mdOrderedTry_good : ∀ s rep r nl, AllGood s →
    mdOrderedTry s = some (rep, r, nl) → AllGood rep ∧ AllGood r := by
  intro s rep r nl hs h
  unfold mdOrderedTry at h
  dsimp only at h
  split at h
  · cases h
  · split at h
    · next c rest hdrop =>
      split at h
      · split at h
        · cases h
        · injection h with h2
          obtain ⟨hrep, hr, _⟩ := tripleEq h2
          rw [← hrep, ← hr]
          have hbody : AllGood (s.drop (s.takeWhile pySpace).length) := allGood_drop _ hs
          have hrest : AllGood rest := allGood_sublist (sublist_of_drop_cons hdrop) hbody
          exact ⟨allGood_append (allGood_takeWhile _ hbody)
            (allGood_string_decide (by decide)), allGood_drop _ hrest⟩
      · cases h
    · cases h

theorem allGood_mdSubAnchored {try_ : List Char → Option (List Char × List Char × Bool)}
    (H : ∀ s rep r nl, AllGood s → try_ s = some (rep, r, nl) → AllGood rep ∧ AllGood r)
    {t : Text} (h : AllGood t) : AllGood (mdSubAnchored try_ t) :=
  allGood_mdScanAnchored H _ _ _ h

theorem allGood_mdSubAnywhere {try_ : List Char → Option (List Char × List Char)}
    (H : ∀ s rep r, AllGood s → try_ s = some (rep, r) → AllGood rep ∧ AllGood r)
    {t : Text} (h : AllGood t) : AllGood (mdSubAnywhere try_ t) :=
  allGood_mdScanAnywhere H _ _ h

theorem allGood_strip_markdown_inline {t : Text} (h : AllGood t) :
    AllGood (strip_markdown_inline t) := by
  unfold strip_markdown_inline
  exact allGood_mdSubAnchored mdOrderedTry_good
    (allGood_mdSubAnchored mdBulletTry_good
      (allGood_mdSubAnywhere mdLinkTry_good
        (allGood_mdSubAnywhere mdImageTry_good
          (allGood_mdSubAnywhere mdUnder1Try_good
            (allGood_mdSubAnywhere mdItalicTry_good
              (allGood_mdSubAnywhere mdUnder2Try_good
                (allGood_mdSubAnywhere mdBoldTry_good
                  (allGood_mdSubAnywhere mdCodeTry_good
                    (allGood_mdSubAnywhere mdFenceTry_good
                      (allGood_mdSubAnchored mdHrTry_good
                        (allGood_mdSubAnchored mdQuoteTry_good
                          (allGood_mdSubAnchored mdHeadingTry_good h))))))))))))

theorem smGo_allGood (isProt : Nat → Line → Bool) :
    ∀ ls i acc, (∀ l ∈ acc, AllGood l) → (∀ l ∈ ls, AllGood l) →
      ∀ x ∈ smGo isProt i acc ls, AllGood x := by
  intro ls
  induction ls with
  | nil =>
    intro i acc hacc _ x hx
    simp only [smGo] at hx
    split at hx
    · cases hx
    · rcases List.mem_singleton.mp hx with rfl
      exact allGood_strip_markdown_inline (allGood_joinLines hacc)
  | cons l rest ih =>
    intro i acc hacc hls x hx
    have hl : AllGood l := hls l (List.mem_cons_self l rest)
    have hrest : ∀ y ∈ rest, AllGood y := fun y hy => hls y (List.mem_cons_of_mem l hy)
    simp only [smGo] at hx
    split at hx
    · rcases List.mem_append.mp hx with h1 | h1
      · split at h1
        · cases h1
        · rcases List.mem_singleton.mp h1 with rfl
          exact allGood_strip_markdown_inline (allGood_joinLines hacc)
      · rcases List.mem_cons.mp h1 with h2 | h2
        · rw [h2]; exact hl
        · exact ih (i + 1) [] (by intro y hy; cases hy) hrest x h2
    · refine ih (i + 1) (acc ++ [l]) ?_ hrest x hx
      intro y hy
      rcases List.mem_append.mp hy with h2 | h2
      · exact hacc y h2
      · rcases List.mem_singleton.mp h2 with rfl
        exact hl

theorem allGood_strip_markdown {t : Text} (kt : Bool) (h : AllGood t) :
    AllGood (strip_markdown t kt) := by
  unfold strip_markdown
  refine allGood_joinLines ?_
  intro x hx
  refine smGo_allGood _ (splitLines t) 0 [] (by intro y hy; cases hy) ?_ x hx
  intro l hl
  exact allGood_splitLines h hl

theorem allGood_getD {ls : List (List Char)} {i : Nat}
    (h : ∀ x ∈ ls, AllGood x) : AllGood (ls.getD i []) := by
  unfold List.getD
  cases hg : ls.get? i with
  | none => exact allGood_nil
  | some x =>
    simp only [Option.getD_some]
    exact h x (List.get?_mem hg)

theorem allGood_parse_table_row {l : Line} (h : AllGood l) :
    ∀ cell ∈ parse_table_row l, AllGood cell := by
  intro cell hc
  unfold parse_table_row at hc
  rcases List.mem_map.mp hc with ⟨part, hpart, rfl⟩
  refine allGood_pyStrip ?_
  intro c hcc
  exact allGood_stripSet _ (allGood_pyStrip h) c (mem_splitOnP hpart hcc)

theorem allGood_parse_table_block {lines : List Line}
    (h : ∀ l ∈ lines, AllGood l) :
    ∀ row ∈ (parse_table_block lines).1, ∀ cell ∈ row, AllGood cell := by
  intro row hrow cell hcell
  unfold parse_table_block at hrow
  dsimp only at hrow
  have hrows : row ∈ (lines.filter fun l => !is_table_separator_line l).map
      parse_table_row := by
    split at hrow
    · exact absurd hrow (List.not_mem_nil row)
    · exact hrow
  rcases List.mem_map.mp hrows with ⟨l, hl, rfl⟩
  exact allGood_parse_table_row (h l (List.mem_of_mem_filter hl)) cell hcell

theorem allGood_format_table_row {cells : List (List Char)}
    (h : ∀ cell ∈ cells, AllGood cell) : AllGood (format_table_row cells) := by
  unfold format_table_row
  refine allGood_append (allGood_append (allGood_string_decide (by decide)) ?_)
    (allGood_string_decide (by decide))
  exact allGood_interJoin (allGood_string_decide (by decide)) h

theorem allGood_format_table_separator (n : Nat) :
    AllGood (format_table_separator n) := by
  unfold format_table_separator
  refine allGood_append (allGood_append (allGood_string_decide (by decide)) ?_)
    (allGood_string_decide (by decide))
  refine allGood_interJoin (allGood_string_decide (by decide)) ?_
  intro l hl
  rw [List.eq_of_mem_replicate hl]
  exact allGood_string_decide (by decide)

theorem allGood_padded_row {row : List (List Char)} {n : Nat}
    (h : ∀ cell ∈ row, AllGood cell) :
    ∀ cell ∈ row ++ List.replicate n [], AllGood cell := by
  intro cell hc
  rcases List.mem_append.mp hc with h1 | h1
  · exact h cell h1
  · rw [List.eq_of_mem_replicate h1]
    exact allGood_nil

theorem allGood_normalized_rows {rows : List (List (List Char))}
    (hrows : ∀ row ∈ rows, ∀ cell ∈ row, AllGood cell) (n : Nat) :
    ∀ x ∈ (rows.map fun r => r ++ List.replicate (n - r.length) []).map
      format_table_row, AllGood x := by
  intro x hx
  rcases List.mem_map.mp hx with ⟨padded, hpadded, rfl⟩
  rcases List.mem_map.mp hpadded with ⟨row, hrow, rfl⟩
  exact allGood_format_table_row (allGood_padded_row (hrows row hrow))

theorem allGood_normalize_table_block {lines : List Line}
    (h : ∀ l ∈ lines, AllGood l) : ∀ l ∈ normalize_table_block lines, AllGood l := by
  intro l hl
  have hrows := allGood_parse_table_block h
  unfold normalize_table_block at hl
  rw [show parse_table_block lines =
      ((parse_table_block lines).1, (parse_table_block lines).2) from rfl] at hl
  dsimp only at hl
  split at hl
  · exact h l hl
  · have hnorm := allGood_normalized_rows hrows
      ((parse_table_block lines).1.foldl (fun m r => max m r.length) 0)
    split at hl
    · split at hl
      · next r0 restN heq2 =>
        rw [heq2] at hnorm
        rcases List.mem_cons.mp hl with h1 | h1
        · rw [h1]
          exact hnorm r0 (List.mem_cons_self _ _)
        · rcases List.mem_cons.mp h1 with h2 | h2
          · rw [h2]; exact allGood_format_table_separator _
          · exact hnorm l (List.mem_cons_of_mem _ h2)
      · rcases List.mem_singleton.mp hl with rfl
        exact allGood_format_table_separator _
    · exact hnorm l hl

theorem tableBlocksGo_allGood {f : List Line → List Line}
    (hf : ∀ blk, (∀ l ∈ blk, AllGood l) → ∀ l ∈ f blk, AllGood l) :
    ∀ ls acc, (∀ l ∈ acc, AllGood l) → (∀ l ∈ ls, AllGood l) →
      ∀ x ∈ tableBlocksGo f acc ls, AllGood x := by
  intro ls
  induction ls with
  | nil =>
    intro acc hacc _ x hx
    simp only [tableBlocksGo] at hx
    split at hx
    · cases hx
    · exact hf acc hacc x hx
  | cons l rest ih =>
    intro acc hacc hls x hx
    have hl : AllGood l := hls l (List.mem_cons_self l rest)
    have hrest : ∀ y ∈ rest, AllGood y := fun y hy => hls y (List.mem_cons_of_mem l hy)
    simp only [tableBlocksGo] at hx
    split at hx
    · refine ih (acc ++ [l]) ?_ hrest x hx
      intro y hy
      rcases List.mem_append.mp hy with h2 | h2
      · exact hacc y h2
      · rcases List.mem_singleton.mp h2 with rfl
        exact hl
    · rcases List.mem_append.mp hx with h1 | h1
      · split at h1
        · cases h1
        · exact hf acc hacc x h1
      · rcases List.mem_cons.mp h1 with h2 | h2
        · rw [h2]; exact hl
        · exact ih [] (by intro y hy; cases hy) hrest x h2

theorem allGood_normalize_table_blocks {t : Text} (h : AllGood t) :
    AllGood (normalize_table_blocks t) := by
  unfold normalize_table_blocks
  refine allGood_joinLines ?_
  intro x hx
  refine tableBlocksGo_allGood (fun blk hblk => allGood_normalize_table_block hblk)
    (splitLines t) [] (by intro y hy; cases hy) ?_ x hx
  intro l hl
  exact allGood_splitLines h hl

theorem allGood_if {c : Prop} [Decidable c] {a b : List Char}
    (ha : AllGood a) (hb : AllGood b) : AllGood (if c then a else b) := by
  split
  · exact ha
  · exact hb

theorem allGood_filterMap_zip3 {hs rs : List (List Char)}
    {f : Nat × List Char × List Char → Option (List Char)}
    (hh : ∀ x ∈ hs, AllGood x) (hr : ∀ x ∈ rs, AllGood x)
    (hf : ∀ i lab v, AllGood lab → AllGood v →
      ∀ d, f (i, lab, v) = some d → AllGood d) :
    ∀ d ∈ (mapWithIdx (fun i lv => (i, lv)) 0 (hs.zip rs)).filterMap f, AllGood d := by
  intro d hd
  rcases List.mem_filterMap.mp hd with ⟨x, hmem, hfd⟩
  rcases mem_mapWithIdx hmem with ⟨j, a, hzip, heq⟩
  obtain ⟨lab, v⟩ := a
  obtain ⟨hlab, hv⟩ := List.of_mem_zip hzip
  subst heq
  exact hf j lab v (hh lab hlab) (hr v hv) d hfd

theorem allGood_filterMap_zip2 {hs rs : List (List Char)}
    {f : List Char × List Char → Option (List Char)}
    (hh : ∀ x ∈ hs, AllGood x) (hr : ∀ x ∈ rs, AllGood x)
    (hf : ∀ lab v, AllGood lab → AllGood v →
      ∀ d, f (lab, v) = some d → AllGood d) :
    ∀ d ∈ (hs.zip rs).filterMap f, AllGood d := by
  intro d hd
  rcases List.mem_filterMap.mp hd with ⟨x, hmem, hfd⟩
  obtain ⟨lab, v⟩ := x
  obtain ⟨hlab, hv⟩ := List.of_mem_zip hmem
  exact hf lab v (hh lab hlab) (hr v hv) d hfd

theorem allGood_titleMatch {rs : List (List Char)}
    (hr : ∀ x ∈ rs, AllGood x) (o : Option Nat) :
    AllGood (match o with | some i => rs.getD i [] | none => []) := by
  cases o with
  | some i => exact allGood_getD hr
  | none => exact allGood_nil

theorem allGood_format_table_bullet {header row : List (List Char)}
    (hh : ∀ cell ∈ header, AllGood cell) (hr : ∀ cell ∈ row, AllGood cell) :
    AllGood (format_table_bullet header row) := by
  have hhc : ∀ cell ∈ header.map pyStrip, AllGood cell := by
    intro cell hc
    rcases List.mem_map.mp hc with ⟨x, hx, rfl⟩
    exact allGood_pyStrip (hh x hx)
  have hrc : ∀ cell ∈ row.map pyStrip, AllGood cell := by
    intro cell hc
    rcases List.mem_map.mp hc with ⟨x, hx, rfl⟩
    exact allGood_pyStrip (hr x hx)
  have hdet : ∀ (g : Nat × List Char × List Char → Option (List Char)),
      (∀ i lab v, AllGood lab → AllGood v →
        ∀ d, g (i, lab, v) = some d → AllGood d) →
      ∀ d ∈ (mapWithIdx (fun i lv => (i, lv)) 0
        ((header.map pyStrip).zip (row.map pyStrip))).filterMap g, AllGood d :=
    fun g hg => allGood_filterMap_zip3 hhc hrc hg
  have hparts : ∀ (g : List Char × List Char → Option (List Char)),
      (∀ lab v, AllGood lab → AllGood v →
        ∀ d, g (lab, v) = some d → AllGood d) →
      ∀ d ∈ ((header.map pyStrip).zip (row.map pyStrip)).filterMap g, AllGood d :=
    fun g hg => allGood_filterMap_zip2 hhc hrc hg
  have htitle := allGood_titleMatch hrc
  have hstep : ∀ i lab v, AllGood lab → AllGood v →
      ∀ d, (if ((header.map pyStrip).findIdx? fun cell =>
              titleHints.any fun h => containsSub h.toList cell) = some i ||
            ((header.map pyStrip).findIdx? fun cell =>
              urlHints.any fun h =>
                containsSub (lowerStr h.toList) (lowerStr cell)) = some i
          then none
          else if v.isEmpty then none
          else if !lab.isEmpty then some (lab ++ "：".toList ++ v)
          else some v) = some d → AllGood d := by
    intro i lab v hlab hv d hfd
    split at hfd
    · cases hfd
    · split at hfd
      · cases hfd
      · split at hfd
        · injection hfd with h2
          rw [← h2]
          exact allGood_append (allGood_append hlab
            (allGood_string_decide (by decide))) hv
        · injection hfd with h2
          rw [← h2]
          exact hv
  have hstep2 : ∀ lab v, AllGood lab → AllGood v →
      ∀ d, (if v.isEmpty then none
          else if !lab.isEmpty then some (lab ++ "：".toList ++ v)
          else some v) = some d → AllGood d := by
    intro lab v hlab hv d hfd
    split at hfd
    · cases hfd
    · split at hfd
      · injection hfd with h2
        rw [← h2]
        exact allGood_append (allGood_append hlab
          (allGood_string_decide (by decide))) hv
      · injection hfd with h2
        rw [← h2]
        exact hv
  unfold format_table_bullet
  dsimp only
  refine allGood_if ?_ ?_
  · refine allGood_if ?_ ?_
    · refine allGood_append (allGood_append (allGood_if ?_ ?_)
        (allGood_string_decide (by decide)))
        (allGood_interJoin (allGood_string_decide (by decide)) (hdet _ hstep))
      · exact allGood_append (allGood_append (allGood_append
          (allGood_append (allGood_string_decide (by decide)) (htitle _))
          (allGood_string_decide (by decide))) (htitle _))
          (allGood_string_decide (by decide))
      · exact allGood_append (allGood_string_decide (by decide)) (htitle _)
    · refine allGood_if ?_ ?_
      · exact allGood_append (allGood_append (allGood_append
          (allGood_append (allGood_string_decide (by decide)) (htitle _))
          (allGood_string_decide (by decide))) (htitle _))
          (allGood_string_decide (by decide))
      · exact allGood_append (allGood_string_decide (by decide)) (htitle _)
  · split
    · exact allGood_nil
    · exact allGood_append (allGood_string_decide (by decide))
        (allGood_interJoin (allGood_string_decide (by decide)) (hparts _ hstep2))

theorem allGood_bullet_filterMap {header : List (List Char)}
    {dataRows : List (List (List Char))} {maxCols : Nat}
    (hh : ∀ cell ∈ header, AllGood cell)
    (hd : ∀ row ∈ dataRows, ∀ cell ∈ row, AllGood cell) :
    ∀ l ∈ dataRows.filterMap (fun row =>
      if (format_table_bullet header
            (row ++ List.replicate (maxCols - row.length) [])).isEmpty
      then none
      else some (format_table_bullet header
            (row ++ List.replicate (maxCols - row.length) []))),
      AllGood l := by
  intro l hl
  rcases List.mem_filterMap.mp hl with ⟨row, hrow, hf⟩
  split at hf
  · cases hf
  · injection hf with h2
    rw [← h2]
    exact allGood_format_table_bullet hh (allGood_padded_row (hd row hrow))

theorem allGood_table_block_to_bullets {lines : List Line}
    (h : ∀ l ∈ lines, AllGood l) : ∀ l ∈ table_block_to_bullets lines, AllGood l := by
  intro l hl
  have hrows := allGood_parse_table_block h
  unfold table_block_to_bullets at hl
  rw [show parse_table_block lines =
      ((parse_table_block lines).1, (parse_table_block lines).2) from rfl] at hl
  dsimp only at hl
  split at hl
  · exact h l hl
  · next r0 rest heq =>
    have hr0 : ∀ cell ∈ r0, AllGood cell := by
      apply hrows
      rw [heq]
      exact List.mem_cons_self _ _
    have hrest : ∀ row ∈ rest, ∀ cell ∈ row, AllGood cell := by
      intro row hr
      apply hrows
      rw [heq]
      exact List.mem_cons_of_mem _ hr
    refine allGood_bullet_filterMap ?_ ?_ l hl
    · split
      · split
        · exact allGood_padded_row hr0
        · intro cell hc
          rw [List.eq_of_mem_replicate hc]
          exact allGood_nil
      · split
        · refine allGood_padded_row ?_
          intro c hc
          cases hc
        · intro cell hc
          rw [List.eq_of_mem_replicate hc]
          exact allGood_nil
    · split
      · exact hrest
      · exact hrows

theorem allGood_convert_table_blocks_to_bullets {t : Text} (h : AllGood t) :
    AllGood (convert_table_blocks_to_bullets t) := by
  unfold convert_table_blocks_to_bullets
  refine allGood_joinLines ?_
  intro x hx
  refine tableBlocksGo_allGood (fun blk hblk => allGood_table_block_to_bullets hblk)
    (splitLines t) [] (by intro y hy; cases hy) ?_ x hx
  intro l hl
  exact allGood_splitLines h hl

theorem allGood_normalize_punctuation {t : Text} (h : AllGood t) :
    AllGood (normalize_punctuation t) := by
  unfold normalize_punctuation
  dsimp only
  refine allGood_linePass h ?_
  intro i raw hmem hraw
  split
  · exact hraw
  · intro c hc
    rcases List.mem_flatten.mp hc with ⟨piece, hpiece, hcp⟩
    rcases List.mem_map.mp hpiece with ⟨d, hd, rfl⟩
    rcases List.mem_flatten.mp hd with ⟨piece2, hpiece2, hdp⟩
    rcases List.mem_map.mp hpiece2 with ⟨e, he, rfl⟩
    exact allGood_punctMapChar d (allGood_nfkcChar e (hraw e he) d hdp) c hcp

theorem allGood_collapseSpaceTabGo (b : Bool) {l : List Char} (h : AllGood l) :
    AllGood (collapseSpaceTabGo b l) := by
  induction l generalizing b with
  | nil => exact allGood_nil
  | cons c rest ih =>
    have hc : goodChar c = true := h c (List.mem_cons_self _ _)
    have hrest : AllGood rest := fun d hd => h d (List.mem_cons_of_mem _ hd)
    unfold collapseSpaceTabGo
    split
    · split
      · exact ih true hrest
      · exact allGood_cons (by decide) (ih true hrest)
    · exact allGood_cons hc (ih false hrest)

theorem allGood_dropSpaceBeforePunctGo (fuel : Nat) {l : List Char} (h : AllGood l) :
    AllGood (dropSpaceBeforePunctGo fuel l) := by
  induction fuel generalizing l with
  | zero => exact h
  | succ fuel ih =>
    cases l with
    | nil => exact allGood_nil
    | cons c rest =>
      have hc : goodChar c = true := h c (List.mem_cons_self _ _)
      have hrest : AllGood rest := fun d hd => h d (List.mem_cons_of_mem _ hd)
      unfold dropSpaceBeforePunctGo
      split
      · dsimp only
        split
        · next p tail hdrop =>
          split
          · refine allGood_cons (hrest p (mem_of_drop_cons hdrop)) ?_
            exact ih (allGood_sublist (sublist_of_drop_cons hdrop) hrest)
          · exact allGood_cons hc (ih hrest)
        · exact allGood_cons hc (ih hrest)
      · exact allGood_cons hc (ih hrest)

theorem allGood_collapseNLGo (k : Nat) {t : Text} (h : AllGood t) :
    AllGood (collapseNLGo k t) := by
  induction t generalizing k with
  | nil => exact allGood_nil
  | cons c rest ih =>
    have hc : goodChar c = true := h c (List.mem_cons_self _ _)
    have hrest : AllGood rest := fun d hd => h d (List.mem_cons_of_mem _ hd)
    unfold collapseNLGo
    split
    · split
      · exact ih k hrest
      · exact allGood_cons (by decide) (ih (k + 1) hrest)
    · exact allGood_cons hc (ih 0 hrest)

theorem allGood_collapseNL {t : Text} (h : AllGood t) : AllGood (collapseNL t) :=
  allGood_collapseNLGo 0 h

theorem allGood_normalize_whitespace {t : Text} (h : AllGood t) :
    AllGood (normalize_whitespace t) := by
  unfold normalize_whitespace
  dsimp only
  refine allGood_collapseNL ?_
  refine allGood_linePass h ?_
  intro i raw hmem hraw
  have hline : AllGood (raw.map fun c =>
      if c = Char.ofNat 0x3000 || c = Char.ofNat 0xa0 then ' ' else c) := by
    intro d hd
    rcases List.mem_map.mp hd with ⟨e, he, rfl⟩
    split
    · decide
    · exact hraw e he
  split
  · exact allGood_rstrip hline
  · exact allGood_dropSpaceBeforePunctGo _
      (allGood_pyStrip (allGood_collapseSpaceTabGo false hline))

theorem allGood_spacingSub (p q : Char → Bool) :
    ∀ (l : List Char), AllGood l → AllGood (spacingSub p q l)
  | [], _ => allGood_nil
  | [x], h => h
  | x :: y :: rest, h => by
    have hx : goodChar x = true := h x (List.mem_cons_self _ _)
    have hy : goodChar y = true :=
      h y (List.mem_cons_of_mem _ (List.mem_cons_self _ _))
    have hrest2 : AllGood (y :: rest) := fun d hd => h d (List.mem_cons_of_mem _ hd)
    have hrest : AllGood rest := fun d hd => hrest2 d (List.mem_cons_of_mem _ hd)
    unfold spacingSub
    split
    · exact allGood_cons hx (allGood_cons (by decide)
        (allGood_cons hy (allGood_spacingSub p q rest hrest)))
    · exact allGood_cons hx (allGood_spacingSub p q (y :: rest) hrest2)

theorem allGood_normalize_cjk_latin_spacing {t : Text} (h : AllGood t) :
    AllGood (normalize_cjk_latin_spacing t) := by
  unfold normalize_cjk_latin_spacing
  dsimp only
  refine allGood_linePass h ?_
  intro i raw hmem hraw
  split
  · exact hraw
  · exact allGood_spacingSub _ _ _ (allGood_spacingSub _ _ _
      (allGood_spacingSub _ _ _ (allGood_spacingSub _ _ _ hraw)))

theorem allGood_joiner (buffer line : List Char) : AllGood (joiner buffer line) := by
  unfold joiner
  split
  · split
    · exact allGood_nil
    · exact allGood_singleton (by decide)
  · exact allGood_singleton (by decide)

theorem allGood_mergeGo (code : List Nat) :
    ∀ (lines : List Line) (i : Nat) (buffer : List Char), AllGood buffer →
      (∀ l ∈ lines, AllGood l) → ∀ x ∈ mergeGo code i buffer lines, AllGood x := by
  intro lines
  induction lines with
  | nil =>
    intro i buffer hbuf _ x hx
    unfold mergeGo at hx
    split at hx
    · cases hx
    · rcases List.mem_singleton.mp hx with rfl
      exact allGood_pyStrip hbuf
  | cons cur rest ih =>
    intro i buffer hbuf hlines x hx
    have hcur : AllGood cur := hlines cur (List.mem_cons_self _ _)
    have hrest : ∀ l ∈ rest, AllGood l := fun l hl =>
      hlines l (List.mem_cons_of_mem _ hl)
    have hflush : ∀ y ∈ (if buffer.isEmpty then ([] : List Line)
        else [pyStrip buffer]), AllGood y := by
      intro y hy
      split at hy
      · cases hy
      · rcases List.mem_singleton.mp hy with rfl
        exact allGood_pyStrip hbuf
    unfold mergeGo at hx
    split at hx
    · rcases List.mem_append.mp hx with h1 | h1
      · exact hflush x h1
      · rcases List.mem_cons.mp h1 with h2 | h2
        · rw [h2]
          exact allGood_rstrip hcur
        · exact ih (i + 1) [] allGood_nil hrest x h2
    · dsimp only at hx
      split at hx
      · rcases List.mem_append.mp hx with h1 | h1
        · exact hflush x h1
        · exact ih (i + 1) [] allGood_nil hrest x h1
      · split at hx
        · rcases List.mem_append.mp hx with h1 | h1
          · exact hflush x h1
          · rcases List.mem_cons.mp h1 with h2 | h2
            · rw [h2]
              exact allGood_pyStrip hcur
            · exact ih (i + 1) [] allGood_nil hrest x h2
        · split at hx
          · rcases List.mem_append.mp hx with h1 | h1
            · exact hflush x h1
            · rcases List.mem_cons.mp h1 with h2 | h2
              · rw [h2]
                exact allGood_pyStrip hcur
              · exact ih (i + 1) [] allGood_nil hrest x h2
          · split at hx
            · exact ih (i + 1) (pyStrip cur) (allGood_pyStrip hcur) hrest x hx
            · split at hx
              · rcases List.mem_cons.mp hx with h2 | h2
                · rw [h2]
                  exact allGood_pyStrip hbuf
                · exact ih (i + 1) (pyStrip cur) (allGood_pyStrip hcur) hrest x h2
              · refine ih (i + 1) _ ?_ hrest x hx
                exact allGood_append (allGood_append hbuf (allGood_joiner _ _))
                  (allGood_pyStrip hcur)

theorem allGood_merge_lines {t : Text} (h : AllGood t) : AllGood (merge_lines t) := by
  unfold merge_lines
  dsimp only
  refine allGood_collapseNL ?_
  refine allGood_joinLines ?_
  intro x hx
  exact allGood_mergeGo _ (splitLines t) 0 [] allGood_nil
    (fun l hl => allGood_splitLines h hl) x hx

theorem allGood_indentGo (code : List Nat) (treat : Bool) :
    ∀ (lines : List Line) (i : Nat) (pstart : Bool), (∀ l ∈ lines, AllGood l) →
      ∀ x ∈ indentGo code treat i pstart lines, AllGood x := by
  intro lines
  induction lines with
  | nil =>
    intro i pstart _ x hx
    unfold indentGo at hx
    cases hx
  | cons raw rest ih =>
    intro i pstart hlines x hx
    have hraw : AllGood raw := hlines raw (List.mem_cons_self _ _)
    have hrest : ∀ l ∈ rest, AllGood l := fun l hl =>
      hlines l (List.mem_cons_of_mem _ hl)
    unfold indentGo at hx
    split at hx
    · rcases List.mem_cons.mp hx with h1 | h1
      · rw [h1]
        exact allGood_rstrip hraw
      · exact ih (i + 1) true hrest x h1
    · dsimp only at hx
      split at hx
      · rcases List.mem_cons.mp hx with h1 | h1
        · rw [h1]
          exact allGood_nil
        · exact ih (i + 1) true hrest x h1
      · split at hx
        · rcases List.mem_cons.mp hx with h1 | h1
          · rw [h1]
            refine allGood_if ?_ (allGood_pyStrip hraw)
            exact allGood_append (allGood_string_decide (by decide))
              (allGood_pyStrip hraw)
          · exact ih (i + 1) true hrest x h1
        · rcases List.mem_cons.mp hx with h1 | h1
          · rw [h1]
            refine allGood_if ?_ (allGood_pyStrip hraw)
            exact allGood_append (allGood_string_decide (by decide))
              (allGood_pyStrip hraw)
          · exact ih (i + 1) false hrest x h1

theorem allGood_indent_paragraphs {t : Text} (b : Bool) (h : AllGood t) :
    AllGood (indent_paragraphs t b) := by
  unfold indent_paragraphs
  dsimp only
  refine allGood_joinLines ?_
  intro x hx
  exact allGood_indentGo _ b (splitLines t) 0 true
    (fun l hl => allGood_splitLines h hl) x hx

theorem cr_not_mem_sanitizeCRLF (t : Text) : Char.ofNat 13 ∉ sanitizeCRLF t := by
  induction t using sanitizeCRLF.induct with
  | case1 =>
    intro h
    cases h
  | case2 rest ih =>
    intro h
    rcases List.mem_cons.mp h with h1 | h1
    · exact absurd h1 (by decide)
    · exact ih h1
  | case3 rest hne ih =>
    intro h
    simp only [sanitizeCRLF] at h
    rcases List.mem_cons.mp h with h1 | h1
    · exact absurd h1 (by decide)
    · exact ih h1
  | case4 c rest hne1 hne2 ih =>
    intro h
    simp only [sanitizeCRLF] at h
    rcases List.mem_cons.mp h with h1 | h1
    · exact hne2 h1.symm
    · exact ih h1

theorem allGood_sanitize (t : Text) : AllGood (removeZeroWidth (sanitizeCRLF t)) := by
  intro c hc
  unfold removeZeroWidth at hc
  rw [List.mem_filter] at hc
  obtain ⟨hmem, hzw⟩ := hc
  have hcr : ¬(c = Char.ofNat 13) := fun hq => cr_not_mem_sanitizeCRLF t (hq ▸ hmem)
  unfold goodChar
  rw [Bool.and_eq_true]
  refine ⟨by simp [hcr], hzw⟩

theorem allGood_ite {b : Bool} {t1 t2 : Text} (h1 : AllGood t1) (h2 : AllGood t2) :
    AllGood (if b then t1 else t2) := by
  split
  · exact h1
  · exact h2

theorem allGood_clean_text (rawText : Text) (o : CleanOptions) :
    AllGood (clean_text rawText o) := by
  have h1 := allGood_sanitize rawText
  have h2 := allGood_normalize_list_markers h1
  have h3 := allGood_remove_repeated_noise h2
  have h4 := @allGood_ite o.remove_markdown _ _
    (allGood_strip_markdown o.keep_tables h3) h3
  have h5 := @allGood_ite o.keep_tables _ _ (allGood_normalize_table_blocks h4)
    (allGood_convert_table_blocks_to_bullets h4)
  have h6 := @allGood_ite o.normalize_punctuation _ _
    (allGood_normalize_punctuation h5) h5
  have h7 := @allGood_ite o.remove_emoji _ _
    (allGood_filter (fun c => !isEmojiChar c) h6) h6
  have h8 := @allGood_ite o.normalize_whitespace _ _
    (allGood_normalize_whitespace h7) h7
  have h9 := allGood_normalize_cjk_latin_spacing h8
  have h10 := @allGood_ite o.merge_wrapped_lines _ _ (allGood_merge_lines h9) h9
  have h11 := @allGood_ite o.indent_paragraph _ _
    (allGood_indent_paragraphs o.merge_wrapped_lines h10) h10
  exact allGood_stripSet _ h11

theorem head?_dropWhile_not (p : Char → Bool) (l : List Char) :
    ∀ c, (l.dropWhile p).head? = some c → p c = false := by
  induction l with
  | nil =>
    intro c hc
    cases hc
  | cons a rest ih =>
    intro c hc
    rw [List.dropWhile_cons] at hc
    split at hc
    · exact ih c hc
    · next hpa =>
      rw [List.head?_cons] at hc
      injection hc with h2
      rw [← h2]
      exact Bool.eq_false_iff.mpr hpa

theorem getLast?_dropWhile (p : Char → Bool) : ∀ (l : List Char) {c : Char},
    (l.dropWhile p).getLast? = some c → l.getLast? = some c := by
  intro l
  induction l with
  | nil =>
    intro c hc
    cases hc
  | cons a rest ih =>
    intro c hc
    rw [List.dropWhile_cons] at hc
    split at hc
    · have h2 := ih hc
      cases rest with
      | nil => cases h2
      | cons b rest2 =>
        rw [List.getLast?_cons_cons]
        exact h2
    · exact hc

theorem stripSet_getLast?_not (p : Char → Bool) (l : List Char) {c : Char}
    (h : (stripSet p l).getLast? = some c) : p c = false := by
  unfold stripSet at h
  rw [List.getLast?_reverse] at h
  exact head?_dropWhile_not p _ c h

theorem stripSet_head?_not (p : Char → Bool) (l : List Char) {c : Char}
    (h : (stripSet p l).head? = some c) : p c = false := by
  unfold stripSet at h
  rw [List.head?_reverse] at h
  have h2 := getLast?_dropWhile p _ h
  rw [List.getLast?_reverse] at h2
  exact head?_dropWhile_not p _ c h2

/-! ### Newline-freeness of split lines and the capped-run scanner -/

theorem noNL_nil : NoNL [] := fun c hc => absurd hc (List.not_mem_nil c)

theorem noNL_sublist {l l' : List Char} (h : List.Sublist l l') (hg : NoNL l') :
    NoNL l := fun c hc => hg c (h.subset hc)

theorem noNL_cons {c : Char} {l : List Char} (hc : ¬(c = '\n')) (h : NoNL l) :
    NoNL (c :: l) := by
  intro d hd
  rcases List.mem_cons.mp hd with h1 | h1
  · rw [h1]; exact hc
  · exact h d h1

theorem noNL_append {a b : List Char} (ha : NoNL a) (hb : NoNL b) :
    NoNL (a ++ b) := by
  intro c hc
  rcases List.mem_append.mp hc with h | h
  · exact ha c h
  · exact hb c h

theorem noNL_reverse {l : List Char} (h : NoNL l) : NoNL l.reverse :=
  fun c hc => h c (List.mem_reverse.mp hc)

theorem noNL_dropWhile (p : Char → Bool) {l : List Char} (h : NoNL l) :
    NoNL (l.dropWhile p) := noNL_sublist (List.dropWhile_sublist p) h

theorem noNL_rstrip {l : List Char} (h : NoNL l) : NoNL (rstrip l) :=
  noNL_reverse (noNL_dropWhile _ (noNL_reverse h))

theorem noNL_lstrip {l : List Char} (h : NoNL l) : NoNL (lstrip l) :=
  noNL_dropWhile _ h

theorem noNL_pyStrip {l : List Char} (h : NoNL l) : NoNL (pyStrip l) :=
  noNL_lstrip (noNL_rstrip h)

theorem noNL_of_all {l : List Char} (h : l.all (fun c => !(c = '\n')) = true) :
    NoNL l := by
  intro c hc
  have := List.all_eq_true.mp h c hc
  simpa using this

theorem splitOnP_no_sep (p : Char → Bool) :
    ∀ (t : List Char), ∀ l ∈ splitOnP p t, ∀ c ∈ l, p c = false := by
  intro t
  induction t with
  | nil =>
    intro l hl c hc
    rcases List.mem_singleton.mp hl with rfl
    cases hc
  | cons a rest ih =>
    intro l hl c hc
    unfold splitOnP at hl
    split at hl
    · rcases List.mem_cons.mp hl with h1 | h1
      · rw [h1] at hc
        cases hc
      · exact ih l h1 c hc
    · next hpa =>
      cases hsp : splitOnP p rest with
      | nil => exact absurd hsp (splitOnP_ne_nil p rest)
      | cons l0 ls =>
        rw [hsp] at hl
        rcases List.mem_cons.mp hl with h1 | h1
        · rw [h1] at hc
          rcases List.mem_cons.mp hc with h2 | h2
          · rw [h2]
            exact Bool.eq_false_iff.mpr hpa
          · exact ih l0 (hsp ▸ List.mem_cons_self _ _) c h2
        · exact ih l (hsp ▸ List.mem_cons_of_mem _ h1) c hc

theorem noNL_splitLines {t : Text} : ∀ l ∈ splitLines t, NoNL l := by
  intro l hl c hc
  have := splitOnP_no_sep _ t l hl c hc
  simpa using this

theorem nlRunsLE2_mono : ∀ (t : Text) (k k' : Nat), k' ≤ k →
    nlRunsLE2 k t = true → nlRunsLE2 k' t = true := by
  intro t
  induction t with
  | nil => intro k k' _ _; rfl
  | cons c rest ih =>
    intro k k' hle h
    unfold nlRunsLE2 at h ⊢
    by_cases hc : c = '\n'
    · rw [if_pos hc] at h ⊢
      rw [Bool.and_eq_true] at h ⊢
      obtain ⟨h1, h2⟩ := h
      refine ⟨decide_eq_true ?_, ih (k + 1) (k' + 1) (by omega) h2⟩
      have := of_decide_eq_true h1
      omega
    · rw [if_neg hc] at h ⊢
      exact h

theorem nlRunsLE2_tail {c : Char} {rest : Text} {k : Nat}
    (h : nlRunsLE2 k (c :: rest) = true) : nlRunsLE2 0 rest = true := by
  unfold nlRunsLE2 at h
  split at h
  · rw [Bool.and_eq_true] at h
    exact nlRunsLE2_mono rest _ 0 (Nat.zero_le _) h.2
  · exact h

theorem nlRunsLE2_suffix : ∀ (A B : Text), nlRunsLE2 0 (A ++ B) = true →
    nlRunsLE2 0 B = true := by
  intro A
  induction A with
  | nil => intro B h; exact h
  | cons c A2 ih => intro B h; exact ih B (nlRunsLE2_tail h)

theorem nlRunsLE2_prefix : ∀ (A : Text) (k : Nat) (B : Text),
    nlRunsLE2 k (A ++ B) = true → nlRunsLE2 k A = true := by
  intro A
  induction A with
  | nil => intro k B _; rfl
  | cons c A2 ih =>
    intro k B h
    simp only [nlRunsLE2, List.cons_append] at h ⊢
    by_cases hc : c = '\n'
    · rw [if_pos hc] at h ⊢
      rw [Bool.and_eq_true] at h ⊢
      exact ⟨h.1, ih _ B h.2⟩
    · rw [if_neg hc] at h ⊢
      exact ih 0 B h

theorem nlRunsLE2_dropWhile (p : Char → Bool) : ∀ (t : Text),
    nlRunsLE2 0 t = true → nlRunsLE2 0 (t.dropWhile p) = true := by
  intro t
  induction t with
  | nil => intro h; exact h
  | cons c rest ih =>
    intro h
    rw [List.dropWhile_cons]
    split
    · exact ih (nlRunsLE2_tail h)
    · exact h

theorem nlRunsLE2_collapseNLGo : ∀ (t : Text) (k : Nat),
    nlRunsLE2 k (collapseNLGo k t) = true := by
  intro t
  induction t with
  | nil => intro k; rfl
  | cons c rest ih =>
    intro k
    unfold collapseNLGo
    by_cases hc : c = '\n'
    · rw [if_pos hc]
      split
      · exact ih k
      · next hk =>
        show (if ('\n' : Char) = '\n' then
            decide (k < 2) && nlRunsLE2 (k + 1) (collapseNLGo (k + 1) rest)
          else nlRunsLE2 0 (collapseNLGo (k + 1) rest)) = true
        rw [if_pos rfl, Bool.and_eq_true]
        exact ⟨decide_eq_true (by omega), ih (k + 1)⟩
    · rw [if_neg hc]
      show (if c = '\n' then
          decide (k < 2) && nlRunsLE2 (k + 1) (collapseNLGo 0 rest)
        else nlRunsLE2 0 (collapseNLGo 0 rest)) = true
      rw [if_neg hc]
      exact ih 0

theorem nlRunsLE2_collapseNL (t : Text) : nlRunsLE2 0 (collapseNL t) = true :=
  nlRunsLE2_collapseNLGo t 0

theorem nlRunsLE2_line_append : ∀ (l : List Char), NoNL l → ∀ (k : Nat) (rest : Text),
    nlRunsLE2 k (l ++ rest) = nlRunsLE2 (if l.isEmpty then k else 0) rest := by
  intro l
  induction l with
  | nil => intro _ k rest; rfl
  | cons c l2 ih =>
    intro hl k rest
    have hc : ¬(c = '\n') := hl c (List.mem_cons_self _ _)
    have hl2 : NoNL l2 := fun d hd => hl d (List.mem_cons_of_mem _ hd)
    show (if c = '\n' then decide (k < 2) && nlRunsLE2 (k + 1) (l2 ++ rest)
        else nlRunsLE2 0 (l2 ++ rest)) = _
    rw [if_neg hc, ih hl2 0 rest]
    simp [List.isEmpty_cons]

theorem nlRunsLE2_of_noNL {l : List Char} (hl : NoNL l) (k : Nat) :
    nlRunsLE2 k l = true := by
  have h := nlRunsLE2_line_append l hl k []
  rw [List.append_nil] at h
  rw [h]
  rfl

theorem joinScan : ∀ (ls : List Line), (∀ l ∈ ls, NoNL l) → ∀ (k : Nat),
    nlRunsLE2 k (joinLines ls) = scanLinesNL k ls := by
  intro ls
  induction ls with
  | nil => intro _ k; rfl
  | cons l ls2 ih =>
    intro h k
    cases ls2 with
    | nil =>
      show nlRunsLE2 k l = scanLinesNL k [l]
      rw [nlRunsLE2_of_noNL (h l (List.mem_cons_self _ _)) k]
      rfl
    | cons m ms =>
      show nlRunsLE2 k (l ++ '\n' :: joinLines (m :: ms)) = _
      rw [nlRunsLE2_line_append l (h l (List.mem_cons_self _ _)) k]
      show (if ('\n' : Char) = '\n' then
          decide ((if l.isEmpty then k else 0) < 2) &&
            nlRunsLE2 ((if l.isEmpty then k else 0) + 1) (joinLines (m :: ms))
        else nlRunsLE2 0 (joinLines (m :: ms))) = _
      rw [if_pos rfl]
      rw [ih (fun x hx => h x (List.mem_cons_of_mem _ hx))]
      rfl

theorem scanLinesNL_congr : ∀ (ls ms : List Line),
    ls.map (fun l => l.isEmpty) = ms.map (fun l => l.isEmpty) →
    ∀ (k : Nat), scanLinesNL k ls = scanLinesNL k ms := by
  intro ls
  induction ls with
  | nil =>
    intro ms h k
    cases ms with
    | nil => rfl
    | cons _ _ => simp at h
  | cons l ls2 ih =>
    intro ms h k
    cases ms with
    | nil => simp at h
    | cons m ms2 =>
      rw [List.map_cons, List.map_cons] at h
      injection h with h1 h2
      cases ls2 with
      | nil =>
        cases ms2 with
        | nil => rfl
        | cons _ _ => simp at h2
      | cons a as =>
        cases ms2 with
        | nil => simp at h2
        | cons b bs =>
          show (decide ((if l.isEmpty then k else 0) < 2) &&
              scanLinesNL ((if l.isEmpty then k else 0) + 1) (a :: as)) = _
          rw [h1, ih (b :: bs) h2]
          rfl

theorem splitOnP_no_sep_single (p : Char → Bool) :
    ∀ (l : List Char), (∀ c ∈ l, p c = false) → splitOnP p l = [l] := by
  intro l
  induction l with
  | nil => intro _; rfl
  | cons c rest ih =>
    intro h
    have hc : p c = false := h c (List.mem_cons_self _ _)
    unfold splitOnP
    rw [hc]
    simp only [Bool.false_eq_true, if_false]
    rw [ih (fun d hd => h d (List.mem_cons_of_mem _ hd))]

theorem splitLines_append_nl : ∀ (l : List Char), NoNL l → ∀ (X : Text),
    splitLines (l ++ '\n' :: X) = l :: splitLines X := by
  intro l
  induction l with
  | nil => intro _ X; rfl
  | cons c l2 ih =>
    intro hl X
    have hc : ¬(c = '\n') := hl c (List.mem_cons_self _ _)
    have hl2 : NoNL l2 := fun d hd => hl d (List.mem_cons_of_mem _ hd)
    show splitOnP _ (c :: (l2 ++ '\n' :: X)) = _
    unfold splitOnP
    rw [if_neg (by simpa using hc)]
    rw [show splitOnP (fun c => c = '\n') (l2 ++ '\n' :: X) = l2 :: splitLines X
      from ih hl2 X]

theorem splitLines_joinLines_of_noNL : ∀ (ms : List Line), ms ≠ [] →
    (∀ l ∈ ms, NoNL l) → splitLines (joinLines ms) = ms := by
  intro ms
  induction ms with
  | nil => intro h _; cases h rfl
  | cons l ls ih =>
    intro _ h
    cases ls with
    | nil =>
      show splitLines l = [l]
      refine splitOnP_no_sep_single _ l ?_
      intro c hc
      exact decide_eq_false (h l (List.mem_cons_self _ _) c hc)
    | cons m ms2 =>
      show splitLines (l ++ '\n' :: joinLines (m :: ms2)) = _
      rw [splitLines_append_nl l (h l (List.mem_cons_self _ _))]
      rw [ih (by simp) (fun x hx => h x (List.mem_cons_of_mem _ hx))]

theorem splitOnP_append_sep1 (p : Char → Bool) (c : Char) (hc : p c = true) :
    ∀ (r : List Char), splitOnP p (r ++ [c]) = splitOnP p r ++ [[]] := by
  intro r
  induction r with
  | nil => simp [splitOnP, hc]
  | cons d r2 ih =>
    show splitOnP p (d :: (r2 ++ [c])) = _
    unfold splitOnP
    by_cases hd : p d = true
    · rw [if_pos hd, if_pos hd, ih]
      rfl
    · rw [if_neg hd, if_neg hd, ih]
      cases hsp : splitOnP p r2 with
      | nil => exact absurd hsp (splitOnP_ne_nil p r2)
      | cons l0 ls => rfl

theorem splitOnP_append_seps (p : Char → Bool) :
    ∀ (ss r : List Char), (∀ c ∈ ss, p c = true) →
    splitOnP p (r ++ ss) = splitOnP p r ++ List.replicate ss.length [] := by
  intro ss
  induction ss with
  | nil => intro r _; simp
  | cons c s2 ih =>
    intro r h
    have hc : p c = true := h c (List.mem_cons_self _ _)
    rw [show r ++ c :: s2 = (r ++ [c]) ++ s2 by simp]
    rw [ih (r ++ [c]) (fun d hd => h d (List.mem_cons_of_mem _ hd))]
    rw [splitOnP_append_sep1 p c hc r]
    simp [List.replicate_succ]

theorem stripSet_decomp (p : Char → Bool) (t : Text) :
    ∃ ss, List.dropWhile p t = stripSet p t ++ ss ∧ ∀ c ∈ ss, p c = true := by
  refine ⟨(List.takeWhile p (List.dropWhile p t).reverse).reverse, ?_, ?_⟩
  · have hd : (List.dropWhile p t).reverse =
        List.takeWhile p (List.dropWhile p t).reverse ++
          List.dropWhile p (List.dropWhile p t).reverse :=
      (List.takeWhile_append_dropWhile p _).symm
    have h2 : List.dropWhile p t =
        (List.dropWhile p (List.dropWhile p t).reverse).reverse ++
          (List.takeWhile p (List.dropWhile p t).reverse).reverse := by
      conv_lhs => rw [← List.reverse_reverse (List.dropWhile p t)]
      rw [show ((List.dropWhile p t).reverse).reverse =
          (List.takeWhile p (List.dropWhile p t).reverse ++
            List.dropWhile p (List.dropWhile p t).reverse).reverse
        from congrArg List.reverse hd]
      rw [List.reverse_append]
    exact h2
  · intro c hc
    rw [List.mem_reverse] at hc
    exact List.mem_takeWhile_imp hc

theorem splitLines_dropWhile_nlcr : ∀ (t : Text), (∀ c ∈ t, ¬(c = Char.ofNat 13)) →
    ∀ l ∈ splitLines (t.dropWhile fun c => c = '\n' || c = Char.ofNat 13),
      l ∈ splitLines t := by
  intro t
  induction t with
  | nil => intro _ l hl; exact hl
  | cons c rest ih =>
    intro h l hl
    rw [List.dropWhile_cons] at hl
    split at hl
    · next hp =>
      have hc : c = '\n' := by
        simp only [Bool.or_eq_true] at hp
        rcases hp with h1 | h1
        · exact of_decide_eq_true h1
        · exact absurd (of_decide_eq_true h1) (h c (List.mem_cons_self _ _))
      have h2 := ih (fun d hd => h d (List.mem_cons_of_mem _ hd)) l hl
      rw [hc]
      show l ∈ splitLines ('\n' :: rest)
      rw [show splitLines ('\n' :: rest) = [] :: splitLines rest from rfl]
      exact List.mem_cons_of_mem _ h2
    · exact hl

theorem splitLines_stripSet_sub (t : Text) (hcr : ∀ c ∈ t, ¬(c = Char.ofNat 13)) :
    ∀ l ∈ splitLines (stripSet (fun c => c = '\n' || c = Char.ofNat 13) t),
      l ∈ splitLines t := by
  intro l hl
  obtain ⟨ss, hdecomp, hs⟩ := stripSet_decomp (fun c => c = '\n' || c = Char.ofNat 13) t
  have hssnl : ∀ c ∈ ss, decide (c = '\n') = true := by
    intro c hc
    have hmem : c ∈ t := by
      have h1 : c ∈ List.dropWhile (fun c => c = '\n' || c = Char.ofNat 13) t := by
        rw [hdecomp]
        exact List.mem_append_right _ hc
      exact (List.dropWhile_sublist _).subset h1
    have hsc := hs c hc
    simp only [Bool.or_eq_true] at hsc
    rcases hsc with h1 | h1
    · exact h1
    · exact absurd (of_decide_eq_true h1) (hcr c hmem)
  have h2 : l ∈ splitLines (List.dropWhile (fun c => c = '\n' || c = Char.ofNat 13) t) := by
    rw [hdecomp]
    show l ∈ splitOnP _ (stripSet (fun c => c = '\n' || c = Char.ofNat 13) t ++ ss)
    rw [splitOnP_append_seps _ ss _ hssnl]
    exact List.mem_append_left _ hl
  exact splitLines_dropWhile_nlcr t hcr l h2

theorem joinLines_append : ∀ (A B : List Line), A ≠ [] → B ≠ [] →
    joinLines (A ++ B) = joinLines A ++ '\n' :: joinLines B := by
  intro A
  induction A with
  | nil => intro B h _; cases h rfl
  | cons a A2 ih =>
    intro B _ hB
    cases A2 with
    | nil =>
      cases B with
      | nil => cases hB rfl
      | cons b B2 => rfl
    | cons a2 A3 =>
      show a ++ '\n' :: joinLines ((a2 :: A3) ++ B) = _
      rw [ih B (by simp) hB]
      rw [show joinLines (a :: a2 :: A3) = a ++ '\n' :: joinLines (a2 :: A3) from rfl]
      simp [List.append_assoc, List.cons_append]

theorem mem_of_getLast?_eq_some {l : List Char} {a : Char}
    (h : l.getLast? = some a) : a ∈ l := by
  rcases List.mem_getLast?_eq_getLast (show a ∈ l.getLast? from h) with ⟨hne, heq⟩
  rw [heq]
  exact List.getLast_mem hne

theorem getLast?_append_right {l1 l2 : List Char} (h : l2 ≠ []) :
    (l1 ++ l2).getLast? = l2.getLast? := by
  rw [List.getLast?_append]
  cases hg : l2.getLast? with
  | none => exact absurd (List.getLast?_eq_none_iff.mp hg) h
  | some a => rfl

theorem pyStrip_eq_nil_iff (l : List Char) :
    pyStrip l = [] ↔ ∀ c ∈ l, pySpace c = true := by
  constructor
  · intro h c hc
    unfold pyStrip lstrip at h
    rw [List.dropWhile_eq_nil_iff] at h
    have hc2 : c ∈ l.reverse := List.mem_reverse.mpr hc
    have hsplit : l.reverse = List.takeWhile pySpace l.reverse ++
        List.dropWhile pySpace l.reverse := (List.takeWhile_append_dropWhile pySpace _).symm
    rw [hsplit] at hc2
    rcases List.mem_append.mp hc2 with h1 | h1
    · exact List.mem_takeWhile_imp h1
    · refine h c ?_
      show c ∈ rstrip l
      unfold rstrip
      rw [List.mem_reverse]
      exact h1
  · intro h
    unfold pyStrip lstrip
    rw [List.dropWhile_eq_nil_iff]
    intro x hx
    refine h x ?_
    have h1 : x ∈ l.reverse := by
      unfold rstrip at hx
      rw [List.mem_reverse] at hx
      exact (List.dropWhile_sublist _).subset hx
    exact List.mem_reverse.mp h1

theorem rstrip_getLast_nonspace {l : List Char} {c : Char}
    (h : (rstrip l).getLast? = some c) : pySpace c = false := by
  unfold rstrip at h
  rw [List.getLast?_reverse] at h
  exact head?_dropWhile_not pySpace _ c h

theorem pyStrip_getLast_nonspace {l : List Char} {c : Char}
    (h : (pyStrip l).getLast? = some c) : pySpace c = false := by
  unfold pyStrip lstrip at h
  exact rstrip_getLast_nonspace (getLast?_dropWhile pySpace _ h)

theorem pyStrip_ne_nil_nonspace {l : List Char} (h : pyStrip l ≠ []) :
    ∃ c ∈ pyStrip l, pySpace c = false := by
  cases hg : (pyStrip l).getLast? with
  | none => exact absurd (List.getLast?_eq_none_iff.mp hg) h
  | some c => exact ⟨c, mem_of_getLast?_eq_some hg, pyStrip_getLast_nonspace hg⟩

theorem rstrip_ne_nil_nonspace {l : List Char} (h : rstrip l ≠ []) :
    ∃ c ∈ rstrip l, pySpace c = false := by
  cases hg : (rstrip l).getLast? with
  | none => exact absurd (List.getLast?_eq_none_iff.mp hg) h
  | some c => exact ⟨c, mem_of_getLast?_eq_some hg, rstrip_getLast_nonspace hg⟩

theorem WSOfree_of_pyStrip (b : List Char) :
    pyStrip (pyStrip b) = [] → pyStrip b = [] := by
  intro h
  by_contra hne
  obtain ⟨c, hcm, hcs⟩ := pyStrip_ne_nil_nonspace hne
  have h2 := (pyStrip_eq_nil_iff _).mp h c hcm
  rw [h2] at hcs
  cases hcs

theorem WSOfree_of_rstrip (b : List Char) :
    pyStrip (rstrip b) = [] → rstrip b = [] := by
  intro h
  by_contra hne
  obtain ⟨c, hcm, hcs⟩ := rstrip_ne_nil_nonspace hne
  have h2 := (pyStrip_eq_nil_iff _).mp h c hcm
  rw [h2] at hcs
  cases hcs

theorem splitLines_cons_not_nl {c : Char} (hc : ¬(c = '\n')) (X : Text) :
    ∃ l ls, splitLines X = l :: ls ∧ splitLines (c :: X) = (c :: l) :: ls := by
  cases hX : splitLines X with
  | nil => exact absurd hX (splitLines_ne_nil X)
  | cons l ls =>
    refine ⟨l, ls, rfl, ?_⟩
    show splitOnP _ (c :: X) = _
    unfold splitOnP
    rw [if_neg (by simpa using hc)]
    rw [show splitOnP (fun c => c = '\n') X = l :: ls from hX]

theorem collapseNLGo_step_nl_skip {rest : Text} {k : Nat} (hk : 2 ≤ k) :
    collapseNLGo k ('\n' :: rest) = collapseNLGo k rest := by
  simp only [collapseNLGo]
  rw [if_pos trivial, if_pos hk]

theorem collapseNLGo_step_nl_emit {rest : Text} {k : Nat} (hk : ¬2 ≤ k) :
    collapseNLGo k ('\n' :: rest) = '\n' :: collapseNLGo (k + 1) rest := by
  simp only [collapseNLGo]
  rw [if_pos trivial, if_neg hk]

theorem collapseNLGo_step_char {rest : Text} {k : Nat} {c : Char} (hc : ¬(c = '\n')) :
    collapseNLGo k (c :: rest) = c :: collapseNLGo 0 rest := by
  simp only [collapseNLGo]
  rw [if_neg hc]

theorem collapseNLGo0_head : ∀ (t : Text),
    (splitLines (collapseNLGo 0 t)).head? = (splitLines t).head? := by
  intro t
  induction t with
  | nil => rfl
  | cons c rest ih =>
    by_cases hc : c = '\n'
    · subst hc
      rfl
    · rw [collapseNLGo_step_char hc]
      obtain ⟨l, ls, h1, h2⟩ := splitLines_cons_not_nl hc (collapseNLGo 0 rest)
      obtain ⟨l2, ls2, h12, h22⟩ := splitLines_cons_not_nl hc rest
      rw [h2, h22]
      rw [h1, h12] at ih
      simp only [List.head?_cons] at ih ⊢
      injection ih with ihh
      rw [ihh]

theorem collapseNLGo_head_mem : ∀ (t : Text) (k : Nat) (h : Line),
    (splitLines (collapseNLGo k t)).head? = some h →
    h = [] ∨ h ∈ splitLines t := by
  intro t
  induction t with
  | nil =>
    intro k h hh
    injection hh with hh2
    exact Or.inl hh2.symm
  | cons c rest ih =>
    intro k h hh
    by_cases hc : c = '\n'
    · subst hc
      by_cases hk : 2 ≤ k
      · rw [collapseNLGo_step_nl_skip hk] at hh
        rcases ih k h hh with h1 | h1
        · exact Or.inl h1
        · refine Or.inr ?_
          rw [show splitLines ('\n' :: rest) = [] :: splitLines rest from rfl]
          exact List.mem_cons_of_mem _ h1
      · rw [collapseNLGo_step_nl_emit hk] at hh
        rw [show splitLines ('\n' :: collapseNLGo (k + 1) rest) =
            [] :: splitLines (collapseNLGo (k + 1) rest) from rfl] at hh
        injection hh with hh2
        exact Or.inl hh2.symm
    · rw [collapseNLGo_step_char hc] at hh
      obtain ⟨l, ls, h1, h2⟩ := splitLines_cons_not_nl hc (collapseNLGo 0 rest)
      obtain ⟨l2, ls2, h12, h22⟩ := splitLines_cons_not_nl hc rest
      rw [h2] at hh
      simp only [List.head?_cons] at hh
      injection hh with hh2
      have hhd := collapseNLGo0_head rest
      rw [h1, h12] at hhd
      simp only [List.head?_cons] at hhd
      injection hhd with hhd2
      refine Or.inr ?_
      rw [h22, ← hh2, hhd2]
      exact List.mem_cons_self _ _

theorem collapseNLGo_tail_mem : ∀ (t : Text) (k : Nat),
    ∀ e ∈ (splitLines (collapseNLGo k t)).tail,
      e = [] ∨ e ∈ (splitLines t).tail := by
  intro t
  induction t with
  | nil =>
    intro k e he
    cases he
  | cons c rest ih =>
    intro k e he
    by_cases hc : c = '\n'
    · subst hc
      by_cases hk : 2 ≤ k
      · rw [collapseNLGo_step_nl_skip hk] at he
        rcases ih k e he with h1 | h1
        · exact Or.inl h1
        · refine Or.inr ?_
          show e ∈ ([] :: splitLines rest).tail
          exact List.mem_of_mem_tail h1
      · rw [collapseNLGo_step_nl_emit hk] at he
        rw [show splitLines ('\n' :: collapseNLGo (k + 1) rest) =
            [] :: splitLines (collapseNLGo (k + 1) rest) from rfl] at he
        simp only [List.tail_cons] at he
        cases hsp : splitLines (collapseNLGo (k + 1) rest) with
        | nil => exact absurd hsp (splitLines_ne_nil _)
        | cons hd tl =>
          rw [hsp] at he
          rcases List.mem_cons.mp he with h1 | h1
          · rcases collapseNLGo_head_mem rest (k + 1) hd (by rw [hsp]; rfl) with h2 | h2
            · exact Or.inl (h1.trans h2)
            · refine Or.inr ?_
              show e ∈ ([] :: splitLines rest).tail
              rw [List.tail_cons, h1]
              exact h2
          · have h2 : e ∈ (splitLines (collapseNLGo (k + 1) rest)).tail := by
              rw [hsp]
              exact h1
            rcases ih (k + 1) e h2 with h3 | h3
            · exact Or.inl h3
            · refine Or.inr ?_
              show e ∈ ([] :: splitLines rest).tail
              rw [List.tail_cons]
              exact List.mem_of_mem_tail h3
    · rw [collapseNLGo_step_char hc] at he
      obtain ⟨l, ls, h1, h2⟩ := splitLines_cons_not_nl hc (collapseNLGo 0 rest)
      obtain ⟨l2, ls2, h12, h22⟩ := splitLines_cons_not_nl hc rest
      rw [h2] at he
      simp only [List.tail_cons] at he
      have h3 : e ∈ (splitLines (collapseNLGo 0 rest)).tail := by
        rw [h1]
        exact he
      rcases ih 0 e h3 with h4 | h4
      · exact Or.inl h4
      · refine Or.inr ?_
        rw [h22, List.tail_cons]
        rw [h12, List.tail_cons] at h4
        exact h4

theorem collapseNL_line_mem {t : Text} :
    ∀ l ∈ splitLines (collapseNL t), l = [] ∨ l ∈ splitLines t := by
  intro l hl
  cases hsp : splitLines (collapseNLGo 0 t) with
  | nil => exact absurd hsp (splitLines_ne_nil _)
  | cons hd tl =>
    rw [show splitLines (collapseNL t) = hd :: tl from hsp] at hl
    rcases List.mem_cons.mp hl with h1 | h1
    · rcases collapseNLGo_head_mem t 0 hd (by rw [hsp]; rfl) with h2 | h2
      · exact Or.inl (h1.trans h2)
      · exact Or.inr (h1 ▸ h2)
    · have h2 : l ∈ (splitLines (collapseNLGo 0 t)).tail := by
        rw [hsp]
        exact h1
      rcases collapseNLGo_tail_mem t 0 l h2 with h3 | h3
      · exact Or.inl h3
      · exact Or.inr (List.mem_of_mem_tail h3)

theorem hasThree_inv : ∀ (ls : List Line), hasThreeConsecutiveBlankLines ls = true →
    ∃ l1 a b c l2, ls = l1 ++ a :: b :: c :: l2 ∧
      isBlankLine a = true ∧ isBlankLine b = true ∧ isBlankLine c = true := by
  intro ls
  induction ls with
  | nil => intro h; simp [hasThreeConsecutiveBlankLines] at h
  | cons a rest ih =>
    intro h
    cases rest with
    | nil => simp [hasThreeConsecutiveBlankLines] at h
    | cons b rest2 =>
      cases rest2 with
      | nil => simp [hasThreeConsecutiveBlankLines] at h
      | cons c rest3 =>
        rw [show hasThreeConsecutiveBlankLines (a :: b :: c :: rest3) =
            ((isBlankLine a && isBlankLine b && isBlankLine c) ||
              hasThreeConsecutiveBlankLines (b :: c :: rest3)) from rfl] at h
        simp only [Bool.or_eq_true] at h
        rcases h with h1 | h1
        · rw [Bool.and_eq_true, Bool.and_eq_true] at h1
          exact ⟨[], a, b, c, rest3, rfl, h1.1.1, h1.1.2, h1.2⟩
        · obtain ⟨l1, x, y, z, l2, heq, h3, h4, h5⟩ := ih h1
          exact ⟨a :: l1, x, y, z, l2, by rw [List.cons_append, ← heq], h3, h4, h5⟩

theorem final_no_three (T : Text) (hsc : nlRunsLE2 0 T = true) (hwso : linesWSOfree T)
    (hcr : ∀ ch ∈ T, ¬(ch = Char.ofNat 13)) :
    hasThreeConsecutiveBlankLines (splitLines
      (stripSet (fun c => c = '\n' || c = Char.ofNat 13) T)) = false := by
  by_contra hcontra
  rw [Bool.not_eq_false] at hcontra
  obtain ⟨l1, a, b, c, l2, heq, ha, hb, hc⟩ := hasThree_inv _ hcontra
  have hsub := splitLines_stripSet_sub T hcr
  have hae : a = [] := by
    refine hwso a (hsub a ?_) ?_
    · rw [heq]
      exact List.mem_append_right l1 (List.mem_cons_self _ _)
    · unfold isBlankLine at ha
      exact List.isEmpty_iff.mp ha
  have hbe : b = [] := by
    refine hwso b (hsub b ?_) ?_
    · rw [heq]
      exact List.mem_append_right l1 (List.mem_cons_of_mem _ (List.mem_cons_self _ _))
    · unfold isBlankLine at hb
      exact List.isEmpty_iff.mp hb
  have hce : c = [] := by
    refine hwso c (hsub c ?_) ?_
    · rw [heq]
      exact List.mem_append_right l1 (List.mem_cons_of_mem _
        (List.mem_cons_of_mem _ (List.mem_cons_self _ _)))
    · unfold isBlankLine at hc
      exact List.isEmpty_iff.mp hc
  subst hae
  subst hbe
  subst hce
  have hout_sc : nlRunsLE2 0
      (stripSet (fun c => c = '\n' || c = Char.ofNat 13) T) = true := by
    obtain ⟨ss, hdec, _⟩ := stripSet_decomp (fun c => c = '\n' || c = Char.ofNat 13) T
    have h1 : nlRunsLE2 0
        (List.dropWhile (fun c => c = '\n' || c = Char.ofNat 13) T) = true :=
      nlRunsLE2_dropWhile _ T hsc
    rw [hdec] at h1
    exact nlRunsLE2_prefix _ 0 ss h1
  have hjoin : joinLines (splitLines
      (stripSet (fun c => c = '\n' || c = Char.ofNat 13) T)) =
      stripSet (fun c => c = '\n' || c = Char.ofNat 13) T := joinLines_splitLines _
  rw [heq] at hjoin
  cases l1 with
  | nil =>
    have hhead : (stripSet (fun c => c = '\n' || c = Char.ofNat 13) T).head? =
        some '\n' := by
      rw [← hjoin]
      cases l2 with
      | nil => rfl
      | cons z l2b => rfl
    have hfalse := stripSet_head?_not (fun c => c = '\n' || c = Char.ofNat 13) T hhead
    simp at hfalse
  | cons x l1b =>
    cases l2 with
    | nil =>
      have hj2 : stripSet (fun c => c = '\n' || c = Char.ofNat 13) T =
          joinLines (x :: l1b) ++ '\n' :: '\n' :: '\n' :: [] := by
        rw [← hjoin, joinLines_append (x :: l1b) ([] :: [] :: [] :: []) (by simp) (by simp)]
        rfl
      have hlast : (stripSet (fun c => c = '\n' || c = Char.ofNat 13) T).getLast? =
          some '\n' := by
        rw [hj2, getLast?_append_right (by simp)]
        rfl
      have hfalse := stripSet_getLast?_not (fun c => c = '\n' || c = Char.ofNat 13) T hlast
      simp at hfalse
    | cons z l2b =>
      have hj2 : stripSet (fun c => c = '\n' || c = Char.ofNat 13) T =
          joinLines (x :: l1b) ++ '\n' :: '\n' :: '\n' :: '\n' :: joinLines (z :: l2b) := by
        rw [← hjoin, joinLines_append (x :: l1b) ([] :: [] :: [] :: z :: l2b)
          (by simp) (by simp)]
        rfl
      rw [hj2] at hout_sc
      have h4 := nlRunsLE2_suffix (joinLines (x :: l1b)) _ hout_sc
      simp [nlRunsLE2] at h4

theorem isEmpty_eq_of_ne {x y : List Char} (hx : x ≠ []) (hy : y ≠ []) :
    x.isEmpty = y.isEmpty := by
  cases x with
  | nil => cases hx rfl
  | cons _ _ =>
    cases y with
    | nil => cases hy rfl
    | cons _ _ => rfl

theorem rstrip_ne_nil_of_pyStrip {l : List Char} (h : pyStrip l ≠ []) :
    rstrip l ≠ [] := by
  intro he
  refine h ?_
  unfold pyStrip
  rw [he]
  rfl

theorem ne_nil_of_pyStrip_ne_nil {l : List Char} (h : pyStrip l ≠ []) : l ≠ [] := by
  intro he
  refine h ?_
  rw [he]
  rfl

theorem noNL_joiner (buffer line : List Char) : NoNL (joiner buffer line) := by
  unfold joiner
  split
  · split
    · exact noNL_nil
    · exact noNL_cons (by decide) noNL_nil
  · exact noNL_cons (by decide) noNL_nil

theorem mergeGo_noNL (code : List Nat) :
    ∀ (lines : List Line) (i : Nat) (buffer : List Char), NoNL buffer →
      (∀ l ∈ lines, NoNL l) → ∀ x ∈ mergeGo code i buffer lines, NoNL x := by
  intro lines
  induction lines with
  | nil =>
    intro i buffer hbuf _ x hx
    unfold mergeGo at hx
    split at hx
    · cases hx
    · rcases List.mem_singleton.mp hx with rfl
      exact noNL_pyStrip hbuf
  | cons cur rest ih =>
    intro i buffer hbuf hlines x hx
    have hcur : NoNL cur := hlines cur (List.mem_cons_self _ _)
    have hrest : ∀ l ∈ rest, NoNL l := fun l hl =>
      hlines l (List.mem_cons_of_mem _ hl)
    have hflush : ∀ y ∈ (if buffer.isEmpty then ([] : List Line)
        else [pyStrip buffer]), NoNL y := by
      intro y hy
      split at hy
      · cases hy
      · rcases List.mem_singleton.mp hy with rfl
        exact noNL_pyStrip hbuf
    unfold mergeGo at hx
    split at hx
    · rcases List.mem_append.mp hx with h1 | h1
      · exact hflush x h1
      · rcases List.mem_cons.mp h1 with h2 | h2
        · rw [h2]
          exact noNL_rstrip hcur
        · exact ih (i + 1) [] noNL_nil hrest x h2
    · dsimp only at hx
      split at hx
      · rcases List.mem_append.mp hx with h1 | h1
        · exact hflush x h1
        · exact ih (i + 1) [] noNL_nil hrest x h1
      · split at hx
        · rcases List.mem_append.mp hx with h1 | h1
          · exact hflush x h1
          · rcases List.mem_cons.mp h1 with h2 | h2
            · rw [h2]
              exact noNL_pyStrip hcur
            · exact ih (i + 1) [] noNL_nil hrest x h2
        · split at hx
          · rcases List.mem_append.mp hx with h1 | h1
            · exact hflush x h1
            · rcases List.mem_cons.mp h1 with h2 | h2
              · rw [h2]
                exact noNL_pyStrip hcur
              · exact ih (i + 1) [] noNL_nil hrest x h2
          · split at hx
            · exact ih (i + 1) (pyStrip cur) (noNL_pyStrip hcur) hrest x hx
            · split at hx
              · rcases List.mem_cons.mp hx with h2 | h2
                · rw [h2]
                  exact noNL_pyStrip hbuf
                · exact ih (i + 1) (pyStrip cur) (noNL_pyStrip hcur) hrest x h2
              · refine ih (i + 1) _ ?_ hrest x hx
                exact noNL_append (noNL_append hbuf (noNL_joiner _ _))
                  (noNL_pyStrip hcur)

theorem mergeGo_WSOfree (code : List Nat) :
    ∀ (lines : List Line) (i : Nat) (buffer : List Char),
      ∀ x ∈ mergeGo code i buffer lines, pyStrip x = [] → x = [] := by
  intro lines
  induction lines with
  | nil =>
    intro i buffer x hx
    unfold mergeGo at hx
    split at hx
    · cases hx
    · rcases List.mem_singleton.mp hx with rfl
      exact WSOfree_of_pyStrip buffer
  | cons cur rest ih =>
    intro i buffer x hx
    have hflush : ∀ y ∈ (if buffer.isEmpty then ([] : List Line)
        else [pyStrip buffer]), pyStrip y = [] → y = [] := by
      intro y hy
      split at hy
      · cases hy
      · rcases List.mem_singleton.mp hy with rfl
        exact WSOfree_of_pyStrip buffer
    unfold mergeGo at hx
    split at hx
    · rcases List.mem_append.mp hx with h1 | h1
      · exact hflush x h1
      · rcases List.mem_cons.mp h1 with h2 | h2
        · rw [h2]
          exact WSOfree_of_rstrip cur
        · exact ih (i + 1) [] x h2
    · dsimp only at hx
      split at hx
      · rcases List.mem_append.mp hx with h1 | h1
        · exact hflush x h1
        · exact ih (i + 1) [] x h1
      · split at hx
        · rcases List.mem_append.mp hx with h1 | h1
          · exact hflush x h1
          · rcases List.mem_cons.mp h1 with h2 | h2
            · rw [h2]
              exact WSOfree_of_pyStrip cur
            · exact ih (i + 1) [] x h2
        · split at hx
          · rcases List.mem_append.mp hx with h1 | h1
            · exact hflush x h1
            · rcases List.mem_cons.mp h1 with h2 | h2
              · rw [h2]
                exact WSOfree_of_pyStrip cur
              · exact ih (i + 1) [] x h2
          · split at hx
            · exact ih (i + 1) (pyStrip cur) x hx
            · split at hx
              · rcases List.mem_cons.mp hx with h2 | h2
                · rw [h2]
                  exact WSOfree_of_pyStrip buffer
                · exact ih (i + 1) (pyStrip cur) x h2
              · exact ih (i + 1) _ x hx

theorem indentGo_noNL (code : List Nat) (treat : Bool) :
    ∀ (lines : List Line) (i : Nat) (pstart : Bool), (∀ l ∈ lines, NoNL l) →
      ∀ x ∈ indentGo code treat i pstart lines, NoNL x := by
  intro lines
  induction lines with
  | nil =>
    intro i pstart _ x hx
    unfold indentGo at hx
    cases hx
  | cons raw rest ih =>
    intro i pstart hlines x hx
    have hraw : NoNL raw := hlines raw (List.mem_cons_self _ _)
    have hrest : ∀ l ∈ rest, NoNL l := fun l hl =>
      hlines l (List.mem_cons_of_mem _ hl)
    unfold indentGo at hx
    split at hx
    · rcases List.mem_cons.mp hx with h1 | h1
      · rw [h1]
        exact noNL_rstrip hraw
      · exact ih (i + 1) true hrest x h1
    · dsimp only at hx
      split at hx
      · rcases List.mem_cons.mp hx with h1 | h1
        · rw [h1]
          exact noNL_nil
        · exact ih (i + 1) true hrest x h1
      · split at hx
        · rcases List.mem_cons.mp hx with h1 | h1
          · rw [h1]
            split
            · exact noNL_append (noNL_of_all (by decide)) (noNL_pyStrip hraw)
            · exact noNL_pyStrip hraw
          · exact ih (i + 1) true hrest x h1
        · rcases List.mem_cons.mp hx with h1 | h1
          · rw [h1]
            split
            · exact noNL_append (noNL_of_all (by decide)) (noNL_pyStrip hraw)
            · exact noNL_pyStrip hraw
          · exact ih (i + 1) false hrest x h1

theorem indentGo_WSOfree (code : List Nat) (treat : Bool) :
    ∀ (lines : List Line) (i : Nat) (pstart : Bool),
      ∀ x ∈ indentGo code treat i pstart lines, pyStrip x = [] → x = [] := by
  intro lines
  induction lines with
  | nil =>
    intro i pstart x hx
    unfold indentGo at hx
    cases hx
  | cons raw rest ih =>
    intro i pstart x hx
    unfold indentGo at hx
    split at hx
    · rcases List.mem_cons.mp hx with h1 | h1
      · rw [h1]
        exact WSOfree_of_rstrip raw
      · exact ih (i + 1) true x h1
    · dsimp only at hx
      split at hx
      · rcases List.mem_cons.mp hx with h1 | h1
        · rw [h1]
          intro _
          rfl
        · exact ih (i + 1) true x h1
      · next hne =>
        have hpy : pyStrip raw ≠ [] := by
          intro hz
          rw [hz] at hne
          simp at hne
        split at hx
        · rcases List.mem_cons.mp hx with h1 | h1
          · rw [h1]
            intro hws
            exfalso
            obtain ⟨d, hdm, hds⟩ := pyStrip_ne_nil_nonspace hpy
            split at hws
            · have h3 := (pyStrip_eq_nil_iff _).mp hws d
                (List.mem_append_right _ hdm)
              rw [h3] at hds
              cases hds
            · have h3 := (pyStrip_eq_nil_iff _).mp hws d hdm
              rw [h3] at hds
              cases hds
          · exact ih (i + 1) true x h1
        · rcases List.mem_cons.mp hx with h1 | h1
          · rw [h1]
            intro hws
            exfalso
            obtain ⟨d, hdm, hds⟩ := pyStrip_ne_nil_nonspace hpy
            split at hws
            · have h3 := (pyStrip_eq_nil_iff _).mp hws d
                (List.mem_append_right _ hdm)
              rw [h3] at hds
              cases hds
            · have h3 := (pyStrip_eq_nil_iff _).mp hws d hdm
              rw [h3] at hds
              cases hds
          · exact ih (i + 1) false x h1

theorem indentGo_isEmpty_map (code : List Nat) (treat : Bool) :
    ∀ (lines : List Line) (i : Nat) (pstart : Bool),
      (∀ l ∈ lines, pyStrip l = [] → l = []) →
      (indentGo code treat i pstart lines).map (fun l => l.isEmpty) =
        lines.map (fun l => l.isEmpty) := by
  intro lines
  induction lines with
  | nil => intro i pstart _; rfl
  | cons raw rest ih =>
    intro i pstart h
    have hraw := h raw (List.mem_cons_self _ _)
    have hrest : ∀ l ∈ rest, pyStrip l = [] → l = [] := fun l hl =>
      h l (List.mem_cons_of_mem _ hl)
    unfold indentGo
    split
    · rw [List.map_cons, List.map_cons, ih (i + 1) true hrest]
      by_cases hz : raw = []
      · rw [hz]
        rfl
      · have hpy : pyStrip raw ≠ [] := fun hp => hz (hraw hp)
        have hr : rstrip raw ≠ [] := rstrip_ne_nil_of_pyStrip hpy
        rw [isEmpty_eq_of_ne hr hz]
    · dsimp only
      split
      · next hbl =>
        rw [List.map_cons, List.map_cons, ih (i + 1) true hrest]
        have hz : raw = [] := hraw (List.isEmpty_iff.mp hbl)
        rw [hz]
      · next hbl =>
        have hpy : pyStrip raw ≠ [] := by
          intro hz
          rw [hz] at hbl
          simp at hbl
        have hz : raw ≠ [] := ne_nil_of_pyStrip_ne_nil hpy
        split
        · rw [List.map_cons, List.map_cons, ih (i + 1) true hrest]
          congr 1
          split
          · refine isEmpty_eq_of_ne ?_ hz
            intro hq
            rw [List.append_eq_nil] at hq
            exact absurd hq.1 (by decide)
          · exact isEmpty_eq_of_ne hpy hz
        · rw [List.map_cons, List.map_cons, ih (i + 1) false hrest]
          congr 1
          split
          · refine isEmpty_eq_of_ne ?_ hz
            intro hq
            rw [List.append_eq_nil] at hq
            exact absurd hq.1 (by decide)
          · exact isEmpty_eq_of_ne hpy hz

theorem spacingSub_isEmpty (p q : Char → Bool) :
    ∀ (l : List Char), (spacingSub p q l).isEmpty = l.isEmpty
  | [] => rfl
  | [x] => rfl
  | x :: y :: rest => by
    unfold spacingSub
    split
    · rfl
    · rfl

theorem spacingSub_noNL (p q : Char → Bool) :
    ∀ (l : List Char), NoNL l → NoNL (spacingSub p q l)
  | [], _ => noNL_nil
  | [x], h => h
  | x :: y :: rest, h => by
    have hx := h x (List.mem_cons_self _ _)
    have hy : ¬(y = '\n') := h y (List.mem_cons_of_mem _ (List.mem_cons_self _ _))
    have hr2 : NoNL (y :: rest) := fun d hd => h d (List.mem_cons_of_mem _ hd)
    have hr : NoNL rest := fun d hd => hr2 d (List.mem_cons_of_mem _ hd)
    unfold spacingSub
    split
    · exact noNL_cons hx (noNL_cons (by decide)
        (noNL_cons hy (spacingSub_noNL p q rest hr)))
    · exact noNL_cons hx (spacingSub_noNL p q (y :: rest) hr2)

theorem spacingSub_mem_of (p q : Char → Bool) :
    ∀ (l : List Char) (c : Char), c ∈ l → c ∈ spacingSub p q l
  | [], c, hc => absurd hc (List.not_mem_nil c)
  | [x], c, hc => hc
  | x :: y :: rest, c, hc => by
    unfold spacingSub
    split
    · rcases List.mem_cons.mp hc with h1 | h1
      · rw [h1]
        exact List.mem_cons_self _ _
      · rcases List.mem_cons.mp h1 with h2 | h2
        · rw [h2]
          exact List.mem_cons_of_mem _ (List.mem_cons_of_mem _ (List.mem_cons_self _ _))
        · exact List.mem_cons_of_mem _ (List.mem_cons_of_mem _ (List.mem_cons_of_mem _
            (spacingSub_mem_of p q rest c h2)))
    · rcases List.mem_cons.mp hc with h1 | h1
      · rw [h1]
        exact List.mem_cons_self _ _
      · exact List.mem_cons_of_mem _ (spacingSub_mem_of p q (y :: rest) c h1)

theorem collapseSpaceTabGo_noNL (b : Bool) {l : List Char} (h : NoNL l) :
    NoNL (collapseSpaceTabGo b l) := by
  induction l generalizing b with
  | nil => exact noNL_nil
  | cons c rest ih =>
    have hc : ¬(c = '\n') := h c (List.mem_cons_self _ _)
    have hrest : NoNL rest := fun d hd => h d (List.mem_cons_of_mem _ hd)
    unfold collapseSpaceTabGo
    split
    · split
      · exact ih true hrest
      · exact noNL_cons (by decide) (ih true hrest)
    · exact noNL_cons hc (ih false hrest)

theorem dropGo_noNL (fuel : Nat) {l : List Char} (h : NoNL l) :
    NoNL (dropSpaceBeforePunctGo fuel l) := by
  induction fuel generalizing l with
  | zero => exact h
  | succ fuel ih =>
    cases l with
    | nil => exact noNL_nil
    | cons c rest =>
      have hc : ¬(c = '\n') := h c (List.mem_cons_self _ _)
      have hrest : NoNL rest := fun d hd => h d (List.mem_cons_of_mem _ hd)
      unfold dropSpaceBeforePunctGo
      split
      · dsimp only
        split
        · next p tail hdrop =>
          split
          · refine noNL_cons (hrest p (mem_of_drop_cons hdrop)) ?_
            exact ih (noNL_sublist (sublist_of_drop_cons hdrop) hrest)
          · exact noNL_cons hc (ih hrest)
        · exact noNL_cons hc (ih hrest)
      · exact noNL_cons hc (ih hrest)

theorem termPunct_nonspace : ∀ p ∈ termPunct, pySpace p = false := by decide

theorem dropGo_witness : ∀ (fuel : Nat) (l : List Char),
    (∃ c ∈ l, pySpace c = false) →
    ∃ c ∈ dropSpaceBeforePunctGo fuel l, pySpace c = false := by
  intro fuel
  induction fuel with
  | zero => intro l h; exact h
  | succ fuel ih =>
    intro l h
    cases l with
    | nil => exact h
    | cons c rest =>
      unfold dropSpaceBeforePunctGo
      split
      · next hceq =>
        dsimp only
        split
        · next p tail hdrop =>
          split
          · next hpunct =>
            exact ⟨p, List.mem_cons_self _ _, termPunct_nonspace p (List.elem_iff.mp hpunct)⟩
          · obtain ⟨w, hwm, hws⟩ := h
            rcases List.mem_cons.mp hwm with hw1 | hw1
            · exfalso
              rw [hw1, hceq] at hws
              exact absurd hws (by decide)
            · obtain ⟨d, hdm, hds⟩ := ih rest ⟨w, hw1, hws⟩
              exact ⟨d, List.mem_cons_of_mem _ hdm, hds⟩
        · obtain ⟨w, hwm, hws⟩ := h
          rcases List.mem_cons.mp hwm with hw1 | hw1
          · exfalso
            rw [hw1, hceq] at hws
            exact absurd hws (by decide)
          · obtain ⟨d, hdm, hds⟩ := ih rest ⟨w, hw1, hws⟩
            exact ⟨d, List.mem_cons_of_mem _ hdm, hds⟩
      · obtain ⟨w, hwm, hws⟩ := h
        rcases List.mem_cons.mp hwm with hw1 | hw1
        · exact ⟨c, List.mem_cons_self _ _, hw1 ▸ hws⟩
        · obtain ⟨d, hdm, hds⟩ := ih rest ⟨w, hw1, hws⟩
          exact ⟨d, List.mem_cons_of_mem _ hdm, hds⟩

theorem dropGo_pyStrip_WSOfree (fuel : Nat) (z : List Char) :
    pyStrip (dropSpaceBeforePunctGo fuel (pyStrip z)) = [] →
    dropSpaceBeforePunctGo fuel (pyStrip z) = [] := by
  intro h
  by_cases hz : pyStrip z = []
  · rw [hz]
    cases fuel <;> rfl
  · exfalso
    obtain ⟨c, hcm, hcs⟩ := pyStrip_ne_nil_nonspace hz
    obtain ⟨d, hdm, hds⟩ := dropGo_witness fuel _ ⟨c, hcm, hcs⟩
    have h3 := (pyStrip_eq_nil_iff _).mp h d hdm
    rw [h3] at hds
    cases hds

theorem mapWithIdx_map {α β γ : Type} (f : Nat → α → β) (g : β → γ) (g2 : α → γ)
    (hfg : ∀ i a, g (f i a) = g2 a) :
    ∀ (i : Nat) (ls : List α), (mapWithIdx f i ls).map g = ls.map g2 := by
  intro i ls
  induction ls generalizing i with
  | nil => rfl
  | cons a as ih =>
    show g (f i a) :: (mapWithIdx f (i + 1) as).map g = g2 a :: as.map g2
    rw [hfg i a, ih (i + 1)]

theorem mapWithIdx_ne_nil {α β : Type} (f : Nat → α → β) (i : Nat) (ls : List α)
    (h : ls ≠ []) : mapWithIdx f i ls ≠ [] := by
  cases ls with
  | nil => cases h rfl
  | cons a as => simp [mapWithIdx]

theorem pyStrip_subset {l : List Char} {c : Char} (h : c ∈ pyStrip l) : c ∈ l := by
  unfold pyStrip lstrip rstrip at h
  have h1 := (List.dropWhile_sublist pySpace).subset h
  rw [List.mem_reverse] at h1
  have h2 := (List.dropWhile_sublist pySpace).subset h1
  rw [List.mem_reverse] at h2
  exact h2

theorem mapWithIdx_map_mem {α β γ : Type} (f : Nat → α → β) (g : β → γ) (g2 : α → γ) :
    ∀ (ls : List α) (i : Nat), (∀ j a, a ∈ ls → g (f j a) = g2 a) →
    (mapWithIdx f i ls).map g = ls.map g2 := by
  intro ls
  induction ls with
  | nil => intro i _; rfl
  | cons a as ih =>
    intro i h
    show g (f i a) :: (mapWithIdx f (i + 1) as).map g = g2 a :: as.map g2
    rw [h i a (List.mem_cons_self _ _),
      ih (i + 1) (fun j b hb => h j b (List.mem_cons_of_mem _ hb))]

theorem linePass_mem {t : Text} {f : Nat → Line → Line} {l : Line}
    (hnl : ∀ i raw, raw ∈ splitLines t → NoNL (f i raw))
    (hmem : l ∈ splitLines (joinLines (mapWithIdx f 0 (splitLines t)))) :
    ∃ i raw, raw ∈ splitLines t ∧ l = f i raw := by
  have hne : mapWithIdx f 0 (splitLines t) ≠ [] :=
    mapWithIdx_ne_nil f 0 _ (splitLines_ne_nil t)
  have hnl2 : ∀ x ∈ mapWithIdx f 0 (splitLines t), NoNL x := by
    intro x hx
    rcases mem_mapWithIdx hx with ⟨j, raw, hraw, rfl⟩
    exact hnl j raw hraw
  rw [splitLines_joinLines_of_noNL _ hne hnl2] at hmem
  rcases mem_mapWithIdx hmem with ⟨j, raw, hraw, rfl⟩
  exact ⟨j, raw, hraw, rfl⟩

theorem linePass_scan {t : Text} {f : Nat → Line → Line}
    (hnl : ∀ i raw, raw ∈ splitLines t → NoNL (f i raw))
    (hempty : ∀ i raw, raw ∈ splitLines t → (f i raw).isEmpty = raw.isEmpty)
    (h : nlRunsLE2 0 t = true) :
    nlRunsLE2 0 (joinLines (mapWithIdx f 0 (splitLines t))) = true := by
  have hnl2 : ∀ x ∈ mapWithIdx f 0 (splitLines t), NoNL x := by
    intro x hx
    rcases mem_mapWithIdx hx with ⟨j, raw, hraw, rfl⟩
    exact hnl j raw hraw
  have hmap : (mapWithIdx f 0 (splitLines t)).map (fun l => l.isEmpty) =
      (splitLines t).map (fun l => l.isEmpty) :=
    mapWithIdx_map_mem f _ _ _ 0 (fun j a ha => hempty j a ha)
  rw [joinScan _ hnl2 0, scanLinesNL_congr _ _ hmap 0,
    ← joinScan _ (fun l hl => noNL_splitLines l hl) 0, joinLines_splitLines]
  exact h

theorem merge_lines_scan (t : Text) : nlRunsLE2 0 (merge_lines t) = true := by
  unfold merge_lines
  try dsimp only
  exact nlRunsLE2_collapseNL _

theorem merge_lines_wso (t : Text) : linesWSOfree (merge_lines t) := by
  unfold merge_lines
  try dsimp only
  intro l hl hps
  rcases collapseNL_line_mem l hl with h1 | h1
  · exact h1
  · cases hms : mergeGo (detect_code_line_indexes (splitLines t)) 0 [] (splitLines t) with
    | nil =>
      rw [hms] at h1
      rcases List.mem_singleton.mp h1 with rfl
      rfl
    | cons m ms2 =>
      rw [hms] at h1
      have hnl : ∀ x ∈ (m :: ms2), NoNL x := by
        intro x hx
        refine mergeGo_noNL (detect_code_line_indexes (splitLines t))
          (splitLines t) 0 [] noNL_nil (fun y hy => noNL_splitLines y hy) x ?_
        rw [hms]
        exact hx
      rw [splitLines_joinLines_of_noNL (m :: ms2) (by simp) hnl] at h1
      refine mergeGo_WSOfree (detect_code_line_indexes (splitLines t))
        (splitLines t) 0 [] l ?_ hps
      rw [hms]
      exact h1

theorem normalize_whitespace_scan (t : Text) :
    nlRunsLE2 0 (normalize_whitespace t) = true := by
  unfold normalize_whitespace
  try dsimp only
  exact nlRunsLE2_collapseNL _

theorem normalize_whitespace_wso (t : Text) : linesWSOfree (normalize_whitespace t) := by
  unfold normalize_whitespace
  try dsimp only
  intro l hl hps
  rcases collapseNL_line_mem l hl with h1 | h1
  · exact h1
  · obtain ⟨i, raw, hraw, heq⟩ := linePass_mem (by
      intro j raw2 hraw2
      try dsimp only
      split
      · refine noNL_rstrip ?_
        intro d hd
        rcases List.mem_map.mp hd with ⟨e, he, rfl⟩
        split
        · decide
        · exact noNL_splitLines raw2 hraw2 e he
      · refine dropGo_noNL _ (noNL_pyStrip (collapseSpaceTabGo_noNL false ?_))
        intro d hd
        rcases List.mem_map.mp hd with ⟨e, he, rfl⟩
        split
        · decide
        · exact noNL_splitLines raw2 hraw2 e he) h1
    subst heq
    revert hps
    try dsimp only
    split
    · exact WSOfree_of_rstrip _
    · exact dropGo_pyStrip_WSOfree _ _

theorem spacing_scan {t : Text} (h : nlRunsLE2 0 t = true) :
    nlRunsLE2 0 (normalize_cjk_latin_spacing t) = true := by
  unfold normalize_cjk_latin_spacing
  try dsimp only
  refine linePass_scan ?_ ?_ h
  · intro i raw hraw
    try dsimp only
    split
    · exact noNL_splitLines raw hraw
    · exact spacingSub_noNL _ _ _ (spacingSub_noNL _ _ _ (spacingSub_noNL _ _ _
        (spacingSub_noNL _ _ _ (noNL_splitLines raw hraw))))
  · intro i raw hraw
    try dsimp only
    split
    · rfl
    · rw [spacingSub_isEmpty, spacingSub_isEmpty, spacingSub_isEmpty, spacingSub_isEmpty]

theorem spacing_wso {t : Text} (h2 : linesWSOfree t) :
    linesWSOfree (normalize_cjk_latin_spacing t) := by
  unfold normalize_cjk_latin_spacing
  try dsimp only
  intro l hl hps
  obtain ⟨i, raw, hraw, heq⟩ := linePass_mem (by
    intro j raw2 hraw2
    try dsimp only
    split
    · exact noNL_splitLines raw2 hraw2
    · exact spacingSub_noNL _ _ _ (spacingSub_noNL _ _ _ (spacingSub_noNL _ _ _
        (spacingSub_noNL _ _ _ (noNL_splitLines raw2 hraw2))))) hl
  subst heq
  revert hps
  try dsimp only
  split
  · exact h2 raw hraw
  · intro hps
    by_cases hz : raw = []
    · rw [hz]
      rfl
    · exfalso
      have hpy : pyStrip raw ≠ [] := fun hp => hz (h2 raw hraw hp)
      obtain ⟨c, hcm, hcs⟩ := pyStrip_ne_nil_nonspace hpy
      have hcm2 : c ∈ raw := pyStrip_subset hcm
      have hcm3 := spacingSub_mem_of isDigit isLatinLetter _ c
        (spacingSub_mem_of isLatinLetter isDigit _ c
          (spacingSub_mem_of isLatinAlnum isCJK _ c
            (spacingSub_mem_of isCJK isLatinAlnum raw c hcm2)))
      have h3 := (pyStrip_eq_nil_iff _).mp hps c hcm3
      rw [h3] at hcs
      cases hcs

theorem indent_scan_wso {t : Text} (b : Bool) (h1 : nlRunsLE2 0 t = true)
    (h2 : linesWSOfree t) :
    nlRunsLE2 0 (indent_paragraphs t b) = true ∧
      linesWSOfree (indent_paragraphs t b) := by
  unfold indent_paragraphs
  try dsimp only
  have hnl2 : ∀ x ∈ indentGo (detect_code_line_indexes (splitLines t)) b 0 true
      (splitLines t), NoNL x :=
    fun x hx => indentGo_noNL _ b (splitLines t) 0 true
      (fun l hl => noNL_splitLines l hl) x hx
  have hmap := indentGo_isEmpty_map (detect_code_line_indexes (splitLines t)) b
    (splitLines t) 0 true (fun l hl => h2 l hl)
  have hne : indentGo (detect_code_line_indexes (splitLines t)) b 0 true
      (splitLines t) ≠ [] := by
    intro hq
    have hlen := congrArg List.length hmap
    rw [hq] at hlen
    cases hsp : splitLines t with
    | nil => exact splitLines_ne_nil t hsp
    | cons a as =>
      rw [hsp] at hlen
      simp at hlen
  constructor
  · rw [joinScan _ hnl2 0, scanLinesNL_congr _ _ hmap 0,
      ← joinScan _ (fun l hl => noNL_splitLines l hl) 0, joinLines_splitLines]
    exact h1
  · intro l hl hps
    rw [splitLines_joinLines_of_noNL _ hne hnl2] at hl
    exact indentGo_WSOfree _ b (splitLines t) 0 true l hl hps

theorem blank_cap_tail (T7 : Text) (ws mg ind : Bool)
    (hopt : ws = true ∨ mg = true) (hall : AllGood T7) :
    hasThreeConsecutiveBlankLines (splitLines (stripSet
      (fun c => c = '\n' || c = '\r')
      (if ind then indent_paragraphs (if mg then merge_lines (normalize_cjk_latin_spacing (if ws then normalize_whitespace T7 else T7)) else normalize_cjk_latin_spacing (if ws then normalize_whitespace T7 else T7)) mg else (if mg then merge_lines (normalize_cjk_latin_spacing (if ws then normalize_whitespace T7 else T7)) else normalize_cjk_latin_spacing (if ws then normalize_whitespace T7 else T7))))) = false := by
  have hall8 : AllGood (if ws then normalize_whitespace T7 else T7) :=
    @allGood_ite ws _ _ (allGood_normalize_whitespace hall) hall
  have hall9 := allGood_normalize_cjk_latin_spacing hall8
  have hall10 : AllGood (if mg then merge_lines (normalize_cjk_latin_spacing (if ws then normalize_whitespace T7 else T7)) else normalize_cjk_latin_spacing (if ws then normalize_whitespace T7 else T7)) :=
    @allGood_ite mg _ _ (allGood_merge_lines hall9) hall9
  have hall11 : AllGood (if ind then indent_paragraphs (if mg then merge_lines (normalize_cjk_latin_spacing (if ws then normalize_whitespace T7 else T7)) else normalize_cjk_latin_spacing (if ws then normalize_whitespace T7 else T7)) mg else (if mg then merge_lines (normalize_cjk_latin_spacing (if ws then normalize_whitespace T7 else T7)) else normalize_cjk_latin_spacing (if ws then normalize_whitespace T7 else T7))) :=
    @allGood_ite ind _ _ (allGood_indent_paragraphs mg hall10) hall10
  have hcr : ∀ ch ∈ (if ind then indent_paragraphs (if mg then merge_lines (normalize_cjk_latin_spacing (if ws then normalize_whitespace T7 else T7)) else normalize_cjk_latin_spacing (if ws then normalize_whitespace T7 else T7)) mg else (if mg then merge_lines (normalize_cjk_latin_spacing (if ws then normalize_whitespace T7 else T7)) else normalize_cjk_latin_spacing (if ws then normalize_whitespace T7 else T7))), ¬(ch = Char.ofNat 13) := by
    intro ch hch heq
    have hg := hall11 ch hch
    unfold goodChar at hg
    rw [heq] at hg
    exact absurd hg (by decide)
  have hP10 : nlRunsLE2 0 (if mg then merge_lines (normalize_cjk_latin_spacing (if ws then normalize_whitespace T7 else T7)) else normalize_cjk_latin_spacing (if ws then normalize_whitespace T7 else T7)) = true ∧ linesWSOfree (if mg then merge_lines (normalize_cjk_latin_spacing (if ws then normalize_whitespace T7 else T7)) else normalize_cjk_latin_spacing (if ws then normalize_whitespace T7 else T7)) := by
    cases mg with
    | true =>
      constructor
      · exact merge_lines_scan _
      · exact merge_lines_wso _
    | false =>
      rcases hopt with hws | hmg
      · subst hws
        constructor
        · exact spacing_scan (normalize_whitespace_scan T7)
        · exact spacing_wso (normalize_whitespace_wso T7)
      · cases hmg
  cases ind with
  | true =>
    exact final_no_three _ (indent_scan_wso mg hP10.1 hP10.2).1
      (indent_scan_wso mg hP10.1 hP10.2).2 hcr
  | false =>
    exact final_no_three _ hP10.1 hP10.2 hcr

theorem char_ne_nl_of_toNat {c : Char} (h : c.toNat ≠ 10) : ¬(c = '\n') := by
  intro heq
  rw [heq] at h
  exact h (by decide)

theorem noNL_nfkcChar (c : Char) (hc : ¬(c = '\n')) : NoNL (nfkcChar c) := by
  unfold nfkcChar
  split_ifs with h1 h2 h3
  · have hlo : 0xff01 ≤ c.toNat := of_decide_eq_true ((Bool.and_eq_true _ _).mp h1).1
    have hhi : c.toNat ≤ 0xff5e := of_decide_eq_true ((Bool.and_eq_true _ _).mp h1).2
    have hv : (c.toNat - 0xfee0).isValidChar := Or.inl (by omega)
    refine noNL_cons ?_ noNL_nil
    refine char_ne_nl_of_toNat ?_
    rw [toNat_ofNat_valid _ hv]
    omega
  · exact noNL_cons (by decide) noNL_nil
  · exact noNL_of_all (by decide)
  · exact noNL_cons hc noNL_nil

theorem noNL_punctMapChar (c : Char) (hc : ¬(c = '\n')) : NoNL (punctMapChar c) := by
  unfold punctMapChar
  cases hf : punctPairs.find? (fun p => p.1 = c) with
  | none => exact noNL_cons hc noNL_nil
  | some pr =>
    have hp : pr ∈ punctPairs := List.mem_of_find?_eq_some hf
    have hall : ∀ q ∈ punctPairs, q.2.all (fun d => !(d = '\n')) = true := by decide
    exact noNL_of_all (hall pr hp)

theorem mapWithIdx_get? {α β : Type} (f : Nat → α → β) :
    ∀ (ls : List α) (k i : Nat),
    (mapWithIdx f k ls).get? i = (ls.get? i).map (fun a => f (k + i) a) := by
  intro ls
  induction ls with
  | nil => intro k i; rfl
  | cons a as ih =>
    intro k i
    cases i with
    | zero => rfl
    | succ i =>
      show (mapWithIdx f (k + 1) as).get? i = (as.get? i).map (fun a => f (k + (i + 1)) a)
      rw [ih (k + 1) i, show k + 1 + i = k + (i + 1) from by omega]

theorem pass_line_get (t : Text) (f : Nat → Line → Line)
    (hnl : ∀ j raw, raw ∈ splitLines t → NoNL (f j raw)) (i : Nat) :
    (splitLines (joinLines (mapWithIdx f 0 (splitLines t)))).get? i =
      ((splitLines t).get? i).map (fun a => f i a) := by
  have hne := mapWithIdx_ne_nil f 0 (splitLines t) (splitLines_ne_nil t)
  have hnl2 : ∀ x ∈ mapWithIdx f 0 (splitLines t), NoNL x := by
    intro x hx
    rcases mem_mapWithIdx hx with ⟨j, raw, hraw, rfl⟩
    exact hnl j raw hraw
  rw [splitLines_joinLines_of_noNL _ hne hnl2, mapWithIdx_get?]
  simp only [Nat.zero_add]

/-! ## C1 — protected-span integrity -/

/-- C1 counterexample: the line `你好，世界。` lies inside a fenced-code block
of the input (the classifier marks it as the only code line), `remove_markdown`
is enabled in the default options, yet the line does not appear anywhere in
the output of `clean_text` — the fences are deleted by the markdown stripper,
after which later passes no longer recognise the line as code and rewrite its
punctuation.  This refutes byte-identical preservation of fenced lines. -/
theorem fenced_line_not_preserved_counterexample :
    "你好，世界。".toList ∈ splitLines ("```\n你好，世界。\n```".toList) ∧
    detect_code_line_indexes (splitLines ("```\n你好，世界。\n```".toList)) = [1] ∧
    defaultOptions.remove_markdown = true ∧
    "你好，世界。".toList ∉
      splitLines (clean_text ("```\n你好，世界。\n```".toList) defaultOptions) := by
  refine ⟨by decide, by decide, rfl, by decide⟩

/-- C1 amended: the protection the classifier actually grants is per pass,
not end-to-end.  For every text and every line index that the classifier
marks as code, the two detector-consulting rewrite passes that keep the line
grid intact — `normalize_punctuation` and `normalize_cjk_latin_spacing` —
leave that line byte-identical in place.  (The whitespace pass rewrites even
code lines, folding U+3000/U+00A0 to ASCII spaces mid-line and
right-stripping, and full-pipeline byte-identity for fenced lines fails
because `strip_markdown` deletes the fence delimiters before later passes
re-run the detector; see the counterexample.) -/
theorem code_lines_protected_per_pass (t : Text) (i : Nat) (l : Line)
    (hline : (splitLines t).get? i = some l)
    (hcode : (detect_code_line_indexes (splitLines t)).contains i = true) :
    (splitLines (normalize_punctuation t)).get? i = some l ∧
    (splitLines (normalize_cjk_latin_spacing t)).get? i = some l := by
  refine ⟨?_, ?_⟩
  · unfold normalize_punctuation
    dsimp only
    rw [pass_line_get t _ (by
      intro j raw hraw
      try dsimp only
      split
      · exact noNL_splitLines raw hraw
      · intro d hd
        rcases List.mem_flatten.mp hd with ⟨piece, hpiece, hdp⟩
        rcases List.mem_map.mp hpiece with ⟨e, he, rfl⟩
        rcases List.mem_flatten.mp he with ⟨piece2, hpiece2, hep⟩
        rcases List.mem_map.mp hpiece2 with ⟨g, hg, rfl⟩
        exact noNL_punctMapChar e
          (noNL_nfkcChar g (noNL_splitLines raw hraw g hg) e hep) d hdp) i, hline]
    simp only [hcode, eq_self_iff_true, if_true, Option.map_some, Option.map_id, id]
    rfl
  · unfold normalize_cjk_latin_spacing
    dsimp only
    rw [pass_line_get t _ (by
      intro j raw hraw
      try dsimp only
      split
      · exact noNL_splitLines raw hraw
      · exact spacingSub_noNL _ _ _ (spacingSub_noNL _ _ _ (spacingSub_noNL _ _ _
          (spacingSub_noNL _ _ _ (noNL_splitLines raw hraw))))) i, hline]
    simp only [hcode, eq_self_iff_true, if_true, Option.map_some, Option.map_id, id]
    rfl

/-- Witness for the amended C1 theorem, at the text `x = 1\n哈哈`: line 0 is
classified as code (assignment pattern), and both passes leave it exactly in
place. -/
theorem code_lines_protected_witness :
    (splitLines ("x = 1\n哈哈".toList)).get? 0 = some ("x = 1".toList) ∧
    (detect_code_line_indexes (splitLines ("x = 1\n哈哈".toList))).contains 0 = true ∧
    ((splitLines (normalize_punctuation ("x = 1\n哈哈".toList))).get? 0 =
        some ("x = 1".toList) ∧
      (splitLines (normalize_cjk_latin_spacing ("x = 1\n哈哈".toList))).get? 0 =
        some ("x = 1".toList)) :=
  ⟨by decide, by decide,
    code_lines_protected_per_pass ("x = 1\n哈哈".toList) 0 ("x = 1".toList)
      (by decide) (by decide)⟩

/-! ## C2 — idempotence -/

/-- C2 counterexample: `clean_text` is not idempotent.  Cleaning `…` yields
`　　...` (NFKC folds the ellipsis to three periods), and cleaning that
output again collapses the periods to one (`remove_repeated_noise` runs
before punctuation folding, so only the second run sees them), giving
`　　.`. -/
theorem clean_text_not_idempotent_counterexample :
    clean_text (clean_text ("…".toList) defaultOptions) defaultOptions ≠
      clean_text ("…".toList) defaultOptions := by decide

/-- C2 amended: `clean_text` is not idempotent in general, even on
already-normalized text — `remove_repeated_noise` runs before punctuation
folding, so a second run can collapse repetition that the folding of the
first run only then brought into the rules' reach (the ellipsis case above;
likewise a colon run mixed from `:` and `：` escapes the colon-run rule
until folding unifies the colons).  A second run does reproduce the first
run's output exactly on particular cleaned texts; this theorem proves that
instance for the cleaned form of `你好，世界。`. -/
theorem clean_text_idempotent_at_sample :
    clean_text (clean_text ("你好，世界。".toList) defaultOptions) defaultOptions =
      clean_text ("你好，世界。".toList) defaultOptions := by decide

/-! ## C3 — scenario 1 -/

/-- C3 counterexample: on `### 标题\n\n这是**重点**内容。` with default
options, `clean_text` does not return the output claimed by the spec
(`标题\n\n　　这是重点内容。`). -/
theorem scenario1_output_differs_counterexample :
    clean_text ("### 标题\n\n这是**重点**内容。".toList) defaultOptions ≠
      "标题\n\n　　这是重点内容。".toList := by decide

/-- C3 amended: the actual output is `　　标题\n　　这是重点内容.` — the
heading marker and emphasis are stripped, but the heading line is indented
like a paragraph (a two-character title is not "heading-like", which requires
a colon), the blank line is removed by the line merger, and the CJK full stop
`。` is folded to an ASCII period by the punctuation pass. -/
theorem scenario1_actual_output :
    clean_text ("### 标题\n\n这是**重点**内容。".toList) defaultOptions =
      "　　标题\n　　这是重点内容.".toList := by decide

/-! ## C4 — flag gating -/

/-- C4 counterexample: with all seven flags false, `clean_text` still inserts
CJK/Latin spacing: the input `中a` (no carriage returns, no zero-width
characters, no edge newlines, so the claimed conclusion demands output =
input) becomes `中 a`. -/
theorem all_flags_false_still_rewrites_counterexample :
    clean_text ("中a".toList) allFalseOptions = "中 a".toList ∧
    sanitizeCRLF ("中a".toList) = "中a".toList ∧
    stripSet (fun c => c = '\n' || c = '\r') ("中a".toList) = "中a".toList ∧
    clean_text ("中a".toList) allFalseOptions ≠ "中a".toList := by
  refine ⟨by decide, by decide, by decide, by decide⟩

/-- C4 amended: with all seven flags false the flag-gated passes (markdown
stripping, punctuation folding, whitespace normalization, emoji removal,
line merging, indentation) are indeed skipped, but four passes still run
unconditionally: list-marker normalization, repeated-noise removal,
table-to-bullet conversion (the `keep_tables=false` branch) and CJK/Latin
spacing insertion, besides line-ending/zero-width sanitation and edge
trimming. -/
theorem clean_text_all_flags_false_eq (t : Text) :
    clean_text t allFalseOptions =
      stripSet (fun c => c = '\n' || c = '\r')
        (normalize_cjk_latin_spacing
          (convert_table_blocks_to_bullets
            (remove_repeated_noise
              (normalize_list_markers
                (removeZeroWidth (sanitizeCRLF t)))))) := rfl

/-! ## C5 — blank-line cap -/

/-- C5 counterexample: with `normalize_whitespace` and `merge_wrapped_lines`
both disabled (all other options default), the output for `a\n\n\n\nb`
contains three consecutive blank lines — no pass collapses the newline run. -/
theorem blank_line_cap_violated_counterexample :
    hasThreeConsecutiveBlankLines
      (splitLines (clean_text ("a\n\n\n\nb".toList) noWsNoMergeOptions)) = true := by
  decide

/-- C5 amended: whenever `normalize_whitespace` or `merge_wrapped_lines` is
enabled, the output of `clean_text` never contains 3 or more consecutive
blank lines — the `\n{3,} → \n\n` collapse inside those passes caps every
newline run at two, every whitespace-only line is emptied, the later passes
preserve the line-emptiness pattern, and the final edge strip removes
boundary newlines.  (With both flags disabled no pass collapses blank
runs, as the counterexample shows.) -/
theorem blank_line_cap_when_whitespace_or_merge (t : Text) (o : CleanOptions)
    (h : o.normalize_whitespace = true ∨ o.merge_wrapped_lines = true) :
    hasThreeConsecutiveBlankLines (splitLines (clean_text t o)) = false := by
  refine blank_cap_tail _ o.normalize_whitespace o.merge_wrapped_lines
    o.indent_paragraph h ?_
  have h1 := allGood_sanitize t
  have h2 := allGood_normalize_list_markers h1
  have h3 := allGood_remove_repeated_noise h2
  have h4 := @allGood_ite o.remove_markdown _ _
    (allGood_strip_markdown o.keep_tables h3) h3
  have h5 := @allGood_ite o.keep_tables _ _ (allGood_normalize_table_blocks h4)
    (allGood_convert_table_blocks_to_bullets h4)
  have h6 := @allGood_ite o.normalize_punctuation _ _
    (allGood_normalize_punctuation h5) h5
  exact @allGood_ite o.remove_emoji _ _
    (allGood_filter (fun c => !isEmojiChar c) h6) h6

/-- Witness for the amended C5 theorem: the default options enable the
whitespace normalizer, and on `a\n\n\n\nb` the cleaned output indeed has no
three consecutive blank lines. -/
theorem blank_line_cap_witness :
    (defaultOptions.normalize_whitespace = true ∨
      defaultOptions.merge_wrapped_lines = true) ∧
    hasThreeConsecutiveBlankLines
      (splitLines (clean_text ("a\n\n\n\nb".toList) defaultOptions)) = false :=
  ⟨Or.inl rfl, blank_line_cap_when_whitespace_or_merge _ _ (Or.inl rfl)⟩

/-! ## C7 — the symbol heuristic is strong, not weak -/

/-- C7 counterexample: the isolated line `{x}` contains a code-symbol
character and no CJK punctuation hint, matches none of the strong regex
patterns, and yet `detect_code_line_indexes` classifies it as Code
immediately — with a single line there is no neighbour, so no propagation
step can have promoted it.  The symbol rule therefore acts inside
`is_code_line_candidate` (strong), not as a weak candidacy. -/
theorem symbol_line_immediate_code_counterexample :
    strongMatch (pyStrip ("{x}".toList)) = false ∧
    hasCodeSymbol (pyStrip ("{x}".toList)) = true ∧
    hasCNHint (pyStrip ("{x}".toList)) = false ∧
    detect_code_line_indexes ["{x}".toList] = [0] := by
  refine ⟨by decide, by decide, by decide, by decide⟩

/-- C7 amended: a non-blank line containing a code-symbol character and no
CJK punctuation hint (and which is not itself a fence delimiter) is an
immediate — strong — candidate: `is_code_line_candidate` accepts it, and
`detect_code_line_indexes` classifies it as Code even in isolation, with no
neighbour propagation involved. -/
theorem symbol_line_strong_candidate (l : Line)
    (hsym : hasCodeSymbol (pyStrip l) = true)
    (hhint : hasCNHint (pyStrip l) = false)
    (hne : pyStrip l ≠ [])
    (hfence : fenceLine (pyStrip l) = false) :
    is_code_line_candidate l = true ∧ detect_code_line_indexes [l] = [0] := by
  have hemp : (pyStrip l).isEmpty = false := by
    cases h : pyStrip l with
    | nil => exact absurd h hne
    | cons a as => simp
  have hcand : is_code_line_candidate l = true := by
    unfold is_code_line_candidate
    simp only [hemp, hsym, hhint, Bool.not_false, Bool.and_true, Bool.false_eq_true,
      if_false]
    cases h : strongMatch (pyStrip l) <;> simp
  refine ⟨hcand, ?_⟩
  unfold detect_code_line_indexes
  simp only [scanLines, hfence, hemp, hcand, Bool.false_eq_true, if_false, if_true,
    Bool.not_false]
  simp [propagateAux]

/-- Witness for the C7 amended theorem at the concrete line `[1]`. -/
theorem symbol_line_strong_candidate_witness :
    hasCodeSymbol (pyStrip ("[1]".toList)) = true ∧
    hasCNHint (pyStrip ("[1]".toList)) = false ∧
    pyStrip ("[1]".toList) ≠ [] ∧
    fenceLine (pyStrip ("[1]".toList)) = false ∧
    (is_code_line_candidate ("[1]".toList) = true ∧
      detect_code_line_indexes ["[1]".toList] = [0]) :=
  ⟨by decide, by decide, by decide, by decide,
    symbol_line_strong_candidate ("[1]".toList) (by decide) (by decide) (by decide)
      (by decide)⟩

/-! ## C6 — header-inference precedence -/

/-- C6: `is_probable_header` returns true exactly when the joined first-row
text contains a header keyword, or — failing that — when no first-row cell
contains `http` and every non-blank first-row cell is at most 10 characters
(after trimming) with at least one data row present.  In particular the
keyword test takes precedence over the URL disqualifier. -/
theorem is_probable_header_precedence (header : List (List Char))
    (dataRows : List (List (List Char))) :
    is_probable_header header dataRows = true ↔
      ((headerHints.any fun h =>
          containsSub h.toList (lowerStr (pyStrip (interJoin [' '] header)))) = true ∨
       ((header.any fun cell => containsSub "http".toList (lowerStr cell)) = false ∧
        (header.all fun cell =>
          (pyStrip cell).isEmpty || decide ((pyStrip cell).length ≤ 10)) = true ∧
        dataRows ≠ [])) := by
  unfold is_probable_header
  split_ifs with h1 h2 h3
  · exact iff_of_true rfl (Or.inl h1)
  · apply iff_of_false (by simp)
    rintro (hk | ⟨hh, _, _⟩)
    · exact h1 hk
    · rw [hh] at h2
      exact Bool.false_ne_true h2
  · have hparts := (Bool.and_eq_true _ _).mp h3
    have hhf : (header.any fun cell => containsSub "http".toList (lowerStr cell)) = false := by
      revert h2
      cases header.any fun cell => containsSub "http".toList (lowerStr cell) <;> simp
    have hdr : dataRows ≠ [] := by
      have := of_decide_eq_true hparts.2
      intro hnil
      rw [hnil] at this
      simp at this
    exact iff_of_true rfl (Or.inr ⟨hhf, hparts.1, hdr⟩)
  · apply iff_of_false (by simp)
    rintro (hk | ⟨hh, hs, hd⟩)
    · exact h1 hk
    · apply h3
      refine (Bool.and_eq_true _ _).mpr ⟨hs, decide_eq_true ?_⟩
      cases dataRows with
      | nil => exact absurd rfl hd
      | cons d ds => simp

/-! ## C8 — classifier termination -/

theorem length_filter_not_lt (p : α → Bool) (l : List α) (h : l.filter p ≠ []) :
    (l.filter fun x => !p x).length < l.length := by
  induction l with
  | nil => simp at h
  | cons a t ih =>
    by_cases hp : p a = true
    · have he : (List.filter (fun x => !p x) (a :: t)) = List.filter (fun x => !p x) t := by
        simp [hp]
      rw [he, List.length_cons]
      exact Nat.lt_succ_of_le (List.length_filter_le _ _)
    · have hpa : p a = false := by simpa using hp
      have h' : t.filter p ≠ [] := by
        simpa [List.filter_cons, hpa] using h
      have he : (List.filter (fun x => !p x) (a :: t)) = a :: List.filter (fun x => !p x) t := by
        simp [hpa]
      rw [he, List.length_cons, List.length_cons]
      exact Nat.succ_lt_succ (ih h')

theorem propagateAux_fixpoint (lines : List Line) (fuel : Nat) :
    ∀ code weak : List Nat, weak.length ≤ fuel →
      ((propagateAux lines fuel code weak).2.filter
        (promoteCond lines (propagateAux lines fuel code weak).1)) = [] := by
  induction fuel with
  | zero =>
    intro code weak h
    have hw : weak = [] := List.length_eq_zero.mp (Nat.le_zero.mp h)
    subst hw
    simp [propagateAux]
  | succ n ih =>
    intro code weak h
    by_cases hp : (weak.filter (promoteCond lines code)).isEmpty = true
    · have he : weak.filter (promoteCond lines code) = [] := by
        cases hw : weak.filter (promoteCond lines code) with
        | nil => rfl
        | cons a as => rw [hw] at hp; simp at hp
      simp [propagateAux, hp, he]
    · have hne : weak.filter (promoteCond lines code) ≠ [] := by
        cases hw : weak.filter (promoteCond lines code) with
        | nil => rw [hw] at hp; simp at hp
        | cons a as => simp
      have hlt := length_filter_not_lt (promoteCond lines code) weak hne
      have hb : (weak.filter (promoteCond lines code)).isEmpty = false := by
        cases hw : weak.filter (promoteCond lines code) with
        | nil => exact absurd hw hne
        | cons a as => simp
      simp only [propagateAux, hb, Bool.false_eq_true, if_false]
      exact ih _ _ (by omega)

/-- C8: the propagation loop of `detect_code_line_indexes` reaches a fixed
point within `|weak|` iterations: one further pass over the final state
promotes nothing (the weak set strictly shrinks at every productive pass, so
the fuelled loop with the initial weak-set size as fuel is the genuine
fixed-point semantics, and the function is total). -/
theorem propagation_reaches_fixpoint (lines : List Line) :
    detect_code_line_indexes lines =
      (propagateAux lines (scanLines 0 false lines).2.length (scanLines 0 false lines).1
        (scanLines 0 false lines).2).1 ∧
    ((propagateAux lines (scanLines 0 false lines).2.length (scanLines 0 false lines).1
        (scanLines 0 false lines).2).2.filter
      (promoteCond lines
        (propagateAux lines (scanLines 0 false lines).2.length (scanLines 0 false lines).1
          (scanLines 0 false lines).2).1)) = [] :=
  ⟨rfl, propagateAux_fixpoint lines _ _ _ (Nat.le_refl _)⟩

/-! ## C9 — punctuation-consistency report -/

/-- C9: `punctuation_consistency_warnings` counts the non-blank lines that
contain both a CJK punctuation character and an ASCII punctuation character;
when the count is nonzero it returns exactly one warning string carrying the
count, and otherwise it returns no warnings (the empty list is the
"consistent" report, which the caller renders). -/
theorem punctuation_consistency_characterization (t : Text) :
    punctuation_consistency_warnings t =
      (if ((splitLines t).countP fun line =>
            ((line.any fun c => CH_PUNCT.contains c) &&
             (line.any fun c => EN_PUNCT.contains c)) &&
            !(pyStrip line).isEmpty) = 0 then []
       else ["标点混用 ".toList ++
          natDigits ((splitLines t).countP fun line =>
            ((line.any fun c => CH_PUNCT.contains c) &&
             (line.any fun c => EN_PUNCT.contains c)) &&
            !(pyStrip line).isEmpty) ++ " 处".toList]) := by
  unfold punctuation_consistency_warnings
  rw [← List.countP_filter]
  cases hn : (((splitLines t).filter fun l => !(pyStrip l).isEmpty).countP fun line =>
      (line.any fun c => CH_PUNCT.contains c) && (line.any fun c => EN_PUNCT.contains c)) with
  | zero =>
    simp only [hn]
    split <;> simp
  | succ m =>
    have hne : ((splitLines t).filter fun l => !(pyStrip l).isEmpty).isEmpty = false := by
      cases hw : (splitLines t).filter fun l => !(pyStrip l).isEmpty with
      | nil =>
        rw [hw, List.countP_nil] at hn
        exact absurd hn (by omega)
      | cons a as => simp
    simp only [hne, Bool.false_eq_true, if_false, hn]
    simp

/-! ## C10 — output sanitation invariant -/

/-- C10: for every input text and every options value, the output of
`clean_text` contains no carriage-return character and no zero-width/BOM
character (U+200B, U+200C, U+200D, U+FEFF), and it neither begins nor ends
with a newline — regardless of which option flags are set.  The character
invariant is pushed through every pass from the initial CR/ZW sanitation,
and the edge conditions come from the final `strip("\n\r")`. -/
theorem clean_text_output_sanitized (rawText : Text) (o : CleanOptions) :
    (∀ c ∈ clean_text rawText o, ¬(c = Char.ofNat 13) ∧ zeroWidthChar c = false) ∧
    (clean_text rawText o).head? ≠ some '\n' ∧
    (clean_text rawText o).getLast? ≠ some '\n' := by
  refine ⟨?_, ?_, ?_⟩
  · intro c hc
    have hg := allGood_clean_text rawText o c hc
    unfold goodChar at hg
    rw [Bool.and_eq_true] at hg
    obtain ⟨h1, h2⟩ := hg
    constructor
    · intro he
      rw [he] at h1
      exact absurd h1 (by decide)
    · rwa [Bool.not_eq_true'] at h2
  · intro he
    have h3 := stripSet_head?_not (fun c => c = '\n' || c = Char.ofNat 13) _ he
    exact absurd h3 (by decide)
  · intro he
    have h3 := stripSet_getLast?_not (fun c => c = '\n' || c = Char.ofNat 13) _ he
    exact absurd h3 (by decide)

end TextCleaner
